import Mathlib

/-!
# A shallow embedding of the ledger engine (package `blockchain`)

The Go package keeps a hash-linked block store, a pool of pending transactions and
an index of unspent outputs.  This file translates its data types and operations into
Lean functions and states the properties of the specification over them.

Conventions of the embedding

* A byte string (`[]byte` used as a key, `string`) is a list of byte codes.
* A Go slice value is either `nil` or a non-nil sequence; `encoding/json` and
  `encoding/gob` tell the two apart, so the embedding does as well (`Slice`).
* Go `int`/`int64` values are integers; additions wrap to 64 bits (`goAdd`).
* `crypto/sha256`, `encoding/json` and `encoding/gob` are library code outside the
  repository; they are the fields of `Lib`, a parameter of every operation.
* `time.Now().Unix()` is an explicit argument.
* A LevelDB handle is its content together with the outcomes (failure or not) of
  the calls still to come, so that store errors can be followed through the code.
-/

namespace Blockchain

/-! ## Byte strings, slices and machine integers -/

/-- Byte strings: keys of the stores, digests, Go `string` values. -/
abbrev Bytes := List Nat

/-- A Go slice value: `nil`, or a non-nil slice with the given elements. -/
inductive Slice (α : Type) where
  | nil : Slice α
  | of : List α → Slice α
deriving DecidableEq, Repr

/-- The elements of a slice (`range s`, `string(s)`); none for `nil`. -/
def Slice.elems {α : Type} : Slice α → List α
  | .nil => []
  | .of xs => xs

/-- Go `len(s)`. -/
def Slice.len {α : Type} (s : Slice α) : Nat := s.elems.length

/-- Reduction of an integer to the two's-complement 64-bit range. -/
def wrapInt64 (x : Int) : Int := (x + 2 ^ 63) % 2 ^ 64 - 2 ^ 63

/-- Go `a + b` on `int` (64 bits). -/
def goAdd (a b : Int) : Int := wrapInt64 (a + b)

/-- The constant `math.MaxInt32`. -/
def MaxInt32 : Nat := 2147483647

/-- The constant `math.MaxInt64`. -/
def MaxInt64 : Int := 9223372036854775807

/-- Decimal digits of a natural number, most significant first; the first argument
bounds the number of digits. -/
def decimalDigits : Nat → Nat → Bytes
  | 0, _ => []
  | fuel + 1, n =>
    if n < 10 then [48 + n] else decimalDigits fuel (n / 10) ++ [48 + n % 10]

/-- Go `fmt.Sprintf("%d", x)`. -/
def decimal (x : Int) : Bytes :=
  if x < 0 then 45 :: decimalDigits (x.natAbs + 1) x.natAbs
  else decimalDigits (x.natAbs + 1) x.natAbs

/-- One lower-case hexadecimal digit. -/
def hexDigit (n : Nat) : Nat := if n < 10 then 48 + n else 87 + n

/-- Go `hex.EncodeToString(b)`, also `fmt.Sprintf("%x", b)` on a byte array. -/
def hexEncode (bs : Bytes) : Bytes :=
  bs.flatMap fun b => [hexDigit (b / 16 % 16), hexDigit (b % 16)]

/-! ## types.go -/

/-- Go struct `Input`. -/
structure Input where
  PreviousKey : Slice Nat
  OutputIndex : Int
  Signature : Slice Nat
  PubKey : Slice Nat
deriving DecidableEq, Repr

/-- Go struct `Output`. -/
structure Output where
  Value : Int
  PubKey : Slice Nat
deriving DecidableEq, Repr

/-- Go struct `Spend`, the value stored in the UTXO index. -/
structure Spend where
  Value : Int
  PubKey : Slice Nat
deriving DecidableEq, Repr

/-- Go struct `Transaction`. -/
structure Transaction where
  Version : Int
  Inputs : Slice Input
  Outputs : Slice Output
  Timestamp : Int
  Fee : Int
deriving DecidableEq, Repr

/-- Go struct `Block`. -/
structure Block where
  Index : Int
  Timestamp : Int
  Transactions : Slice Transaction
  PrevHash : Slice Nat
  Hash : Slice Nat
  Nonce : Int
deriving DecidableEq, Repr

/-- The library functions the package calls.  `sha256.Sum256` returns a 32-byte
array, and `encoding/json` reads a `Spend` record back as it was written; both
facts are part of the interface. -/
structure Lib where
  /-- `sha256.Sum256`. -/
  sha256 : Bytes → Bytes
  sha256_size : ∀ d, (sha256 d).length = 32
  /-- `json.Marshal` of a `Transaction` (it cannot fail on this type). -/
  jsonMarshalTx : Transaction → Bytes
  /-- `gob` encoding of a `Transaction` (it cannot fail on this type). -/
  gobEncodeTx : Transaction → Bytes
  /-- `gob` decoding into a zero `Transaction`; `none` when the bytes do not decode. -/
  gobDecodeTx : Bytes → Option Transaction
  /-- `gob` encoding of a `Block`. -/
  gobEncodeBlock : Block → Bytes
  /-- `gob` decoding into a zero `Block`; `none` when the bytes do not decode. -/
  gobDecodeBlock : Bytes → Option Block
  /-- `json.Marshal` of a `Spend`. -/
  jsonMarshalSpend : Spend → Bytes
  /-- `json.Unmarshal` into a zero `Spend`; `none` when the bytes do not decode. -/
  jsonUnmarshalSpend : Bytes → Option Spend
  spend_roundtrip : ∀ s, jsonUnmarshalSpend (jsonMarshalSpend s) = some s

/-- Error classes of the package: the store's `ErrNotFound`, any other store
failure, a decoding failure, and the pool's duplicate rejection. -/
inductive Err where
  | notFound
  | store
  | decode
  | duplicate
deriving DecidableEq, Repr

instance {ε α : Type} [DecidableEq ε] [DecidableEq α] : DecidableEq (Except ε α)
  | .ok a, .ok b => decidable_of_iff (a = b) (by simp)
  | .error a, .error b => decidable_of_iff (a = b) (by simp)
  | .ok _, .error _ => isFalse (by simp)
  | .error _, .ok _ => isFalse (by simp)

/-- `Transaction.Key`: hex of the SHA-256 digest of the JSON form. -/
def Transaction.Key (L : Lib) (t : Transaction) : Bytes :=
  hexEncode (L.sha256 (L.jsonMarshalTx t))

/-- `Transaction.Serialize`: the gob encoding. -/
def Transaction.Serialize (L : Lib) (t : Transaction) : Bytes :=
  L.gobEncodeTx t

/-- `Transaction.Deserialize` into a zero transaction. -/
def Transaction.Deserialize (L : Lib) (data : Bytes) : Option Transaction :=
  L.gobDecodeTx data

/-- `Block.Serialize`. -/
def Block.Serialize (L : Lib) (b : Block) : Bytes := L.gobEncodeBlock b

/-- `Block.Deserialize` into a zero block. -/
def Block.Deserialize (L : Lib) (data : Bytes) : Option Block := L.gobDecodeBlock data

/-! ## The key-value store (LevelDB) -/

/-- Content of a key-value store: entries with pairwise distinct keys.  The list is
not kept in the key order in which LevelDB iterates; the one scan of the package,
`Set.Balance`, returns the same result for every order of the entries. -/
structure KV where
  entries : List (Bytes × Bytes)
  nodup : (entries.map Prod.fst).Nodup

instance : DecidableEq KV := fun a b =>
  decidable_of_iff (a.entries = b.entries) (by cases a; cases b; simp)

/-- The empty store. -/
def KV.empty : KV := ⟨[], List.nodup_nil⟩

/-- Value stored under a key. -/
def KV.get (s : KV) (k : Bytes) : Option Bytes :=
  (s.entries.find? fun e => decide (e.1 = k)).map Prod.snd

/-- Removal of a key. -/
def KV.erase (s : KV) (k : Bytes) : KV :=
  ⟨s.entries.filter fun e => decide (e.1 ≠ k),
    s.nodup.sublist ((List.filter_sublist _).map _)⟩

/-- Upsert of a key. -/
def KV.put (s : KV) (k v : Bytes) : KV :=
  ⟨(k, v) :: (s.erase k).entries,
    List.nodup_cons.2 ⟨by simp [KV.erase], (s.erase k).nodup⟩⟩

/-- A LevelDB handle: the content, and for each coming call whether it fails with
a store error (`true`); past the end of the list no call fails. -/
structure DB where
  kv : KV
  faults : List Bool
deriving DecidableEq

/-- Whether the next call fails. -/
def DB.fails (db : DB) : Bool := db.faults.headD false

/-- The handle after one call that left the content alone. -/
def DB.step (db : DB) : DB := { db with faults := db.faults.tail }

/-- `leveldb.OpenFile`. -/
def DB.Open (db : DB) : Except Err DB :=
  if db.fails then .error .store else .ok db.step

/-- `db.Get(key, nil)`. -/
def DB.Get (db : DB) (key : Bytes) : Except Err Bytes × DB :=
  if db.fails then (.error .store, db.step)
  else match db.kv.get key with
    | none => (.error .notFound, db.step)
    | some v => (.ok v, db.step)

/-- `db.Put(key, value, nil)`. -/
def DB.Put (db : DB) (key value : Bytes) : Option Err × DB :=
  if db.fails then (some .store, db.step)
  else (none, { kv := db.kv.put key value, faults := db.faults.tail })

/-- `db.Delete(key, nil)`; deleting an absent key is not an error in LevelDB. -/
def DB.Delete (db : DB) (key : Bytes) : Option Err × DB :=
  if db.fails then (some .store, db.step)
  else (none, { kv := db.kv.erase key, faults := db.faults.tail })

/-! ## pool.go -/

/-- Go struct `Pool`: the map from the serialized form of a transaction to the
transaction.  The order of the list stands for the iteration order of the Go map,
which the runtime leaves unspecified. -/
structure Pool where
  txs : List (Bytes × Transaction)
deriving DecidableEq

/-- `NewPool`. -/
def NewPool : Pool := ⟨[]⟩

/-- `Pool.List`: the pooled transactions, in map iteration order. -/
def Pool.List (p : Pool) : List Transaction := p.txs.map Prod.snd

/-- `Pool.Add`: rejects a transaction whose serialized form is already a key. -/
def Pool.Add (L : Lib) (p : Pool) (t : Transaction) : Option Err × Pool :=
  let key := t.Serialize L
  if p.txs.any fun e => decide (e.1 = key) then (some .duplicate, p)
  else (none, ⟨p.txs ++ [(key, t)]⟩)

/-- `Pool.Remove`: `delete(p.txs, key)`. -/
def Pool.Remove (p : Pool) (key : Bytes) : Pool :=
  ⟨p.txs.filter fun e => decide (e.1 ≠ key)⟩

/-! ## set.go -/

/-- Go struct `Set`: the UTXO index over its own LevelDB store. -/
structure Set where
  store : DB
deriving DecidableEq

/-- `NewSet`: opens the store. -/
def NewSet (db : DB) : Except Err Set :=
  match db.Open with
  | .error e => .error e
  | .ok db1 => .ok ⟨db1⟩

/-- The store key `fmt.Sprintf("%s:%d", txID, outputIndex)`. -/
def utxoKey (txID : Bytes) (outputIndex : Int) : Bytes :=
  txID ++ 58 :: decimal outputIndex

/-- `Set.Add`. -/
def Set.Add (L : Lib) (s : Set) (txID : Bytes) (outputIndex : Int) (utxo : Spend) :
    Option Err × Set :=
  let key := utxoKey txID outputIndex
  let value := L.jsonMarshalSpend utxo
  ((s.store.Put key value).1, ⟨(s.store.Put key value).2⟩)

/-- `Set.Find`. -/
def Set.Find (L : Lib) (s : Set) (txID : Bytes) (outputIndex : Int) :
    Except Err Spend × Set :=
  let key := utxoKey txID outputIndex
  match s.store.Get key with
  | (.error e, db1) => (.error e, ⟨db1⟩)
  | (.ok value, db1) =>
    match L.jsonUnmarshalSpend value with
    | none => (.error .decode, ⟨db1⟩)
    | some utxo => (.ok utxo, ⟨db1⟩)

/-- `Set.Remove`. -/
def Set.Remove (s : Set) (txID : Bytes) (outputIndex : Int) : Option Err × Set :=
  let key := utxoKey txID outputIndex
  ((s.store.Delete key).1, ⟨(s.store.Delete key).2⟩)

/-- The loop of `Set.Balance` over the entries the iterator yields. -/
def balanceLoop (L : Lib) (pubKey : Bytes) : List (Bytes × Bytes) → Int → Except Err Int
  | [], balance => .ok balance
  | e :: rest, balance =>
    match L.jsonUnmarshalSpend e.2 with
    | none => .error .decode
    | some utxo =>
      balanceLoop L pubKey rest
        (if utxo.PubKey.elems = pubKey then goAdd balance utxo.Value else balance)

/-- `Set.Balance`: a scan of the whole store.  An iterator that fails ends the scan
early and is reported by `iter.Error()`, so a failing scan returns an error. -/
def Set.Balance (L : Lib) (s : Set) (pubKey : Slice Nat) : Except Err Int × Set :=
  if s.store.fails then (.error .store, ⟨s.store.step⟩)
  else (balanceLoop L pubKey.elems s.store.kv.entries 0, ⟨s.store.step⟩)

/-! ## mining.go -/

/-- The constant `Difficulty`. -/
def Difficulty : Nat := 3

/-- Go struct `ProofOfWork`. -/
structure ProofOfWork where
  block : Block
  target : Bytes

/-- `NewProofOfWork`: the target is `Difficulty` characters `'0'`. -/
def NewProofOfWork (b : Block) : ProofOfWork := ⟨b, List.replicate Difficulty 48⟩

/-- `Block.HashTransactions`: digest of the concatenated JSON forms. -/
def Block.HashTransactions (L : Lib) (b : Block) : Bytes :=
  L.sha256 (b.Transactions.elems.flatMap L.jsonMarshalTx)

/-- `ProofOfWork.prepareData`. -/
def ProofOfWork.prepareData (L : Lib) (pow : ProofOfWork) (nonce : Int) : Bytes :=
  pow.block.PrevHash.elems ++ pow.block.HashTransactions L
    ++ decimal pow.block.Timestamp ++ decimal nonce

/-- The test of the loop body: `strings.HasPrefix(fmt.Sprintf("%x", hash), pow.target)`. -/
def ProofOfWork.accepts (pow : ProofOfWork) (hash : Bytes) : Bool :=
  pow.target.isPrefixOf (hexEncode hash)

/-- The loop of `ProofOfWork.Run` from the given `nonce` and `hash`; the first
argument bounds the number of iterations. -/
def ProofOfWork.runLoop (L : Lib) (pow : ProofOfWork) : Nat → Nat → Bytes → Bytes × Int
  | 0, nonce, hash => (hash, nonce)
  | fuel + 1, nonce, hash =>
    if nonce < MaxInt32 then
      if pow.accepts (L.sha256 (pow.prepareData L nonce)) then
        (L.sha256 (pow.prepareData L nonce), nonce)
      else pow.runLoop L fuel (nonce + 1) (L.sha256 (pow.prepareData L nonce))
    else (hash, nonce)

/-- `ProofOfWork.Run`: the loop from nonce 0 and the zero array; `MaxInt32`
iterations are all the loop condition allows. -/
def ProofOfWork.Run (L : Lib) (pow : ProofOfWork) : Bytes × Int :=
  pow.runLoop L MaxInt32 0 (List.replicate 32 0)

/-! ## block.go -/

/-- The bytes of `"genesis-reward"`. -/
def genesisReward : Bytes :=
  [103, 101, 110, 101, 115, 105, 115, 45, 114, 101, 119, 97, 114, 100]

/-- The transaction of the genesis block. -/
def genesisTx : Transaction :=
  { Version := 1, Inputs := .of [], Outputs := .of [{ Value := 100, PubKey := .of genesisReward }],
    Timestamp := 0, Fee := 0 }

/-- `NewGenesisBlock`, at clock reading `now`. -/
def NewGenesisBlock (L : Lib) (now : Int) : Block :=
  let block : Block :=
    { Index := 0, Timestamp := now, Transactions := .of [genesisTx], PrevHash := .of [],
      Hash := .nil, Nonce := 0 }
  let headers := block.PrevHash.elems ++ block.HashTransactions L
    ++ decimal block.Timestamp ++ decimal block.Nonce
  { block with Hash := .of (L.sha256 headers) }

/-! ## chain.go -/

/-- The constant `chainstateKey`, the bytes of `"chainTip"`. -/
def chainstateKey : Bytes := [99, 104, 97, 105, 110, 84, 105, 112]

/-- Go struct `Chain`. -/
structure Chain where
  tip : Slice Nat
  blocks : DB
  pool : Pool
  set : Set
deriving DecidableEq

/-- `NewChain` over the two stores as found on disk, at clock reading `now`. -/
def NewChain (L : Lib) (now : Int) (utxo blocks : DB) : Except Err Chain :=
  let pool := NewPool
  match NewSet utxo with
  | .error e => .error e
  | .ok set =>
    match blocks.Open with
    | .error e => .error e
    | .ok blocks0 =>
      match blocks0.Get chainstateKey with
      | (.error .notFound, blocks1) =>
        -- the failed `Get` returned a nil value, which is what `tip` holds below
        let tip : Slice Nat := .nil
        let genesis := NewGenesisBlock L now
        let serialized := genesis.Serialize L
        match blocks1.Put genesis.Hash.elems serialized with
        | (some e, _) => .error e
        | (none, blocks2) =>
          match blocks2.Put chainstateKey genesis.Hash.elems with
          | (some e, _) => .error e
          | (none, blocks3) => .ok { tip := tip, blocks := blocks3, pool := pool, set := set }
      | (.error e, _) => .error e
      | (.ok tip, blocks1) => .ok { tip := .of tip, blocks := blocks1, pool := pool, set := set }

/-- The block `MineBlock` builds on the decoded tip block and seals: index plus one,
the clock reading, the given transactions, the tip block's `Hash` as `PrevHash`, then
the hash and nonce returned by `ProofOfWork.Run` on that block. -/
def sealedBlock (L : Lib) (now : Int) (block : Block) (transactions : Slice Transaction) :
    Block :=
  let created : Block :=
    { Index := goAdd block.Index 1, Timestamp := now, Transactions := transactions,
      PrevHash := block.Hash, Hash := .nil, Nonce := 0 }
  { created with Hash := .of ((NewProofOfWork created).Run L).1,
                 Nonce := ((NewProofOfWork created).Run L).2 }

/-- `Chain.MineBlock`, at clock reading `now`.  The chain after the call is returned
in every case, since the stores keep what was written before an error. -/
def Chain.MineBlock (L : Lib) (now : Int) (c : Chain) (transactions : Slice Transaction) :
    Except Err Block × Chain :=
  match c.blocks.Get c.tip.elems with
  | (.error e, blocks1) => (.error e, { c with blocks := blocks1 })
  | (.ok data, blocks1) =>
    match Block.Deserialize L data with
    | none => (.error .decode, { c with blocks := blocks1 })
    | some block =>
      match blocks1.Put (sealedBlock L now block transactions).Hash.elems
          ((sealedBlock L now block transactions).Serialize L) with
      | (some e, blocks2) => (.error e, { c with blocks := blocks2 })
      | (none, blocks2) =>
        match blocks2.Put chainstateKey (sealedBlock L now block transactions).Hash.elems with
        | (some e, blocks3) => (.error e, { c with blocks := blocks3 })
        | (none, blocks3) =>
          (.ok (sealedBlock L now block transactions),
            { c with blocks := blocks3, tip := (sealedBlock L now block transactions).Hash })

/-- Step 5(a) of `MineBlockFromPool`: the outputs of one transaction are added, with
their positions from `idx` on; the first failing `Add` ends the call. -/
def addOutputs (L : Lib) (txID : Bytes) : List Output → Int → Set → Option Err × Set
  | [], _, s => (none, s)
  | out :: rest, idx, s =>
    match s.Add L txID idx { Value := out.Value, PubKey := out.PubKey } with
    | (some e, s1) => (some e, s1)
    | (none, s1) => addOutputs L txID rest (idx + 1) s1

/-- Step 5(b) of `MineBlockFromPool`: the inputs of one transaction are removed; the
error of `Remove` is dropped. -/
def removeInputs : List Input → Set → Set
  | [], s => s
  | inp :: rest, s => removeInputs rest (s.Remove inp.PreviousKey.elems inp.OutputIndex).2

/-- Step 5 of `MineBlockFromPool`: the loop over the transactions of the new block. -/
def updateSet (L : Lib) : List Transaction → Set → Option Err × Set
  | [], s => (none, s)
  | tx :: rest, s =>
    match addOutputs L (tx.Key L) tx.Outputs.elems 0 s with
    | (some e, s1) => (some e, s1)
    | (none, s1) => updateSet L rest (removeInputs tx.Inputs.elems s1)

/-- The coinbase transaction of `MineBlockFromPool`. -/
def coinbaseTx (now : Int) (minerPubKey : Slice Nat) : Transaction :=
  { Version := 1, Inputs := .of [], Outputs := .of [{ Value := 50, PubKey := minerPubKey }],
    Timestamp := now, Fee := 0 }

/-- Step 4 of `MineBlockFromPool`: each listed transaction is removed from the pool
under its `Key()`. -/
def removeFromPool (L : Lib) : List Transaction → Pool → Pool
  | [], p => p
  | tx :: rest, p => removeFromPool L rest (p.Remove (tx.Key L))

/-- `Chain.MineBlockFromPool`; `now` is the clock reading taken for the coinbase,
`now2` the one taken by `MineBlock` for the block.  The block holds the coinbase
followed by `c.pool.List`; step 4 removes the listed transactions from the pool. -/
def Chain.MineBlockFromPool (L : Lib) (now now2 : Int) (c : Chain) (minerPubKey : Slice Nat) :
    Except Err Block × Chain :=
  match c.MineBlock L now2 (.of (coinbaseTx now minerPubKey :: c.pool.List)) with
  | (.error e, c1) => (.error e, c1)
  | (.ok newBlock, c1) =>
    match updateSet L newBlock.Transactions.elems c1.set with
    | (some e, set1) =>
      (.error e, { c1 with pool := removeFromPool L c.pool.List c1.pool, set := set1 })
    | (none, set1) =>
      (.ok newBlock, { c1 with pool := removeFromPool L c.pool.List c1.pool, set := set1 })

/-- The loop of `FindTransactionByID` from block hash `currentHash`; the first
argument bounds the number of blocks visited, `none` stands for a walk that needs
more.  The store handle after the reads is returned with the result. -/
def findLoop (L : Lib) (txid : Bytes) : Nat → Bytes → DB → Option (Except Err Transaction × DB)
  | 0, _, _ => none
  | fuel + 1, currentHash, blocks =>
    match blocks.Get currentHash with
    | (.error e, blocks1) => some (.error e, blocks1)
    | (.ok data, blocks1) =>
      match Block.Deserialize L data with
      | none => some (.error .decode, blocks1)
      | some block =>
        match block.Transactions.elems.find? fun tx => decide (tx.Key L = txid) with
        | some tx => some (.ok tx, blocks1)
        | none =>
          if block.PrevHash.len = 0 then some (.error .notFound, blocks1)
          else findLoop L txid fuel block.PrevHash.elems blocks1

/-- `Chain.FindTransactionByID`, with a bound on the number of blocks visited. -/
def Chain.FindTransactionByID (L : Lib) (fuel : Nat) (c : Chain) (txid : Bytes) :
    Option (Except Err Transaction × Chain) :=
  (findLoop L txid fuel c.tip.elems c.blocks).map fun r => (r.1, { c with blocks := r.2 })

/-! ## A small instance of the library interface

The statements below that need a concrete library use `demoLib`: a 32-byte digest
made of two zero bytes and a 30-byte polynomial fingerprint of the data, and
length-prefixed encodings.  The gob stand-in writes an empty slice like a nil one,
as `encoding/gob` does, and starts with a byte that is no hexadecimal digit. -/

/-- Big-endian bytes of a number, `len` of them. -/
def bytesBE : Nat → Nat → Bytes
  | 0, _ => []
  | len + 1, n => bytesBE len (n / 256) ++ [n % 256]

/-- The fingerprint of the demo digest. -/
def fingerprint (d : Bytes) : Nat :=
  d.foldl (fun acc b => (acc * 257 + b + 1) % 256 ^ 30) 0

/-- The demo digest. -/
def demoSha256 (d : Bytes) : Bytes := 0 :: 0 :: bytesBE 30 (fingerprint d)

/-- Demo encoding of an integer: sign and magnitude. -/
def encInt (x : Int) : Bytes := [if x < 0 then 1 else 0, x.natAbs]

/-- Demo encoding of a byte slice: `0` for nil, else length plus one and the bytes. -/
def encBytes : Slice Nat → Bytes
  | .nil => [0]
  | .of xs => (xs.length + 1) :: xs

/-- Demo encoding of a slice of records. -/
def encSlice {α : Type} (enc : α → Bytes) : Slice α → Bytes
  | .nil => [0]
  | .of xs => (xs.length + 1) :: xs.flatMap enc

/-- Demo encoding of an `Input`. -/
def encInput (i : Input) : Bytes :=
  encBytes i.PreviousKey ++ encInt i.OutputIndex ++ encBytes i.Signature ++ encBytes i.PubKey

/-- Demo encoding of an `Output`. -/
def encOutput (o : Output) : Bytes := encInt o.Value ++ encBytes o.PubKey

/-- Demo encoding of a `Transaction`. -/
def encTx (t : Transaction) : Bytes :=
  encInt t.Version ++ encSlice encInput t.Inputs ++ encSlice encOutput t.Outputs
    ++ encInt t.Timestamp ++ encInt t.Fee

/-- Demo encoding of a `Block`. -/
def encBlock (b : Block) : Bytes :=
  encInt b.Index ++ encInt b.Timestamp ++ encSlice encTx b.Transactions
    ++ encBytes b.PrevHash ++ encBytes b.Hash ++ encInt b.Nonce

/-- What `encoding/gob` keeps of a slice: an empty slice is not transmitted and is
read back as nil. -/
def gobSlice {α : Type} : Slice α → Slice α
  | .of [] => .nil
  | s => s

/-- An `Input` as read back from its gob encoding. -/
def gobInput (i : Input) : Input :=
  { PreviousKey := gobSlice i.PreviousKey, OutputIndex := i.OutputIndex,
    Signature := gobSlice i.Signature, PubKey := gobSlice i.PubKey }

/-- An `Output` as read back from its gob encoding. -/
def gobOutput (o : Output) : Output := { Value := o.Value, PubKey := gobSlice o.PubKey }

/-- A `Transaction` as read back from its gob encoding. -/
def gobTx (t : Transaction) : Transaction :=
  { Version := t.Version,
    Inputs := gobSlice (match t.Inputs with | .nil => .nil | .of xs => .of (xs.map gobInput)),
    Outputs := gobSlice (match t.Outputs with | .nil => .nil | .of xs => .of (xs.map gobOutput)),
    Timestamp := t.Timestamp, Fee := t.Fee }

/-- A `Block` as read back from its gob encoding. -/
def gobBlock (b : Block) : Block :=
  { Index := b.Index, Timestamp := b.Timestamp,
    Transactions :=
      gobSlice (match b.Transactions with | .nil => .nil | .of xs => .of (xs.map gobTx)),
    PrevHash := gobSlice b.PrevHash, Hash := gobSlice b.Hash, Nonce := b.Nonce }

/-- Reader of `encInt`. -/
def decInt : Bytes → Option (Int × Bytes)
  | s :: m :: rest => some (if s = 1 then -(m : Int) else (m : Int), rest)
  | _ => none

/-- Reader of `encBytes`. -/
def decBytes : Bytes → Option (Slice Nat × Bytes)
  | [] => none
  | 0 :: rest => some (.nil, rest)
  | (n + 1) :: rest => if n ≤ rest.length then some (.of (rest.take n), rest.drop n) else none

/-- Reader of `n` records in a row. -/
def decMany {α : Type} (dec : Bytes → Option (α × Bytes)) : Nat → Bytes → Option (List α × Bytes)
  | 0, bs => some ([], bs)
  | n + 1, bs =>
    match dec bs with
    | none => none
    | some (a, rest) =>
      match decMany dec n rest with
      | none => none
      | some (as, rest1) => some (a :: as, rest1)

/-- Reader of `encSlice`. -/
def decSlice {α : Type} (dec : Bytes → Option (α × Bytes)) : Bytes → Option (Slice α × Bytes)
  | [] => none
  | 0 :: rest => some (.nil, rest)
  | (n + 1) :: rest => (decMany dec n rest).map fun r => (.of r.1, r.2)

/-- Reader of `encInput`. -/
def decInput (bs : Bytes) : Option (Input × Bytes) :=
  (decBytes bs).bind fun (pk, r1) => (decInt r1).bind fun (idx, r2) =>
  (decBytes r2).bind fun (sig, r3) => (decBytes r3).bind fun (pub, r4) =>
  some ({ PreviousKey := pk, OutputIndex := idx, Signature := sig, PubKey := pub }, r4)

/-- Reader of `encOutput`. -/
def decOutput (bs : Bytes) : Option (Output × Bytes) :=
  (decInt bs).bind fun (v, r1) => (decBytes r1).bind fun (pub, r2) =>
  some ({ Value := v, PubKey := pub }, r2)

/-- Reader of `encTx`. -/
def decTx (bs : Bytes) : Option (Transaction × Bytes) :=
  (decInt bs).bind fun (ver, r1) => (decSlice decInput r1).bind fun (ins, r2) =>
  (decSlice decOutput r2).bind fun (outs, r3) => (decInt r3).bind fun (ts, r4) =>
  (decInt r4).bind fun (fee, r5) =>
  some ({ Version := ver, Inputs := ins, Outputs := outs, Timestamp := ts, Fee := fee }, r5)

/-- Reader of `encBlock`. -/
def decBlock (bs : Bytes) : Option (Block × Bytes) :=
  (decInt bs).bind fun (idx, r1) => (decInt r1).bind fun (ts, r2) =>
  (decSlice decTx r2).bind fun (txs, r3) => (decBytes r3).bind fun (prev, r4) =>
  (decBytes r4).bind fun (hash, r5) => (decInt r5).bind fun (nonce, r6) =>
  some ({ Index := idx, Timestamp := ts, Transactions := txs, PrevHash := prev, Hash := hash,
          Nonce := nonce }, r6)

/-- Demo `json.Unmarshal` of a `Spend`. -/
def demoUnmarshalSpend (bs : Bytes) : Option Spend :=
  match decInt bs with
  | none => none
  | some (v, rest) =>
    match decBytes rest with
    | some (pub, []) => some { Value := v, PubKey := pub }
    | _ => none

/-- The demo library. -/
def demoLib : Lib where
  sha256 := demoSha256
  sha256_size := by
    have h : ∀ len n, (bytesBE len n).length = len := by
      intro len
      induction len with
      | zero => intro n; rfl
      | succ k ih => intro n; simp [bytesBE, ih]
    intro d
    simp [demoSha256, h]
  jsonMarshalTx := fun t => 123 :: encTx t
  gobEncodeTx := fun t => 255 :: encTx (gobTx t)
  gobDecodeTx := fun bs =>
    match bs with
    | 255 :: rest =>
      match decTx rest with
      | some (t, []) => some t
      | _ => none
    | _ => none
  gobEncodeBlock := fun b => 255 :: encBlock (gobBlock b)
  gobDecodeBlock := fun bs =>
    match bs with
    | 255 :: rest =>
      match decBlock rest with
      | some (b, []) => some b
      | _ => none
    | _ => none
  jsonMarshalSpend := fun s => encInt s.Value ++ encBytes s.PubKey
  jsonUnmarshalSpend := demoUnmarshalSpend
  spend_roundtrip := by
    intro s
    obtain ⟨v, pub⟩ := s
    have hv : (if v < 0 then -|v| else |v|) = v := by
      split_ifs with h
      · rw [abs_of_neg h]; simp
      · rw [abs_of_nonneg (not_lt.1 h)]
    cases pub with
    | nil => simpa [demoUnmarshalSpend, encInt, encBytes, decInt, decBytes] using hv
    | of xs => simpa [demoUnmarshalSpend, encInt, encBytes, decInt, decBytes] using hv

/-- An empty store on which no call fails. -/
def DB.empty : DB := ⟨KV.empty, []⟩

/-! ## Concrete states used by the instances below -/

/-- The block store after a first start at clock reading 7 with the demo library:
the genesis block under its hash, and the tip pointer record. -/
def demoBlocks : DB :=
  ⟨(KV.empty.put (NewGenesisBlock demoLib 7).Hash.elems
      ((NewGenesisBlock demoLib 7).Serialize demoLib)).put chainstateKey
        (NewGenesisBlock demoLib 7).Hash.elems, []⟩

/-- The chain a restart loads from `demoBlocks`: the tip is the stored genesis hash,
the pool and the UTXO index are empty. -/
def demoChain : Chain :=
  { tip := .of (NewGenesisBlock demoLib 7).Hash.elems, blocks := demoBlocks,
    pool := NewPool, set := ⟨DB.empty⟩ }

/-- A transaction spending output 0 of the transaction named `[80]`: 30 to the key
`[2]`, 65 to the key `[3]`, fee 5. -/
def demoSpendTx : Transaction :=
  { Version := 1,
    Inputs := .of [{ PreviousKey := .of [80], OutputIndex := 0, Signature := .nil,
                     PubKey := .of [1] }],
    Outputs := .of [{ Value := 30, PubKey := .of [2] }, { Value := 65, PubKey := .of [3] }],
    Timestamp := 8, Fee := 5 }

/-- The chain `demoChain` after `Pool.Add` of `demoSpendTx`. -/
def demoPoolChain : Chain :=
  { demoChain with pool := (demoChain.pool.Add demoLib demoSpendTx).2 }

/-- A run of `Pool.Add` calls, one per transaction of the list: the results of the
calls in order, and the pool after the last of them. -/
def poolAddAll (L : Lib) : Pool → List Transaction → List (Option Err) × Pool
  | p, [] => ([], p)
  | p, t :: rest =>
    ((p.Add L t).1 :: (poolAddAll L (p.Add L t).2 rest).1, (poolAddAll L (p.Add L t).2 rest).2)

/-- The demo library with the first byte of every digest replaced by `f data`. -/
def demoLibWithFirstByte (f : Bytes → Nat) : Lib :=
  { demoLib with
    sha256 := fun d => f d :: (demoLib.sha256 d).tail
    sha256_size := by
      intro d
      have := demoLib.sha256_size d
      simp [List.length_tail, this] }

/-- A library whose digest starts with zeros exactly on data ending in the digit `3`. -/
def lateLib : Lib := demoLibWithFirstByte fun d => if d.getLast? = some 51 then 0 else 255

/-- A block to seal: successor of the demo genesis block with no transaction. -/
def demoCandidate : Block :=
  { Index := 1, Timestamp := 9, Transactions := .of [],
    PrevHash := (NewGenesisBlock demoLib 7).Hash, Hash := .nil, Nonce := 0 }

/-! ## Pure counterparts of the UTXO update, used to state and prove properties -/

/-- The content of the UTXO store after step 5(a) when no store call fails. -/
def kvAddOutputs (L : Lib) (txID : Bytes) : List Output → Int → KV → KV
  | [], _, kv => kv
  | out :: rest, idx, kv =>
    kvAddOutputs L txID rest (idx + 1)
      (kv.put (utxoKey txID idx) (L.jsonMarshalSpend { Value := out.Value, PubKey := out.PubKey }))

/-- The content of the UTXO store after step 5(b) when no store call fails. -/
def kvRemoveInputs : List Input → KV → KV
  | [], kv => kv
  | inp :: rest, kv =>
    kvRemoveInputs rest (kv.erase (utxoKey inp.PreviousKey.elems inp.OutputIndex))

/-- The content of the UTXO store after step 5 when no store call fails. -/
def kvUpdate (L : Lib) : List Transaction → KV → KV
  | [], kv => kv
  | tx :: rest, kv =>
    kvUpdate L rest (kvRemoveInputs tx.Inputs.elems (kvAddOutputs L (tx.Key L) tx.Outputs.elems 0 kv))

/-- What a stored value adds to the balance of the key `k`: the value of the record
when it decodes and its owner is `k`. -/
def owned (L : Lib) (k : Bytes) (v : Bytes) : Int :=
  match L.jsonUnmarshalSpend v with
  | some u => if u.PubKey.elems = k then u.Value else 0
  | none => 0

/-- The exact sum of the values of the entries owned by `k`. -/
def ownedSum (L : Lib) (k : Bytes) (l : List (Bytes × Bytes)) : Int :=
  (l.map fun e => owned L k e.2).sum

/-- Every stored value decodes. -/
def allDecode (L : Lib) (l : List (Bytes × Bytes)) : Prop :=
  ∀ e ∈ l, (L.jsonUnmarshalSpend e.2).isSome = true

/-- The store keys of the outputs of one transaction, from position `idx` on, each
with the record `Set.Add` writes. -/
def outputWrites (L : Lib) (txID : Bytes) : List Output → Int → List (Bytes × Bytes)
  | [], _ => []
  | out :: rest, idx =>
    (utxoKey txID idx, L.jsonMarshalSpend { Value := out.Value, PubKey := out.PubKey })
      :: outputWrites L txID rest (idx + 1)

/-- The writes of step 5(a) over all transactions of a block. -/
def blockWrites (L : Lib) (txs : List Transaction) : List (Bytes × Bytes) :=
  txs.flatMap fun tx => outputWrites L (tx.Key L) tx.Outputs.elems 0

/-- The store keys the inputs of one transaction refer to. -/
def inputKeys (ins : List Input) : List Bytes :=
  ins.map fun inp => utxoKey inp.PreviousKey.elems inp.OutputIndex

/-- The store keys the inputs of the transactions of a block refer to. -/
def blockInputKeys (txs : List Transaction) : List Bytes :=
  txs.flatMap fun tx => inputKeys tx.Inputs.elems

/-- What an optional stored value adds to the balance of `k`. -/
def ownedOpt (L : Lib) (k : Bytes) : Option Bytes → Int
  | none => 0
  | some v => owned L k v

/-- A run of upserts. -/
def applyWrites : List (Bytes × Bytes) → KV → KV
  | [], kv => kv
  | w :: rest, kv => applyWrites rest (kv.put w.1 w.2)

/-- A run of removals. -/
def applyErases : List Bytes → KV → KV
  | [], kv => kv
  | k :: rest, kv => applyErases rest (kv.erase k)

/-- The chain `demoPoolChain` with a UTXO index holding the output `demoSpendTx`
spends: value 100 owned by the key `[1]` at output 0 of the transaction named `[80]`. -/
def demoFundedChain : Chain :=
  { demoPoolChain with
    set := ((⟨DB.empty⟩ : Set).Add demoLib [80] 0 { Value := 100, PubKey := .of [1] }).2 }

/-- The chain `demoFundedChain` after the outputs of the pooled `demoSpendTx` were
entered in the UTXO index under its identifier, as the request layer does right after
`Pool.Add`. -/
def demoSpeculativeChain : Chain :=
  { demoFundedChain with
    set := (addOutputs demoLib (demoSpendTx.Key demoLib) demoSpendTx.Outputs.elems 0
      demoFundedChain.set).2 }

/-- Value of a run of decimal digits; used to read `decimalDigits` back. -/
def digitsValue (bs : Bytes) : Nat := bs.foldl (fun acc b => acc * 10 + (b - 48)) 0

/-- The coordinates `(txID, index)` of the outputs of the transactions of a list,
with the identifier `Key()` computed on the transaction as given. -/
def outCoords (L : Lib) (txs : List Transaction) : List (Bytes × Int) :=
  txs.flatMap fun tx => (List.range tx.Outputs.elems.length).map fun (j : Nat) => (tx.Key L, (j : Int))

/-- The coordinates `(PreviousKey, OutputIndex)` the inputs of the transactions of a
list refer to. -/
def inCoords (txs : List Transaction) : List (Bytes × Int) :=
  txs.flatMap fun tx => tx.Inputs.elems.map fun inp => (inp.PreviousKey.elems, inp.OutputIndex)

/-- The UTXO index holds an entry at a coordinate. -/
def indexed (s : Set) (coord : Bytes × Int) : Prop :=
  (s.store.kv.get (utxoKey coord.1 coord.2)).isSome = true

/-- No input of a transaction of the list refers to an output of a transaction placed
later in the list. -/
def spendsNoLater (L : Lib) : List Transaction → Prop
  | [] => True
  | tx :: rest => (∀ coord ∈ inCoords [tx], coord ∉ outCoords L rest) ∧ spendsNoLater L rest

/-- The blocks reachable from the block hash `hash` along the `PrevHash` links, nearest
first, read from the block store the way `FindTransactionByID` walks it: the walk ends
at the block whose `PrevHash` is empty.  The first argument bounds the number of blocks;
`none` when a block is missing, does not decode, or the bound is reached. -/
def chainFrom (L : Lib) (kv : KV) : Nat → Bytes → Option (List Block)
  | 0, _ => none
  | fuel + 1, hash =>
    match kv.get hash with
    | none => none
    | some data =>
      match Block.Deserialize L data with
      | none => none
      | some block =>
        if block.PrevHash.len = 0 then some [block]
        else (chainFrom L kv fuel block.PrevHash.elems).map fun bs => block :: bs

/-- The transactions of a list of blocks. -/
def blockTxs (bs : List Block) : List Transaction := bs.flatMap fun b => b.Transactions.elems

/-- The invariant of the UTXO index relative to a list of confirmed transactions: the
index holds an entry at a coordinate exactly when the coordinate is an output of a
confirmed transaction and no input of a confirmed transaction refers to it. -/
def utxoInvariant (L : Lib) (s : Set) (confirmed : List Transaction) : Prop :=
  ∀ coord : Bytes × Int,
    indexed s coord ↔ coord ∈ outCoords L confirmed ∧ coord ∉ inCoords confirmed

/-- The chain `NewChain` returns on empty stores at clock reading 7 with the demo
library. -/
def demoFirstStart : Chain :=
  { tip := .nil, blocks := demoBlocks, pool := NewPool, set := ⟨DB.empty⟩ }

/-- A second transaction spending output 0 of the transaction named `[80]`, paying 95
to the key `[5]`. -/
def demoSpendTx2 : Transaction :=
  { Version := 1,
    Inputs := .of [{ PreviousKey := .of [80], OutputIndex := 0, Signature := .nil,
                     PubKey := .of [1] }],
    Outputs := .of [{ Value := 95, PubKey := .of [5] }],
    Timestamp := 8, Fee := 5 }

/-- The chain `demoChain` after `Pool.Add` of `demoSpendTx` and of `demoSpendTx2`. -/
def demoDoubleChain : Chain :=
  { demoChain with pool := (poolAddAll demoLib demoChain.pool [demoSpendTx, demoSpendTx2]).2 }

/-- The chain `demoChain` over a block store whose third call from now fails. -/
def demoTipFaultChain : Chain :=
  { demoChain with blocks := ⟨demoChain.blocks.kv, [false, false, true]⟩ }

/-- The chain `demoFundedChain` over a UTXO store whose fourth call from now fails: in
`MineBlockFromPool` that is the `Delete` for the input of `demoSpendTx`, after the three
`Put` calls for the outputs of the block. -/
def demoDeleteFaultChain : Chain :=
  { demoFundedChain with set := ⟨⟨demoFundedChain.set.store.kv, [false, false, false, true]⟩⟩ }

/-- The block `MineBlock` hands to the proof of work: the block of `sealedBlock` before
its hash and nonce are set. -/
def candidateBlock (now : Int) (block : Block) (transactions : Slice Transaction) : Block :=
  { Index := goAdd block.Index 1, Timestamp := now, Transactions := transactions,
    PrevHash := block.Hash, Hash := .nil, Nonce := 0 }

/-- The sum `Set.Balance` is to return: the values of the decoded records whose owner
is byte-equal to `k`, added as integers. -/
def sumOwnedBy (L : Lib) (k : Bytes) (entries : List (Bytes × Bytes)) : Int :=
  (((entries.filterMap fun e => L.jsonUnmarshalSpend e.2).filter
    fun u => decide (u.PubKey.elems = k)).map fun u => u.Value).sum

/-- A transaction with one output, 7 to the key `[6]`, and no input. -/
def demoLaterTx : Transaction :=
  { Version := 1, Inputs := .nil, Outputs := .of [{ Value := 7, PubKey := .of [6] }],
    Timestamp := 8, Fee := 0 }

/-- A transaction whose input refers to output 0 of `demoLaterTx`. -/
def demoEarlierTx : Transaction :=
  { Version := 1,
    Inputs := .of [{ PreviousKey := .of (demoLaterTx.Key demoLib), OutputIndex := 0,
                     Signature := .nil, PubKey := .of [6] }],
    Outputs := .of [{ Value := 7, PubKey := .of [2] }],
    Timestamp := 8, Fee := 0 }

/-- The chain `demoChain` after `Pool.Add` of `demoEarlierTx` and then of `demoLaterTx`,
listed by the pool in that order. -/
def demoOrderChain : Chain :=
  { demoChain with pool := (poolAddAll demoLib demoChain.pool [demoEarlierTx, demoLaterTx]).2 }

/-- The chain left by `MineBlockFromPool` on `demoPoolChain`. -/
def demoMinedChain : Chain := (demoPoolChain.MineBlockFromPool demoLib 9 9 (.of [4])).2

/-- The blocks reachable from the tip of `demoMinedChain`, as read from the store. -/
def demoMinedBlocks : List Block :=
  [gobBlock (sealedBlock demoLib 9 (gobBlock (NewGenesisBlock demoLib 7))
      (.of (coinbaseTx 9 (.of [4]) :: demoPoolChain.pool.List))),
    gobBlock (NewGenesisBlock demoLib 7)]

/-- No slice of the transaction is empty and non-nil: the transactions that
`encoding/gob` reads back as they were written. -/
def noEmptySlice (tx : Transaction) : Prop :=
  tx.Inputs ≠ .of [] ∧ tx.Outputs ≠ .of [] ∧
  (∀ i ∈ tx.Inputs.elems, i.PreviousKey ≠ .of [] ∧ i.Signature ≠ .of [] ∧ i.PubKey ≠ .of []) ∧
  ∀ o ∈ tx.Outputs.elems, o.PubKey ≠ .of []

/-- The sum of the values of the outputs of the listed transactions that name `k` as
owner. -/
def outputsTo (k : Bytes) (txs : List Transaction) : Int :=
  (((txs.flatMap fun tx => tx.Outputs.elems).filter fun o => decide (o.PubKey.elems = k)).map
    fun o => o.Value).sum

/-- The digest the hash invariant of a block speaks of: SHA-256 over the block's
`PrevHash`, `HashTransactions()`, decimal `Timestamp` and decimal `Nonce`, joined. -/
def headerDigest (L : Lib) (b : Block) : Bytes :=
  L.sha256 (b.PrevHash.elems ++ b.HashTransactions L ++ decimal b.Timestamp ++ decimal b.Nonce)

/-! ## SHA-256 itself

The digest function of `crypto/sha256` (FIPS 180-4), on byte strings; a byte above 255
counts modulo 256.  It is used for instances with the digests the program really
computes. -/

/-- Rotation of a 32-bit word to the right. -/
def rotr32 (x n : Nat) : Nat := (x >>> n ||| x <<< (32 - n)) % 2 ^ 32

/-- The 64 round constants. -/
def shaK : List Nat :=
  [0x428a2f98, 0x71374491, 0xb5c0fbcf, 0xe9b5dba5, 0x3956c25b, 0x59f111f1, 0x923f82a4, 0xab1c5ed5,
   0xd807aa98, 0x12835b01, 0x243185be, 0x550c7dc3, 0x72be5d74, 0x80deb1fe, 0x9bdc06a7, 0xc19bf174,
   0xe49b69c1, 0xefbe4786, 0x0fc19dc6, 0x240ca1cc, 0x2de92c6f, 0x4a7484aa, 0x5cb0a9dc, 0x76f988da,
   0x983e5152, 0xa831c66d, 0xb00327c8, 0xbf597fc7, 0xc6e00bf3, 0xd5a79147, 0x06ca6351, 0x14292967,
   0x27b70a85, 0x2e1b2138, 0x4d2c6dfc, 0x53380d13, 0x650a7354, 0x766a0abb, 0x81c2c92e, 0x92722c85,
   0xa2bfe8a1, 0xa81a664b, 0xc24b8b70, 0xc76c51a3, 0xd192e819, 0xd6990624, 0xf40e3585, 0x106aa070,
   0x19a4c116, 0x1e376c08, 0x2748774c, 0x34b0bcb5, 0x391c0cb3, 0x4ed8aa4a, 0x5b9cca4f, 0x682e6ff3,
   0x748f82ee, 0x78a5636f, 0x84c87814, 0x8cc70208, 0x90befffa, 0xa4506ceb, 0xbef9a3f7, 0xc67178f2]

/-- The eight working words of SHA-256. -/
structure ShaState where
  a : Nat
  b : Nat
  c : Nat
  d : Nat
  e : Nat
  f : Nat
  g : Nat
  h : Nat

/-- The initial hash value. -/
def shaInit : ShaState :=
  ⟨0x6a09e667, 0xbb67ae85, 0x3c6ef372, 0xa54ff53a, 0x510e527f, 0x9b05688c, 0x1f83d9ab, 0x5be0cd19⟩

/-- The padded message: the bit `1`, zeros, and the length in bits as 8 bytes, up to a
multiple of 64 bytes. -/
def shaPad (m : Bytes) : Bytes :=
  m.map (fun b => b % 256) ++ 128 :: List.replicate ((119 - m.length % 64) % 64) 0
    ++ bytesBE 8 (8 * m.length)

/-- The big-endian 32-bit words of a byte string whose length is a multiple of 4. -/
def shaWords : Bytes → List Nat
  | b0 :: b1 :: b2 :: b3 :: rest => (((b0 * 256 + b1) * 256 + b2) * 256 + b3) :: shaWords rest
  | _ => []

/-- The message schedule, latest word first: `n` more words after those given. -/
def shaSchedule : Nat → List Nat → List Nat
  | 0, ws => ws
  | n + 1, ws =>
    let w2 := ws.getD 1 0
    let w7 := ws.getD 6 0
    let w15 := ws.getD 14 0
    let w16 := ws.getD 15 0
    let s0 := rotr32 w15 7 ^^^ rotr32 w15 18 ^^^ (w15 >>> 3)
    let s1 := rotr32 w2 17 ^^^ rotr32 w2 19 ^^^ (w2 >>> 10)
    shaSchedule n (((w16 + s0 + w7 + s1) % 2 ^ 32) :: ws)

/-- One round of the compression function, with round constant `k` and schedule word
`w`. -/
def shaRound (s : ShaState) (k w : Nat) : ShaState :=
  let s1 := rotr32 s.e 6 ^^^ rotr32 s.e 11 ^^^ rotr32 s.e 25
  let ch := (s.e &&& s.f) ^^^ ((2 ^ 32 - 1 - s.e) &&& s.g)
  let t1 := (s.h + s1 + ch + k + w) % 2 ^ 32
  let s0 := rotr32 s.a 2 ^^^ rotr32 s.a 13 ^^^ rotr32 s.a 22
  let maj := (s.a &&& s.b) ^^^ (s.a &&& s.c) ^^^ (s.b &&& s.c)
  let t2 := (s0 + maj) % 2 ^ 32
  ⟨(t1 + t2) % 2 ^ 32, s.a, s.b, s.c, (s.d + t1) % 2 ^ 32, s.e, s.f, s.g⟩

/-- The rounds over the round constants and the schedule words. -/
def shaRounds : ShaState → List Nat → List Nat → ShaState
  | s, k :: ks, w :: ws => shaRounds (shaRound s k w) ks ws
  | s, _, _ => s

/-- The compression of one block of sixteen words into the hash value. -/
def shaCompress (s : ShaState) (block : List Nat) : ShaState :=
  let r := shaRounds s shaK (shaSchedule 48 block.reverse).reverse
  ⟨(s.a + r.a) % 2 ^ 32, (s.b + r.b) % 2 ^ 32, (s.c + r.c) % 2 ^ 32, (s.d + r.d) % 2 ^ 32,
   (s.e + r.e) % 2 ^ 32, (s.f + r.f) % 2 ^ 32, (s.g + r.g) % 2 ^ 32, (s.h + r.h) % 2 ^ 32⟩

/-- The compression over the blocks of the word list; the first argument bounds their
number. -/
def shaBlocks : Nat → ShaState → List Nat → ShaState
  | 0, s, _ => s
  | _, s, [] => s
  | n + 1, s, ws => shaBlocks n (shaCompress s (ws.take 16)) (ws.drop 16)

/-- SHA-256 of a byte string: 32 bytes. -/
def sha256Real (m : Bytes) : Bytes :=
  let s := shaBlocks (m.length / 64 + 2) shaInit (shaWords (shaPad m))
  [s.a, s.b, s.c, s.d, s.e, s.f, s.g, s.h].flatMap (bytesBE 4)

/-- The demo library with SHA-256 itself as the digest function. -/
def sha256Lib : Lib :=
  { demoLib with
    sha256 := sha256Real
    sha256_size := by
      have h : ∀ len n, (bytesBE len n).length = len := by
        intro len
        induction len with
        | zero => intro n; rfl
        | succ k ih => intro n; simp [bytesBE, ih]
      intro d
      simp [sha256Real, h] }

/-- The hash of the genesis block the program writes at clock reading 7
(`84afbbfb…3d86`). -/
def realGenesisHash : Bytes :=
  [132, 175, 187, 251, 107, 208, 79, 114, 148, 161, 126, 125, 13, 63, 149, 188, 204, 253, 243,
   16, 241, 86, 250, 164, 70, 128, 173, 237, 116, 221, 61, 134]

/-- A block to seal: the successor of that genesis block with no transaction, at clock
reading 9. -/
def realCandidate : Block :=
  { Index := 1, Timestamp := 9, Transactions := .of [], PrevHash := .of realGenesisHash,
    Hash := .nil, Nonce := 0 }

/-! ## Lemmas on slices and on the key-value store -/

@[simp] theorem Slice.elems_nil {α : Type} : (Slice.nil : Slice α).elems = [] := rfl

@[simp] theorem Slice.elems_of {α : Type} (xs : List α) : (Slice.of xs).elems = xs := rfl

@[simp] theorem KV.get_empty (k : Bytes) : KV.empty.get k = none := rfl

@[simp] theorem KV.get_put_self (s : KV) (k v : Bytes) : (s.put k v).get k = some v := by
  simp [KV.get, KV.put]

theorem find_filter_ne {β : Type} (l : List (Bytes × β)) {k k2 : Bytes} (h : k2 ≠ k) :
    (l.filter fun e => decide (e.1 ≠ k)).find? (fun e => decide (e.1 = k2))
      = l.find? fun e => decide (e.1 = k2) := by
  induction l with
  | nil => rfl
  | cons e rest ih =>
    by_cases hek : e.1 = k
    · have h2 : ¬ e.1 = k2 := fun h2 => h (h2 ▸ hek)
      rw [List.filter_cons_of_neg (by simpa using hek),
        List.find?_cons_of_neg _ (by simpa using h2)]
      exact ih
    · rw [List.filter_cons_of_pos (by simpa using hek)]
      by_cases hek2 : e.1 = k2
      · rw [List.find?_cons_of_pos _ (by simpa using hek2),
          List.find?_cons_of_pos _ (by simpa using hek2)]
      · rw [List.find?_cons_of_neg _ (by simpa using hek2),
          List.find?_cons_of_neg _ (by simpa using hek2)]
        exact ih

theorem KV.get_erase_ne (s : KV) {k k2 : Bytes} (h : k2 ≠ k) :
    (s.erase k).get k2 = s.get k2 := by
  simp only [KV.get, KV.erase, find_filter_ne _ h]

@[simp] theorem KV.get_erase_self (s : KV) (k : Bytes) : (s.erase k).get k = none := by
  simp [KV.get, KV.erase]

theorem KV.get_put_ne (s : KV) {k k2 : Bytes} (v : Bytes) (h : k2 ≠ k) :
    (s.put k v).get k2 = s.get k2 := by
  rw [← KV.get_erase_ne s h]
  simp only [KV.get, KV.put]
  rw [List.find?_cons_of_neg _ (by simpa using Ne.symm h)]

/-! ## `NewChain` on empty stores -/

theorem genesis_hash_ne_chainstateKey (L : Lib) (now : Int) :
    (NewGenesisBlock L now).Hash.elems ≠ chainstateKey := by
  intro h
  have := congrArg List.length h
  simp [NewGenesisBlock, L.sha256_size, chainstateKey] at this

theorem NewChain_empty_eq (L : Lib) (now : Int) :
    NewChain L now DB.empty DB.empty = .ok
      { tip := .nil,
        blocks := ⟨(KV.empty.put (NewGenesisBlock L now).Hash.elems
          ((NewGenesisBlock L now).Serialize L)).put chainstateKey
            (NewGenesisBlock L now).Hash.elems, []⟩,
        pool := NewPool, set := ⟨DB.empty⟩ } := by
  simp [NewChain, NewSet, DB.Open, DB.empty, DB.fails, DB.step, DB.Get, DB.Put]

/-- C1 (the code departs from it).  On empty stores `NewChain` succeeds, the block
store then holds the genesis block (index 0, empty `PrevHash`) under its hash and the
tip pointer record holding that hash, but the `tip` field of the returned chain is the
nil value left by the failed `Get`, not the genesis hash; every `MineBlock` on that
chain then fails to find the tip block. -/
theorem NewChain_empty_store_tip_nil (L : Lib) (now : Int) :
    ∃ c, NewChain L now DB.empty DB.empty = .ok c
      ∧ c.blocks.kv.entries =
          [(chainstateKey, (NewGenesisBlock L now).Hash.elems),
           ((NewGenesisBlock L now).Hash.elems, (NewGenesisBlock L now).Serialize L)]
      ∧ (NewGenesisBlock L now).Index = 0
      ∧ (NewGenesisBlock L now).PrevHash = .of []
      ∧ c.tip = .nil
      ∧ c.tip.elems ≠ (NewGenesisBlock L now).Hash.elems
      ∧ ∀ now2 txs, (c.MineBlock L now2 txs).1 = .error .notFound := by
  have hne := genesis_hash_ne_chainstateKey L now
  have hne2 : [] ≠ (NewGenesisBlock L now).Hash.elems := by
    intro h
    have := congrArg List.length h
    simp [NewGenesisBlock, L.sha256_size] at this
  have hne3 : [] ≠ chainstateKey := by decide
  refine ⟨_, NewChain_empty_eq L now, ?_, rfl, rfl, rfl, ?_, ?_⟩
  · simp [KV.put, KV.erase, KV.empty, hne]
  · simpa using hne2
  · intro now2 txs
    simp [Chain.MineBlock, DB.Get, DB.fails, KV.get_put_ne _ _ hne3, KV.get_put_ne _ _ hne2]

/-! ## `MineBlock` -/

set_option maxRecDepth 100000 in
theorem demoChain_loaded : NewChain demoLib 8 DB.empty demoBlocks = .ok demoChain := by
  decide

theorem wrapInt64_of_range {x : Int} (h1 : -2 ^ 63 ≤ x) (h2 : x < 2 ^ 63) :
    wrapInt64 x = x := by
  unfold wrapInt64
  rw [Int.emod_eq_of_lt (by omega) (by omega)]
  omega

@[simp] theorem MineBlock_pool (L : Lib) (now : Int) (c : Chain) (txs : Slice Transaction) :
    (c.MineBlock L now txs).2.pool = c.pool := by
  unfold Chain.MineBlock
  repeat' split
  all_goals rfl

@[simp] theorem MineBlock_set (L : Lib) (now : Int) (c : Chain) (txs : Slice Transaction) :
    (c.MineBlock L now txs).2.set = c.set := by
  unfold Chain.MineBlock
  repeat' split
  all_goals rfl

theorem Run_fst_length (L : Lib) (pow : ProofOfWork) : (pow.Run L).1.length = 32 := by
  have h : ∀ fuel nonce hash, hash.length = 32 →
      (pow.runLoop L fuel nonce hash).1.length = 32 := by
    intro fuel
    induction fuel with
    | zero => intro nonce hash h; simpa [ProofOfWork.runLoop] using h
    | succ k ih =>
      intro nonce hash h
      simp only [ProofOfWork.runLoop]
      split_ifs
      · exact L.sha256_size _
      · exact ih _ _ (L.sha256_size _)
      · exact h
  exact h _ _ _ (by simp)

theorem sealedBlock_hash_ne (L : Lib) (now : Int) (t : Block) (txs : Slice Transaction) :
    (sealedBlock L now t txs).Hash.elems ≠ chainstateKey := by
  intro h
  have := congrArg List.length h
  simp [sealedBlock, Run_fst_length, chainstateKey] at this

/-- What a successful `MineBlock` did. -/
theorem MineBlock_ok_inv (L : Lib) (now : Int) (c : Chain) (txs : Slice Transaction)
    (b : Block) (c2 : Chain) (h : c.MineBlock L now txs = (.ok b, c2)) :
    ∃ data t, c.blocks.kv.get c.tip.elems = some data ∧ Block.Deserialize L data = some t ∧
      b = sealedBlock L now t txs ∧
      c2 = { c with tip := b.Hash,
                    blocks := ⟨(c.blocks.kv.put b.Hash.elems (b.Serialize L)).put chainstateKey
                      b.Hash.elems, c.blocks.faults.tail.tail.tail⟩ } := by
  obtain ⟨tip, ⟨kv, faults⟩, pool, set⟩ := c
  unfold Chain.MineBlock at h
  simp only [DB.Get, DB.Put, DB.step, DB.fails] at h
  cases hg : kv.get tip.elems with
  | none =>
    rcases faults with _ | ⟨f1, fs⟩
    · simp [hg] at h
    · cases f1 <;> simp [hg] at h
  | some data =>
    cases hd : Block.Deserialize L data with
    | none =>
      rcases faults with _ | ⟨f1, fs⟩
      · simp [hg, hd] at h
      · cases f1 <;> simp [hg, hd] at h
    | some t =>
      refine ⟨data, t, rfl, hd, ?_⟩
      rcases faults with _ | ⟨f1, _ | ⟨f2, _ | ⟨f3, fs⟩⟩⟩
      · simp [hg, hd] at h
        obtain ⟨h1, h2⟩ := h
        subst h1
        exact ⟨rfl, h2.symm⟩
      · cases f1 <;> simp [hg, hd] at h
        obtain ⟨h1, h2⟩ := h
        subst h1
        exact ⟨rfl, h2.symm⟩
      · cases f1 <;> cases f2 <;> simp [hg, hd] at h
        obtain ⟨h1, h2⟩ := h
        subst h1
        exact ⟨rfl, h2.symm⟩
      · cases f1 <;> cases f2 <;> cases f3 <;> simp [hg, hd] at h
        obtain ⟨h1, h2⟩ := h
        subst h1
        exact ⟨rfl, h2.symm⟩

/-- `MineBlock` succeeds when the tip block is stored and decodes and no store call
fails. -/
theorem MineBlock_ok (L : Lib) (now : Int) (c : Chain) (txs : Slice Transaction)
    (data : Bytes) (t : Block)
    (hget : c.blocks.kv.get c.tip.elems = some data) (hdec : Block.Deserialize L data = some t)
    (hf : c.blocks.faults = []) :
    c.MineBlock L now txs = (.ok (sealedBlock L now t txs),
      { c with tip := (sealedBlock L now t txs).Hash,
               blocks := ⟨(c.blocks.kv.put (sealedBlock L now t txs).Hash.elems
                 ((sealedBlock L now t txs).Serialize L)).put chainstateKey
                   (sealedBlock L now t txs).Hash.elems, []⟩ }) := by
  unfold Chain.MineBlock
  simp [DB.Get, DB.Put, DB.step, DB.fails, hget, hdec, hf]

/-- C7.  Let the tip of the chain be the key of a stored block that decodes to `t`.
A successful `MineBlock(txs)` returns a block with `Index = t.Index + 1` (the Go
addition on `int`, which is the integer successor for every index below `MaxInt64`),
`PrevHash = t.Hash` and `Transactions = txs`; afterwards the block store maps the hash
of the new block to its encoding and the tip pointer record to that hash, the in-memory
tip is that hash, and the pool and the UTXO index are unchanged.  When no store call
fails the call is successful. -/
theorem MineBlock_builds_successor (L : Lib) (now : Int) (c : Chain) (txs : Slice Transaction)
    (t : Block) (htip : (c.blocks.kv.get c.tip.elems).bind (Block.Deserialize L) = some t) :
    (∀ b c2, c.MineBlock L now txs = (.ok b, c2) →
      b.Index = goAdd t.Index 1 ∧
      (-2 ^ 63 ≤ t.Index → t.Index < MaxInt64 → b.Index = t.Index + 1) ∧
      b.PrevHash = t.Hash ∧ b.Transactions = txs ∧
      c2.blocks.kv.get b.Hash.elems = some (b.Serialize L) ∧
      c2.blocks.kv.get chainstateKey = some b.Hash.elems ∧
      c2.tip = b.Hash ∧ c2.pool = c.pool ∧ c2.set = c.set) ∧
    (c.blocks.faults = [] → ∃ b c2, c.MineBlock L now txs = (.ok b, c2)) := by
  constructor
  · intro b c2 h
    obtain ⟨data, t2, hg, hd, hb, hc⟩ := MineBlock_ok_inv L now c txs b c2 h
    have ht : t2 = t := by simpa [hg, hd] using htip
    subst ht
    have hne : b.Hash.elems ≠ chainstateKey := hb ▸ sealedBlock_hash_ne L now t2 txs
    refine ⟨by rw [hb]; rfl, ?_, by rw [hb]; rfl, by rw [hb]; rfl, ?_, ?_, ?_, ?_, ?_⟩
    · intro h1 h2
      rw [hb]
      show goAdd t2.Index 1 = t2.Index + 1
      unfold MaxInt64 at h2
      exact wrapInt64_of_range (by omega) (by omega)
    · rw [hc]
      show ((c.blocks.kv.put b.Hash.elems (b.Serialize L)).put chainstateKey b.Hash.elems).get
        b.Hash.elems = _
      rw [KV.get_put_ne _ _ hne, KV.get_put_self]
    · rw [hc]
      exact KV.get_put_self _ _ _
    · rw [hc]
    · rw [hc]
    · rw [hc]
  · intro hf
    cases hg : c.blocks.kv.get c.tip.elems with
    | none => simp [hg] at htip
    | some data =>
      have hd : Block.Deserialize L data = some t := by simpa [hg] using htip
      exact ⟨_, _, MineBlock_ok L now c txs data t hg hd hf⟩

set_option maxRecDepth 100000 in
/-- Instance of C7: on the chain loaded from the demo store, `MineBlock` of an empty
transaction list succeeds. -/
theorem MineBlock_builds_successor_demo :
    ∃ b c2, demoChain.MineBlock demoLib 9 (.of []) = (.ok b, c2) :=
  (MineBlock_builds_successor demoLib 9 demoChain (.of []) (gobBlock (NewGenesisBlock demoLib 7))
    (by decide)).2 rfl

/-! ## `MineBlockFromPool` and the pool -/

theorem Pool.Remove_of_absent (p : Pool) (key : Bytes) (h : ∀ e ∈ p.txs, e.1 ≠ key) :
    p.Remove key = p := by
  obtain ⟨l⟩ := p
  simp only [Pool.Remove, Pool.mk.injEq, List.filter_eq_self]
  intro e he
  simpa using h e he

theorem removeFromPool_of_absent (L : Lib) (txs : List Transaction) (p : Pool)
    (h : ∀ t ∈ txs, ∀ e ∈ p.txs, e.1 ≠ t.Key L) : removeFromPool L txs p = p := by
  induction txs with
  | nil => rfl
  | cons t rest ih =>
    simp only [removeFromPool]
    rw [Pool.Remove_of_absent p _ (h t (List.mem_cons_self _ _))]
    exact ih fun t2 ht2 => h t2 (List.mem_cons_of_mem _ ht2)

theorem MineBlockFromPool_pool (L : Lib) (now now2 : Int) (c : Chain) (miner : Slice Nat) :
    (c.MineBlockFromPool L now now2 miner).2.pool = c.pool ∨
    (c.MineBlockFromPool L now now2 miner).2.pool = removeFromPool L c.pool.List c.pool := by
  unfold Chain.MineBlockFromPool
  split
  · next e c1 h =>
    left
    have := MineBlock_pool L now2 c (.of (coinbaseTx now miner :: c.pool.List))
    rw [h] at this
    exact this
  · next b c1 h =>
    have := MineBlock_pool L now2 c (.of (coinbaseTx now miner :: c.pool.List))
    rw [h] at this
    simp only at this
    right
    split <;> simp [this]

/-- What a successful `MineBlockFromPool` returned. -/
theorem MineBlockFromPool_ok_inv (L : Lib) (now now2 : Int) (c : Chain) (miner : Slice Nat)
    (b : Block) (c2 : Chain) (h : c.MineBlockFromPool L now now2 miner = (.ok b, c2)) :
    ∃ c1, c.MineBlock L now2 (.of (coinbaseTx now miner :: c.pool.List)) = (.ok b, c1) ∧
      (updateSet L b.Transactions.elems c.set).1 = none ∧
      c2 = { c1 with pool := removeFromPool L c.pool.List c.pool,
                     set := (updateSet L b.Transactions.elems c.set).2 } := by
  unfold Chain.MineBlockFromPool at h
  split at h
  · simp at h
  · next b1 c1 hm =>
    have hp := MineBlock_pool L now2 c (.of (coinbaseTx now miner :: c.pool.List))
    have hs := MineBlock_set L now2 c (.of (coinbaseTx now miner :: c.pool.List))
    rw [hm] at hp hs
    simp only at hp hs
    rw [hp, hs] at h
    split at h
    · simp at h
    · next set1 hu =>
      simp only [Prod.mk.injEq, Except.ok.injEq] at h
      obtain ⟨h1, h2⟩ := h
      subst h1
      exact ⟨c1, hm, by rw [hu], by rw [← h2, hu]⟩

/-- C2 (the code departs from it).  `Pool.Add` files a transaction under its gob
encoding, `MineBlockFromPool` removes under `Key()`, the hex digest of the JSON form.
When every pool entry is filed as `Pool.Add` files it and no gob encoding of a pooled
transaction is the hex digest of one, the call leaves the pool as it was: after a
successful call every transaction of the new block other than the coinbase is still
in the pool. -/
theorem MineBlockFromPool_keeps_pool (L : Lib) (now now2 : Int) (c : Chain) (miner : Slice Nat)
    (hadd : ∀ e ∈ c.pool.txs, e.1 = e.2.Serialize L)
    (hkey : ∀ t ∈ c.pool.List, ∀ t2 ∈ c.pool.List, t.Serialize L ≠ t2.Key L) :
    (c.MineBlockFromPool L now now2 miner).2.pool = c.pool ∧
    ∀ b c2, c.MineBlockFromPool L now now2 miner = (.ok b, c2) →
      b.Transactions.elems.tail = c.pool.List ∧
      ∀ tx ∈ b.Transactions.elems.tail, tx ∈ c2.pool.List := by
  have hrm : removeFromPool L c.pool.List c.pool = c.pool := by
    apply removeFromPool_of_absent
    intro t ht e he
    rw [hadd e he]
    exact hkey _ (List.mem_map_of_mem _ he) t ht
  have hpool : (c.MineBlockFromPool L now now2 miner).2.pool = c.pool := by
    rcases MineBlockFromPool_pool L now now2 c miner with h | h
    · exact h
    · rw [h, hrm]
  refine ⟨hpool, ?_⟩
  intro b c2 h
  obtain ⟨c1, hm, -, -⟩ := MineBlockFromPool_ok_inv L now now2 c miner b c2 h
  obtain ⟨data, t, -, -, hb, -⟩ := MineBlock_ok_inv L now2 c _ b c1 hm
  have htx : b.Transactions.elems.tail = c.pool.List := by rw [hb]; rfl
  refine ⟨htx, ?_⟩
  intro tx htx2
  rw [h] at hpool
  simp only at hpool
  rw [htx] at htx2
  rw [hpool]
  exact htx2

set_option maxRecDepth 100000 in
/-- Instance of C2: after `Pool.Add` of `demoSpendTx` and a successful
`MineBlockFromPool`, the block holds the transaction and so does the pool. -/
theorem MineBlockFromPool_keeps_pool_demo :
    (∃ b c2, demoPoolChain.MineBlockFromPool demoLib 9 9 (.of [4]) = (.ok b, c2) ∧
      b.Transactions.elems.tail = [demoSpendTx]) ∧
    (demoPoolChain.MineBlockFromPool demoLib 9 9 (.of [4])).2.pool.List = [demoSpendTx] :=
  ⟨⟨_, _, rfl, by decide⟩,
   (MineBlockFromPool_keeps_pool demoLib 9 9 demoPoolChain (.of [4]) (by decide) (by decide)).1
     ▸ by decide⟩

/-! ## `ProofOfWork.Run` -/

/-- The loop returns the first accepted nonce at or after its start, when the bound
leaves room to reach it. -/
theorem runLoop_found (L : Lib) (pow : ProofOfWork) (m : Nat) (hm : m < MaxInt32)
    (hacc : pow.accepts (L.sha256 (pow.prepareData L m)) = true) :
    ∀ fuel nonce hash, nonce ≤ m → m < nonce + fuel →
      (∀ k, nonce ≤ k → k < m → pow.accepts (L.sha256 (pow.prepareData L k)) = false) →
      pow.runLoop L fuel nonce hash = (L.sha256 (pow.prepareData L m), (m : Int)) := by
  intro fuel
  induction fuel with
  | zero => intro nonce hash h1 h2; omega
  | succ f ih =>
    intro nonce hash h1 h2 hk
    have hlt : nonce < MaxInt32 := by omega
    simp only [ProofOfWork.runLoop, if_pos hlt]
    by_cases hnm : nonce = m
    · subst hnm
      simp [hacc]
    · have hn : pow.accepts (L.sha256 (pow.prepareData L nonce)) = false :=
        hk nonce le_rfl (by omega)
      simp only [hn, Bool.false_eq_true, if_false]
      have := ih (nonce + 1) (L.sha256 (pow.prepareData L nonce)) (by omega) (by omega)
        (fun k hk1 hk2 => hk k (by omega) hk2)
      simpa using this

/-- The loop falls through with the last digest tried and the nonce `MaxInt32` when no
nonce is accepted. -/
theorem runLoop_exhausted (L : Lib) (pow : ProofOfWork)
    (hno : ∀ k : Nat, k < MaxInt32 → pow.accepts (L.sha256 (pow.prepareData L k)) = false) :
    ∀ fuel nonce hash, nonce + fuel = MaxInt32 → 0 < fuel →
      pow.runLoop L fuel nonce hash
        = (L.sha256 (pow.prepareData L ((MaxInt32 - 1 : Nat) : Int)), (MaxInt32 : Int)) := by
  intro fuel
  induction fuel with
  | zero => intro nonce hash h1 h2; omega
  | succ f ih =>
    intro nonce hash h1 _
    have hlt : nonce < MaxInt32 := by omega
    simp only [ProofOfWork.runLoop, if_pos hlt, hno nonce hlt, Bool.false_eq_true, if_false]
    rcases Nat.eq_zero_or_pos f with hf | hf
    · subst hf
      have : nonce = MaxInt32 - 1 := by omega
      subst this
      simp only [ProofOfWork.runLoop]
      have : MaxInt32 - 1 + 1 = MaxInt32 := by omega
      simp [this]
    · have := ih (nonce + 1) (L.sha256 (pow.prepareData L nonce)) (by omega) hf
      simpa using this

/-- C5.  For every block whose search space holds an accepted nonce, that is, for which
some nonce below `MaxInt32` gives a digest with `Difficulty` leading `'0'` characters in
hex, `Run` returns a pair `(hash, nonce)` with `0 ≤ nonce < MaxInt32` such that the hex
form of `hash` starts with `Difficulty` characters `'0'` and `hash` is the SHA-256
digest of `b.PrevHash`, `b.HashTransactions()`, the decimal `b.Timestamp` and the
decimal `nonce`, joined.  The digest function is any function: that the search space of
a block holds an accepted nonce is a property of SHA-256 and of the block. -/
theorem Run_valid_of_exists (L : Lib) (b : Block)
    (h : ∃ n : Nat, n < MaxInt32 ∧
      (List.replicate Difficulty 48).isPrefixOf (hexEncode (L.sha256
        (b.PrevHash.elems ++ b.HashTransactions L ++ decimal b.Timestamp ++ decimal n))) = true) :
    (List.replicate Difficulty 48).isPrefixOf (hexEncode ((NewProofOfWork b).Run L).1) = true ∧
    ((NewProofOfWork b).Run L).1 = L.sha256
      (b.PrevHash.elems ++ b.HashTransactions L ++ decimal b.Timestamp
        ++ decimal ((NewProofOfWork b).Run L).2) ∧
    0 ≤ ((NewProofOfWork b).Run L).2 ∧ ((NewProofOfWork b).Run L).2 < MaxInt32 := by
  classical
  have h2 : ∃ n : Nat, n < MaxInt32 ∧
      (NewProofOfWork b).accepts (L.sha256 ((NewProofOfWork b).prepareData L n)) = true := h
  have hm := Nat.find_spec h2
  have hmin : ∀ k, 0 ≤ k → k < Nat.find h2 →
      (NewProofOfWork b).accepts (L.sha256 ((NewProofOfWork b).prepareData L k)) = false := by
    intro k _ hk
    have := Nat.find_min h2 hk
    have hk2 : k < MaxInt32 := lt_trans hk hm.1
    simpa [hk2] using this
  have hrun := runLoop_found L (NewProofOfWork b) (Nat.find h2) hm.1 hm.2 MaxInt32 0
    (List.replicate 32 0) (Nat.zero_le _) (by omega) hmin
  have hrun2 : (NewProofOfWork b).Run L = _ := hrun
  rw [hrun2]
  refine ⟨hm.2, rfl, ?_, ?_⟩
  · show (0 : Int) ≤ ((Nat.find h2 : Nat) : Int)
    positivity
  · show ((Nat.find h2 : Nat) : Int) < _
    exact_mod_cast hm.1

set_option maxRecDepth 1000000 in
/-- Instance of C5 with SHA-256 itself: for the successor of the genesis block written
at clock reading 7, with no transaction and clock reading 9, the nonce 11369 gives the
digest `0004d3d3…`, so the search space holds an accepted nonce; the hash `Run` returns
has the leading zeros and is the digest for the nonce returned. -/
theorem Run_valid_real :
    (List.replicate Difficulty 48).isPrefixOf (hexEncode (sha256Lib.sha256
      (realCandidate.PrevHash.elems ++ realCandidate.HashTransactions sha256Lib
        ++ decimal realCandidate.Timestamp ++ decimal ((11369 : Nat) : Int)))) = true ∧
    (List.replicate Difficulty 48).isPrefixOf
      (hexEncode ((NewProofOfWork realCandidate).Run sha256Lib).1) = true ∧
    ((NewProofOfWork realCandidate).Run sha256Lib).1 = sha256Lib.sha256
      (realCandidate.PrevHash.elems ++ realCandidate.HashTransactions sha256Lib
        ++ decimal realCandidate.Timestamp
        ++ decimal ((NewProofOfWork realCandidate).Run sha256Lib).2) ∧
    0 ≤ ((NewProofOfWork realCandidate).Run sha256Lib).2 ∧
    ((NewProofOfWork realCandidate).Run sha256Lib).2 < MaxInt32 :=
  ⟨by decide, Run_valid_of_exists sha256Lib realCandidate ⟨11369, by decide, by decide⟩⟩

/-! ## The pool -/

theorem Pool.Add_fresh (L : Lib) (p : Pool) (t : Transaction)
    (h : ∀ e ∈ p.txs, e.1 ≠ t.Serialize L) :
    p.Add L t = (none, ⟨p.txs ++ [(t.Serialize L, t)]⟩) := by
  have : (p.txs.any fun e => decide (e.1 = t.Serialize L)) = false := by
    simpa [List.any_eq_false] using h
  simp [Pool.Add, this]

theorem Pool.Add_present (L : Lib) (p : Pool) (t : Transaction)
    (h : ∃ e ∈ p.txs, e.1 = t.Serialize L) :
    p.Add L t = (some .duplicate, p) := by
  have : (p.txs.any fun e => decide (e.1 = t.Serialize L)) = true := by
    simpa [List.any_eq_true] using h
  simp [Pool.Add, this]

theorem poolAddAll_spec (L : Lib) (txs : List Transaction) :
    ∀ p : Pool, (∀ e ∈ p.txs, e.1 = e.2.Serialize L) →
      ((p.List ++ txs).map fun t => t.Serialize L).Nodup →
      (poolAddAll L p txs).1 = List.replicate txs.length none ∧
      (poolAddAll L p txs).2.List = p.List ++ txs := by
  induction txs with
  | nil => intro p _ _; simp [poolAddAll]
  | cons t rest ih =>
    intro p hp hnd
    have hfresh : ∀ e ∈ p.txs, e.1 ≠ t.Serialize L := by
      intro e he heq
      rw [List.map_append, List.nodup_append] at hnd
      have h1 : t.Serialize L ∈ (p.List.map fun t => t.Serialize L) := by
        rw [← heq, hp e he]
        exact List.mem_map_of_mem _ (List.mem_map_of_mem _ he)
      exact hnd.2.2 h1 (by simp)
    have hadd := Pool.Add_fresh L p t hfresh
    have hp2 : ∀ e ∈ (⟨p.txs ++ [(t.Serialize L, t)]⟩ : Pool).txs, e.1 = e.2.Serialize L := by
      intro e he
      rcases List.mem_append.1 he with h | h
      · exact hp e h
      · simp at h; subst h; rfl
    have hl : (⟨p.txs ++ [(t.Serialize L, t)]⟩ : Pool).List = p.List ++ [t] := by
      simp [Pool.List]
    have := ih ⟨p.txs ++ [(t.Serialize L, t)]⟩ hp2 (by rw [hl]; simpa using hnd)
    simp only [poolAddAll, hadd, List.length_cons, List.replicate_succ]
    rw [this.1, this.2, hl]
    simp

/-- C6.  A run of `Pool.Add` calls from the empty pool on transactions with pairwise
distinct encodings: every call succeeds and `Pool.List` then holds exactly those
transactions, each once, in some order.  `Pool.Add` of a transaction whose encoding
is a key of the pool returns the duplicate error and leaves the pool as it was. -/
theorem Pool_Add_distinct_and_duplicate (L : Lib) :
    (∀ txs : List Transaction, (txs.map fun t => t.Serialize L).Nodup →
      (poolAddAll L NewPool txs).1 = List.replicate txs.length none ∧
      (poolAddAll L NewPool txs).2.List.Perm txs) ∧
    (∀ (p : Pool) (t : Transaction), (∃ e ∈ p.txs, e.1 = t.Serialize L) →
      p.Add L t = (some .duplicate, p)) := by
  refine ⟨?_, Pool.Add_present L⟩
  intro txs hnd
  have := poolAddAll_spec L txs NewPool (by simp [NewPool]) (by simpa [NewPool, Pool.List] using hnd)
  refine ⟨this.1, ?_⟩
  rw [this.2]
  simp [NewPool, Pool.List]

set_option maxRecDepth 100000 in
/-- Instance of C6: two transactions with distinct encodings are both accepted, and
offering the first again is rejected without a change of the pool. -/
theorem Pool_Add_demo :
    (poolAddAll demoLib NewPool [demoSpendTx, genesisTx]).1 = [none, none] ∧
    (poolAddAll demoLib NewPool [demoSpendTx, genesisTx]).2.Add demoLib demoSpendTx
      = (some .duplicate, (poolAddAll demoLib NewPool [demoSpendTx, genesisTx]).2) :=
  ⟨((Pool_Add_distinct_and_duplicate demoLib).1 [demoSpendTx, genesisTx] (by decide)).1,
   (Pool_Add_distinct_and_duplicate demoLib).2 _ demoSpendTx (by decide)⟩

/-! ## The UTXO update on a store without failures -/

theorem addOutputs_nofault (L : Lib) (txID : Bytes) (outs : List Output) :
    ∀ (idx : Int) (kv : KV),
      addOutputs L txID outs idx ⟨⟨kv, []⟩⟩ = (none, ⟨⟨kvAddOutputs L txID outs idx kv, []⟩⟩) := by
  induction outs with
  | nil => intro idx kv; rfl
  | cons o rest ih =>
    intro idx kv
    simp [addOutputs, kvAddOutputs, Set.Add, DB.Put, DB.fails, ih]

theorem removeInputs_nofault (ins : List Input) :
    ∀ kv : KV, removeInputs ins ⟨⟨kv, []⟩⟩ = ⟨⟨kvRemoveInputs ins kv, []⟩⟩ := by
  induction ins with
  | nil => intro kv; rfl
  | cons i rest ih =>
    intro kv
    simp [removeInputs, kvRemoveInputs, Set.Remove, DB.Delete, DB.fails, ih]

theorem updateSet_nofault (L : Lib) (txs : List Transaction) :
    ∀ kv : KV, updateSet L txs ⟨⟨kv, []⟩⟩ = (none, ⟨⟨kvUpdate L txs kv, []⟩⟩) := by
  induction txs with
  | nil => intro kv; rfl
  | cons tx rest ih =>
    intro kv
    simp [updateSet, kvUpdate, addOutputs_nofault, removeInputs_nofault, ih]

/-! ## Balances -/

theorem wrapInt64_idem (x : Int) : wrapInt64 (wrapInt64 x) = wrapInt64 x := by
  unfold wrapInt64
  omega

theorem wrapInt64_add_left (x y : Int) : wrapInt64 (wrapInt64 x + y) = wrapInt64 (x + y) := by
  unfold wrapInt64
  omega

theorem balanceLoop_eq (L : Lib) (k : Bytes) (l : List (Bytes × Bytes)) :
    ∀ acc : Int, allDecode L l → wrapInt64 acc = acc →
      balanceLoop L k l acc = .ok (wrapInt64 (acc + ownedSum L k l)) := by
  induction l with
  | nil => intro acc _ h; simp [balanceLoop, ownedSum, h]
  | cons e rest ih =>
    intro acc hd hacc
    have he := hd e (List.mem_cons_self _ _)
    have hrest : allDecode L rest := fun e2 h2 => hd e2 (List.mem_cons_of_mem _ h2)
    obtain ⟨u, hu⟩ := Option.isSome_iff_exists.1 he
    have ho : owned L k e.2 = if u.PubKey.elems = k then u.Value else 0 := by
      simp [owned, hu]
    simp only [balanceLoop, hu, ownedSum, List.map_cons, List.sum_cons, ho]
    by_cases hk : u.PubKey.elems = k
    · simp only [hk, if_true]
      rw [ih _ hrest (by unfold goAdd; exact wrapInt64_idem _)]
      unfold goAdd ownedSum
      rw [wrapInt64_add_left, add_assoc]
    · simp only [hk, if_false]
      rw [ih _ hrest hacc]
      simp [ownedSum]

theorem balanceLoop_ok_decodes (L : Lib) (k : Bytes) (l : List (Bytes × Bytes)) :
    ∀ (acc b : Int), balanceLoop L k l acc = .ok b → allDecode L l := by
  induction l with
  | nil => intro acc b _ e he; simp at he
  | cons e rest ih =>
    intro acc b h
    simp only [balanceLoop] at h
    cases hu : L.jsonUnmarshalSpend e.2 with
    | none => simp [hu] at h
    | some u =>
      simp only [hu] at h
      have := ih _ _ h
      intro e2 he2
      rcases List.mem_cons.1 he2 with h2 | h2
      · subst h2; simp [hu]
      · exact this e2 h2

/-- `Set.Balance` on a store whose call does not fail: the exact sum of the owned
values, reduced to 64 bits, when every value decodes. -/
theorem Balance_eq (L : Lib) (kv : KV) (k : Slice Nat) (h : allDecode L kv.entries) :
    ((⟨⟨kv, []⟩⟩ : Set).Balance L k).1 = .ok (wrapInt64 (ownedSum L k.elems kv.entries)) := by
  simp [Set.Balance, DB.fails, balanceLoop_eq L k.elems kv.entries 0 h (by decide)]

theorem Balance_ok_decodes (L : Lib) (kv : KV) (k : Slice Nat) (b : Int)
    (h : ((⟨⟨kv, []⟩⟩ : Set).Balance L k).1 = .ok b) : allDecode L kv.entries := by
  simp only [Set.Balance, DB.fails, List.headD_nil, Bool.false_eq_true, if_false] at h
  exact balanceLoop_ok_decodes L k.elems kv.entries 0 b h

/-! ## Sums of owned values under upserts and removals -/

theorem kvAddOutputs_eq (L : Lib) (txID : Bytes) (outs : List Output) :
    ∀ (idx : Int) (kv : KV),
      kvAddOutputs L txID outs idx kv = applyWrites (outputWrites L txID outs idx) kv := by
  induction outs with
  | nil => intro idx kv; rfl
  | cons o rest ih => intro idx kv; simp [kvAddOutputs, outputWrites, applyWrites, ih]

theorem kvRemoveInputs_eq (ins : List Input) :
    ∀ kv : KV, kvRemoveInputs ins kv = applyErases (inputKeys ins) kv := by
  induction ins with
  | nil => intro kv; rfl
  | cons i rest ih =>
    intro kv
    rw [kvRemoveInputs, ih]
    rfl

theorem KV.get_put (s : KV) (k k2 v : Bytes) :
    (s.put k v).get k2 = if k2 = k then some v else s.get k2 := by
  by_cases h : k2 = k
  · subst h; simp
  · simp [h, KV.get_put_ne s v h]

theorem KV.get_erase (s : KV) (k k2 : Bytes) :
    (s.erase k).get k2 = if k2 = k then none else s.get k2 := by
  by_cases h : k2 = k
  · subst h; simp
  · simp [h, KV.get_erase_ne s h]

theorem filter_ne_of_not_mem (l : List (Bytes × Bytes)) (k : Bytes)
    (h : k ∉ l.map Prod.fst) : (l.filter fun e => decide (e.1 ≠ k)) = l := by
  rw [List.filter_eq_self]
  intro e he
  have : e.1 ≠ k := fun h2 => h (h2 ▸ List.mem_map_of_mem _ he)
  simpa using this

theorem ownedSum_filter (L : Lib) (k : Bytes) (key : Bytes) (l : List (Bytes × Bytes))
    (hnd : (l.map Prod.fst).Nodup) :
    ownedSum L k (l.filter fun e => decide (e.1 ≠ key))
      = ownedSum L k l - ownedOpt L k ((l.find? fun e => decide (e.1 = key)).map Prod.snd) := by
  induction l with
  | nil => simp [ownedSum, ownedOpt]
  | cons e rest ih =>
    have hnd2 := List.nodup_cons.1 hnd
    by_cases he : e.1 = key
    · have hnot : key ∉ rest.map Prod.fst := he ▸ hnd2.1
      rw [List.filter_cons_of_neg (by simpa using he), filter_ne_of_not_mem rest key hnot,
        List.find?_cons_of_pos _ (by simpa using he)]
      simp [ownedSum, ownedOpt]
    · rw [List.filter_cons_of_pos (by simpa using he),
        List.find?_cons_of_neg _ (by simpa using he)]
      have := ih hnd2.2
      simp only [ownedSum, List.map_cons, List.sum_cons] at this ⊢
      rw [this]
      ring

theorem ownedSum_erase (L : Lib) (k : Bytes) (s : KV) (key : Bytes) :
    ownedSum L k (s.erase key).entries = ownedSum L k s.entries - ownedOpt L k (s.get key) :=
  ownedSum_filter L k key s.entries s.nodup

theorem ownedSum_put (L : Lib) (k : Bytes) (s : KV) (key v : Bytes) :
    ownedSum L k (s.put key v).entries
      = ownedSum L k s.entries - ownedOpt L k (s.get key) + owned L k v := by
  have := ownedSum_erase L k s key
  simp only [KV.put, ownedSum, List.map_cons, List.sum_cons] at this ⊢
  rw [this]
  ring

theorem allDecode_erase (L : Lib) (s : KV) (key : Bytes) (h : allDecode L s.entries) :
    allDecode L (s.erase key).entries :=
  fun e he => h e (List.mem_of_mem_filter he)

theorem allDecode_put (L : Lib) (s : KV) (key v : Bytes) (h : allDecode L s.entries)
    (hv : (L.jsonUnmarshalSpend v).isSome = true) : allDecode L (s.put key v).entries := by
  intro e he
  rcases List.mem_cons.1 he with h2 | h2
  · subst h2; exact hv
  · exact allDecode_erase L s key h e h2

theorem get_applyWrites_of_not_mem (ws : List (Bytes × Bytes)) :
    ∀ (kv : KV) (key : Bytes), key ∉ ws.map Prod.fst → (applyWrites ws kv).get key = kv.get key := by
  induction ws with
  | nil => intro kv key _; rfl
  | cons w rest ih =>
    intro kv key h
    simp only [List.map_cons, List.mem_cons, not_or] at h
    rw [applyWrites, ih _ _ h.2, KV.get_put_ne _ _ h.1]

theorem get_applyWrites_of_mem (ws : List (Bytes × Bytes)) :
    ∀ (kv : KV), (ws.map Prod.fst).Nodup → ∀ w ∈ ws, (applyWrites ws kv).get w.1 = some w.2 := by
  induction ws with
  | nil => intro kv _ w hw; simp at hw
  | cons w0 rest ih =>
    intro kv hnd w hw
    have hnd2 := List.nodup_cons.1 hnd
    rcases List.mem_cons.1 hw with h | h
    · subst h
      rw [applyWrites, get_applyWrites_of_not_mem _ _ _ hnd2.1, KV.get_put_self]
    · rw [applyWrites]
      exact ih _ hnd2.2 w h

/-- A value found after a run of upserts was there before or is one of the writes. -/
theorem get_applyWrites_cases (ws : List (Bytes × Bytes)) :
    ∀ (kv : KV) (key v : Bytes), (applyWrites ws kv).get key = some v →
      kv.get key = some v ∨ (key, v) ∈ ws := by
  induction ws with
  | nil => intro kv key v h; exact Or.inl h
  | cons w rest ih =>
    intro kv key v h
    rcases ih _ _ _ h with h2 | h2
    · rw [KV.get_put] at h2
      split_ifs at h2 with hk
      · right
        simp only [Option.some.injEq] at h2
        subst hk; subst h2
        exact List.mem_cons_self _ _
      · exact Or.inl h2
    · exact Or.inr (List.mem_cons_of_mem _ h2)

theorem get_applyErases (ks : List Bytes) :
    ∀ (kv : KV) (key : Bytes),
      (applyErases ks kv).get key = if key ∈ ks then none else kv.get key := by
  induction ks with
  | nil => intro kv key; simp [applyErases]
  | cons k rest ih =>
    intro kv key
    rw [applyErases, ih, KV.get_erase]
    by_cases h1 : key ∈ rest
    · simp [h1]
    · by_cases h2 : key = k
      · simp [h2]
      · simp [h1, h2]

theorem ownedSum_applyWrites (L : Lib) (k : Bytes) (ws : List (Bytes × Bytes)) :
    ∀ kv : KV, (ws.map Prod.fst).Nodup → (∀ w ∈ ws, kv.get w.1 = none) →
      ownedSum L k (applyWrites ws kv).entries = ownedSum L k kv.entries + ownedSum L k ws := by
  induction ws with
  | nil => intro kv _ _; simp [applyWrites, ownedSum]
  | cons w rest ih =>
    intro kv hnd hfresh
    have hnd2 := List.nodup_cons.1 hnd
    have hrest : ∀ w2 ∈ rest, (kv.put w.1 w.2).get w2.1 = none := by
      intro w2 hw2
      have hne : w2.1 ≠ w.1 := fun h => hnd2.1 (h ▸ List.mem_map_of_mem _ hw2)
      rw [KV.get_put_ne _ _ hne]
      exact hfresh w2 (List.mem_cons_of_mem _ hw2)
    rw [applyWrites, ih _ hnd2.2 hrest, ownedSum_put, hfresh w (List.mem_cons_self _ _)]
    simp only [ownedOpt, ownedSum, List.map_cons, List.sum_cons]
    ring

theorem ownedSum_applyErases (L : Lib) (k : Bytes) (ks : List Bytes) :
    ∀ kv : KV, (∀ key ∈ ks, ownedOpt L k (kv.get key) = 0) →
      ownedSum L k (applyErases ks kv).entries = ownedSum L k kv.entries := by
  induction ks with
  | nil => intro kv _; rfl
  | cons key rest ih =>
    intro kv h
    have hrest : ∀ key2 ∈ rest, ownedOpt L k ((kv.erase key).get key2) = 0 := by
      intro key2 h2
      rw [KV.get_erase]
      split_ifs
      · rfl
      · exact h key2 (List.mem_cons_of_mem _ h2)
    rw [applyErases, ih _ hrest, ownedSum_erase, h key (List.mem_cons_self _ _)]
    ring

theorem allDecode_applyWrites (L : Lib) (ws : List (Bytes × Bytes)) :
    ∀ kv : KV, allDecode L kv.entries → allDecode L ws → allDecode L (applyWrites ws kv).entries := by
  induction ws with
  | nil => intro kv h _; exact h
  | cons w rest ih =>
    intro kv h hw
    exact ih _ (allDecode_put L kv w.1 w.2 h (hw w (List.mem_cons_self _ _)))
      (fun e he => hw e (List.mem_cons_of_mem _ he))

theorem allDecode_applyErases (L : Lib) (ks : List Bytes) :
    ∀ kv : KV, allDecode L kv.entries → allDecode L (applyErases ks kv).entries := by
  induction ks with
  | nil => intro kv h; exact h
  | cons key rest ih => intro kv h; exact ih _ (allDecode_erase L kv key h)

theorem allDecode_outputWrites (L : Lib) (txID : Bytes) (outs : List Output) :
    ∀ idx : Int, allDecode L (outputWrites L txID outs idx) := by
  induction outs with
  | nil => intro idx e he; simp [outputWrites] at he
  | cons o rest ih =>
    intro idx e he
    rcases List.mem_cons.1 he with h | h
    · subst h; simp [L.spend_roundtrip]
    · exact ih _ e h

theorem ownedSum_append (L : Lib) (k : Bytes) (l1 l2 : List (Bytes × Bytes)) :
    ownedSum L k (l1 ++ l2) = ownedSum L k l1 + ownedSum L k l2 := by
  simp [ownedSum]

theorem kvUpdate_cons (L : Lib) (tx : Transaction) (rest : List Transaction) (kv : KV) :
    kvUpdate L (tx :: rest) kv = kvUpdate L rest (applyErases (inputKeys tx.Inputs.elems)
      (applyWrites (outputWrites L (tx.Key L) tx.Outputs.elems 0) kv)) := by
  rw [kvUpdate, kvAddOutputs_eq, kvRemoveInputs_eq]

/-- The sum of the values owned by `k` after the UTXO update of a block, when the
keys the block writes are pairwise distinct and new to the store and no input refers
to an entry, old or written by the block, that `k` owns: the sum before plus the
values of the written records that `k` owns. -/
theorem ownedSum_kvUpdate (L : Lib) (k : Bytes) (txs : List Transaction) :
    ∀ kv : KV, ((blockWrites L txs).map Prod.fst).Nodup →
      (∀ w ∈ blockWrites L txs, kv.get w.1 = none) →
      (∀ key ∈ blockInputKeys txs, ownedOpt L k (kv.get key) = 0) →
      (∀ key ∈ blockInputKeys txs, ∀ w ∈ blockWrites L txs, w.1 = key → owned L k w.2 = 0) →
      ownedSum L k (kvUpdate L txs kv).entries
        = ownedSum L k kv.entries + ownedSum L k (blockWrites L txs) := by
  induction txs with
  | nil => intro kv _ _ _ _; simp [kvUpdate, blockWrites, ownedSum]
  | cons tx rest ih =>
    intro kv hnd hfresh h3 h4
    have hbw : blockWrites L (tx :: rest)
        = outputWrites L (tx.Key L) tx.Outputs.elems 0 ++ blockWrites L rest := by
      simp [blockWrites]
    have hbk : blockInputKeys (tx :: rest) = inputKeys tx.Inputs.elems ++ blockInputKeys rest := by
      simp [blockInputKeys]
    rw [hbw] at hnd hfresh h4
    rw [hbk] at h3 h4
    rw [List.map_append, List.nodup_append] at hnd
    obtain ⟨hnd1, hnd2, hdisj⟩ := hnd
    have hkv1 : ∀ key ∈ inputKeys tx.Inputs.elems ++ blockInputKeys rest,
        ownedOpt L k ((applyWrites (outputWrites L (tx.Key L) tx.Outputs.elems 0) kv).get key)
          = 0 := by
      intro key hkey
      cases hg : (applyWrites (outputWrites L (tx.Key L) tx.Outputs.elems 0) kv).get key with
      | none => rfl
      | some v =>
        rcases get_applyWrites_cases _ _ _ _ hg with h | h
        · have := h3 key hkey
          rw [h] at this
          exact this
        · exact h4 key hkey (key, v) (List.mem_append_left _ h) rfl
    rw [kvUpdate_cons, ih, ownedSum_applyErases, ownedSum_applyWrites, hbw, ownedSum_append]
    · ring
    · exact hnd1
    · exact fun w hw => hfresh w (List.mem_append_left _ hw)
    · exact fun key hkey => hkv1 key (List.mem_append_left _ hkey)
    · exact hnd2
    · intro w hw
      rw [get_applyErases]
      split_ifs
      · rfl
      · rw [get_applyWrites_of_not_mem]
        · exact hfresh w (List.mem_append_right _ hw)
        · exact fun hmem => hdisj hmem (List.mem_map_of_mem _ hw)
    · intro key hkey
      rw [get_applyErases]
      split_ifs
      · rfl
      · exact hkv1 key (List.mem_append_right _ hkey)
    · exact fun key hkey w hw =>
        h4 key (List.mem_append_right _ hkey) w (List.mem_append_right _ hw)

theorem allDecode_blockWrites (L : Lib) (txs : List Transaction) :
    allDecode L (blockWrites L txs) := by
  intro e he
  simp only [blockWrites, List.mem_flatMap] at he
  obtain ⟨tx, -, h⟩ := he
  exact allDecode_outputWrites L _ _ _ e h

theorem allDecode_kvUpdate (L : Lib) (txs : List Transaction) :
    ∀ kv : KV, allDecode L kv.entries → allDecode L (kvUpdate L txs kv).entries := by
  induction txs with
  | nil => intro kv h; exact h
  | cons tx rest ih =>
    intro kv h
    rw [kvUpdate_cons]
    exact ih _ (allDecode_applyErases L _ _
      (allDecode_applyWrites L _ _ h (allDecode_outputWrites L _ _ _)))

/-! ## `MineBlockFromPool` on stores without failures -/

/-- `MineBlockFromPool` on stores whose calls do not fail, with a stored tip block that
decodes: the call succeeds, and this is the block and the chain it leaves. -/
theorem MineBlockFromPool_nofault (L : Lib) (now now2 : Int) (c : Chain) (miner : Slice Nat)
    (t : Block) (htip : (c.blocks.kv.get c.tip.elems).bind (Block.Deserialize L) = some t)
    (hf1 : c.blocks.faults = []) (hf2 : c.set.store.faults = []) :
    c.MineBlockFromPool L now now2 miner =
      (.ok (sealedBlock L now2 t (.of (coinbaseTx now miner :: c.pool.List))),
        { tip := (sealedBlock L now2 t (.of (coinbaseTx now miner :: c.pool.List))).Hash,
          blocks := ⟨(c.blocks.kv.put
            (sealedBlock L now2 t (.of (coinbaseTx now miner :: c.pool.List))).Hash.elems
            ((sealedBlock L now2 t (.of (coinbaseTx now miner :: c.pool.List))).Serialize L)).put
              chainstateKey
              (sealedBlock L now2 t (.of (coinbaseTx now miner :: c.pool.List))).Hash.elems, []⟩,
          pool := removeFromPool L c.pool.List c.pool,
          set := ⟨⟨kvUpdate L (coinbaseTx now miner :: c.pool.List) c.set.store.kv, []⟩⟩ }) := by
  cases hg : c.blocks.kv.get c.tip.elems with
  | none => simp [hg] at htip
  | some data =>
    have hd : Block.Deserialize L data = some t := by simpa [hg] using htip
    have hm := MineBlock_ok L now2 c (.of (coinbaseTx now miner :: c.pool.List)) data t hg hd hf1
    have hset : c.set = ⟨⟨c.set.store.kv, []⟩⟩ := by
      obtain ⟨tip, blocks, pool, ⟨⟨kv, faults⟩⟩⟩ := c
      simp only at hf2
      subst hf2
      rfl
    unfold Chain.MineBlockFromPool
    rw [hm]
    simp only
    have hu : updateSet L (sealedBlock L now2 t (.of (coinbaseTx now miner :: c.pool.List))).Transactions.elems
        c.set = (none, ⟨⟨kvUpdate L (coinbaseTx now miner :: c.pool.List) c.set.store.kv, []⟩⟩) := by
      rw [hset]
      exact updateSet_nofault L _ _
    rw [hu]

theorem owned_marshal (L : Lib) (k : Bytes) (s : Spend) :
    owned L k (L.jsonMarshalSpend s) = if s.PubKey.elems = k then s.Value else 0 := by
  simp [owned, L.spend_roundtrip]

@[simp] theorem blockWrites_nil (L : Lib) : blockWrites L [] = [] := rfl

@[simp] theorem blockInputKeys_nil : blockInputKeys [] = [] := rfl

theorem blockWrites_coinbase (L : Lib) (now : Int) (miner : Slice Nat) (txs : List Transaction) :
    blockWrites L (coinbaseTx now miner :: txs)
      = (utxoKey ((coinbaseTx now miner).Key L) 0,
          L.jsonMarshalSpend { Value := 50, PubKey := miner }) :: blockWrites L txs := by
  simp [blockWrites, coinbaseTx, outputWrites]

theorem blockInputKeys_coinbase (now : Int) (miner : Slice Nat) (txs : List Transaction) :
    blockInputKeys (coinbaseTx now miner :: txs) = blockInputKeys txs := by
  simp [blockInputKeys, coinbaseTx, inputKeys]

/-- C10.  Empty-pool scenario on stores whose calls do not fail: with the tip a stored
block that decodes (the genesis block in the scenario), an empty pool and an empty UTXO
index, `MineBlockFromPool(minerA)` returns a block whose only transaction is the
coinbase, which has no inputs and one output of value 50 owned by `minerA`; afterwards
`Balance(minerA)` is 50 and `Balance(k)` is 0 for every other key. -/
theorem MineBlockFromPool_empty_pool (L : Lib) (now now2 : Int) (c : Chain) (minerA : Slice Nat)
    (t : Block) (htip : (c.blocks.kv.get c.tip.elems).bind (Block.Deserialize L) = some t)
    (hpool : c.pool.txs = []) (hset : c.set.store.kv.entries = [])
    (hf1 : c.blocks.faults = []) (hf2 : c.set.store.faults = []) :
    ∃ b c2, c.MineBlockFromPool L now now2 minerA = (.ok b, c2) ∧
      (∃ tx, b.Transactions = .of [tx] ∧ tx.Inputs.elems = [] ∧
        tx.Outputs.elems = [{ Value := 50, PubKey := minerA }]) ∧
      (c2.set.Balance L minerA).1 = .ok 50 ∧
      ∀ k : Slice Nat, k.elems ≠ minerA.elems → (c2.set.Balance L k).1 = .ok 0 := by
  have hl : c.pool.List = [] := by simp [Pool.List, hpool]
  have hget : ∀ key, c.set.store.kv.get key = none := by
    intro key
    simp [KV.get, hset]
  have hsum : ∀ k : Bytes, ownedSum L k (kvUpdate L [coinbaseTx now minerA] c.set.store.kv).entries
      = if minerA.elems = k then 50 else 0 := by
    intro k
    rw [ownedSum_kvUpdate L k _ _ (by simp [blockWrites_coinbase])
      (fun w _ => hget w.1) (by simp [blockInputKeys_coinbase])
      (by simp [blockInputKeys_coinbase])]
    simp [blockWrites_coinbase, ownedSum, hset, owned_marshal]
  have hdec : allDecode L (kvUpdate L [coinbaseTx now minerA] c.set.store.kv).entries :=
    allDecode_kvUpdate L _ _ (by simp [allDecode, hset])
  refine ⟨_, _, MineBlockFromPool_nofault L now now2 c minerA t htip hf1 hf2, ?_, ?_, ?_⟩
  · exact ⟨coinbaseTx now minerA, by simp [sealedBlock, hl], rfl, rfl⟩
  · simp only [hl]
    rw [Balance_eq L _ _ hdec, hsum]
    simp [wrapInt64]
  · intro k hk
    simp only [hl]
    rw [Balance_eq L _ _ hdec, hsum]
    simp [Ne.symm hk, wrapInt64]

set_option maxRecDepth 100000 in
/-- Instance of C10 on the chain loaded from the demo store, miner key `[4]`. -/
theorem MineBlockFromPool_empty_pool_demo :
    ∃ b c2, demoChain.MineBlockFromPool demoLib 9 9 (.of [4]) = (.ok b, c2) ∧
      (∃ tx, b.Transactions = .of [tx] ∧ tx.Inputs.elems = [] ∧
        tx.Outputs.elems = [{ Value := 50, PubKey := .of [4] }]) ∧
      (c2.set.Balance demoLib (.of [4])).1 = .ok 50 ∧
      ∀ k : Slice Nat, k.elems ≠ (Slice.of [4]).elems → (c2.set.Balance demoLib k).1 = .ok 0 :=
  MineBlockFromPool_empty_pool demoLib 9 9 demoChain (.of [4])
    (gobBlock (NewGenesisBlock demoLib 7)) (by decide) rfl rfl rfl rfl

theorem wrapInt64_range (x : Int) : -2 ^ 63 ≤ wrapInt64 x ∧ wrapInt64 x < 2 ^ 63 := by
  unfold wrapInt64
  omega

theorem Set.eq_of_nofault (s : Set) (h : s.store.faults = []) : s = ⟨⟨s.store.kv, []⟩⟩ := by
  obtain ⟨⟨kv, faults⟩⟩ := s
  simp only at h
  subst h
  rfl

/-- A balance read before and after a change of the store content that adds `d` to the
exact sum of the values the key owns. -/
theorem Balance_shift (L : Lib) (kv kv2 : KV) (k : Slice Nat) (d bal : Int)
    (hdec : allDecode L kv.entries → allDecode L kv2.entries)
    (hsum : ownedSum L k.elems kv2.entries = ownedSum L k.elems kv.entries + d)
    (hbal : ((⟨⟨kv, []⟩⟩ : Set).Balance L k).1 = .ok bal) :
    ((⟨⟨kv2, []⟩⟩ : Set).Balance L k).1 = .ok (goAdd bal d) ∧
    (-2 ^ 63 ≤ bal + d → bal + d ≤ MaxInt64 → goAdd bal d = bal + d) := by
  have hd := Balance_ok_decodes L kv k bal hbal
  rw [Balance_eq L kv k hd] at hbal
  simp only [Except.ok.injEq] at hbal
  rw [Balance_eq L kv2 k (hdec hd), hsum, ← hbal]
  refine ⟨by unfold goAdd; rw [wrapInt64_add_left], ?_⟩
  intro h1 h2
  unfold MaxInt64 at h2
  exact wrapInt64_of_range h1 (by omega)

theorem Find_nofault (L : Lib) (kv : KV) (txID : Bytes) (idx : Int) :
    ((⟨⟨kv, []⟩⟩ : Set).Find L txID idx).1 =
      match kv.get (utxoKey txID idx) with
      | none => .error .notFound
      | some v =>
        match L.jsonUnmarshalSpend v with
        | none => .error .decode
        | some u => .ok u := by
  simp only [Set.Find, DB.Get, DB.fails, List.headD_nil, Bool.false_eq_true, if_false]
  cases kv.get (utxoKey txID idx) with
  | none => rfl
  | some v =>
    simp only
    cases L.jsonUnmarshalSpend v <;> rfl

theorem utxoKey_zero (t : Bytes) : utxoKey t 0 = t ++ [58, 48] := by
  simp [utxoKey, decimal, decimalDigits]

theorem utxoKey_one (t : Bytes) : utxoKey t 1 = t ++ [58, 49] := by
  simp [utxoKey, decimal, decimalDigits]

theorem utxoKey_zero_ne_one (t t2 : Bytes) : utxoKey t 0 ≠ utxoKey t2 1 := by
  rw [utxoKey_zero, utxoKey_one]
  intro h
  have := congrArg List.getLast? h
  simp at this

theorem utxoKey_left_inj {t t2 : Bytes} (i : Int) (h : utxoKey t i = utxoKey t2 i) : t = t2 :=
  List.append_cancel_right h

/-- C9, as amended.  Spend scenario on stores whose calls do not fail.  The UTXO index
holds an entry of value 100 at the coordinate the single input of the only pooled
transaction refers to; the transaction has fee 5 and outputs of 30 to a receiver key and
65 to a change key; receiver, change key, miner and the owner of the entry are pairwise
distinct.  If in addition the index holds no entry yet at the coordinates of the
outputs the block confirms (the coinbase output and the two outputs of the transaction)
and the coinbase and the transaction have different identifiers, then
`MineBlockFromPool` succeeds, `Set.Find` on the spent coordinate reports it absent, and
the balances of the receiver and of the change key are the balances before plus 30 and
plus 65 (Go `int` addition: exactly 30 and 65 more unless the sum leaves the range). -/
theorem MineBlockFromPool_spend (L : Lib) (now now2 : Int) (c : Chain) (miner : Slice Nat)
    (t : Block) (tx : Transaction) (inp : Input) (recv chg owner : Slice Nat)
    (htip : (c.blocks.kv.get c.tip.elems).bind (Block.Deserialize L) = some t)
    (hf1 : c.blocks.faults = []) (hf2 : c.set.store.faults = [])
    (hpool : c.pool.List = [tx]) (_hfee : tx.Fee = 5) (hin : tx.Inputs.elems = [inp])
    (hout : tx.Outputs.elems = [{ Value := 30, PubKey := recv }, { Value := 65, PubKey := chg }])
    (hentry : (c.set.Find L inp.PreviousKey.elems inp.OutputIndex).1
      = .ok { Value := 100, PubKey := owner })
    (hdist : [recv.elems, chg.elems, miner.elems, owner.elems].Nodup)
    (hnew : (c.set.Find L ((coinbaseTx now miner).Key L) 0).1 = .error .notFound ∧
      (c.set.Find L (tx.Key L) 0).1 = .error .notFound ∧
      (c.set.Find L (tx.Key L) 1).1 = .error .notFound)
    (hid : (coinbaseTx now miner).Key L ≠ tx.Key L) :
    ∃ b c2, c.MineBlockFromPool L now now2 miner = (.ok b, c2) ∧
      (c2.set.Find L inp.PreviousKey.elems inp.OutputIndex).1 = .error .notFound ∧
      (∀ bal, (c.set.Balance L recv).1 = .ok bal →
        (c2.set.Balance L recv).1 = .ok (goAdd bal 30) ∧
        (bal + 30 ≤ MaxInt64 → goAdd bal 30 = bal + 30)) ∧
      (∀ bal, (c.set.Balance L chg).1 = .ok bal →
        (c2.set.Balance L chg).1 = .ok (goAdd bal 65) ∧
        (bal + 65 ≤ MaxInt64 → goAdd bal 65 = bal + 65)) := by
  have hset := Set.eq_of_nofault c.set hf2
  -- the hypotheses on the index, read on the store content
  have hfind : ∀ txID idx, (c.set.Find L txID idx).1 = .error .notFound →
      c.set.store.kv.get (utxoKey txID idx) = none := by
    intro txID idx h
    rw [hset, Find_nofault] at h
    cases hg : c.set.store.kv.get (utxoKey txID idx) with
    | none => rfl
    | some v =>
      simp only [hg] at h
      cases hu : L.jsonUnmarshalSpend v <;> simp [hu] at h
  have hkc := hfind _ _ hnew.1
  have hk0 := hfind _ _ hnew.2.1
  have hk1 := hfind _ _ hnew.2.2
  obtain ⟨v, hv, hvu⟩ : ∃ v, c.set.store.kv.get (utxoKey inp.PreviousKey.elems inp.OutputIndex)
      = some v ∧ L.jsonUnmarshalSpend v = some { Value := 100, PubKey := owner } := by
    rw [hset, Find_nofault] at hentry
    cases hg : c.set.store.kv.get (utxoKey inp.PreviousKey.elems inp.OutputIndex) with
    | none => simp [hg] at hentry
    | some v =>
      simp only [hg] at hentry
      cases hu : L.jsonUnmarshalSpend v with
      | none => simp [hu] at hentry
      | some u =>
        simp only [hu, Except.ok.injEq] at hentry
        exact ⟨v, rfl, by rw [hu, hentry]⟩
  -- the writes and the input key of the block
  have hw : blockWrites L (coinbaseTx now miner :: c.pool.List) =
      [(utxoKey ((coinbaseTx now miner).Key L) 0, L.jsonMarshalSpend { Value := 50, PubKey := miner }),
       (utxoKey (tx.Key L) 0, L.jsonMarshalSpend { Value := 30, PubKey := recv }),
       (utxoKey (tx.Key L) 1, L.jsonMarshalSpend { Value := 65, PubKey := chg })] := by
    rw [blockWrites_coinbase, hpool]
    simp [blockWrites, hout, outputWrites]
  have hk : blockInputKeys (coinbaseTx now miner :: c.pool.List)
      = [utxoKey inp.PreviousKey.elems inp.OutputIndex] := by
    rw [blockInputKeys_coinbase, hpool]
    simp [blockInputKeys, hin, inputKeys]
  have hnd : ((blockWrites L (coinbaseTx now miner :: c.pool.List)).map Prod.fst).Nodup := by
    rw [hw]
    have h1 : utxoKey ((coinbaseTx now miner).Key L) 0 ≠ utxoKey (tx.Key L) 0 :=
      fun h => hid (utxoKey_left_inj 0 h)
    have h2 := utxoKey_zero_ne_one ((coinbaseTx now miner).Key L) (tx.Key L)
    have h3 := utxoKey_zero_ne_one (tx.Key L) (tx.Key L)
    simp [h1, h2, h3]
  have hfresh : ∀ w ∈ blockWrites L (coinbaseTx now miner :: c.pool.List),
      c.set.store.kv.get w.1 = none := by
    rw [hw]
    intro w hwm
    simp only [List.mem_cons, List.mem_singleton, List.not_mem_nil, or_false] at hwm
    rcases hwm with h | h | h <;> subst h <;> assumption
  have hsum : ∀ k : Bytes, k ≠ owner.elems →
      ownedSum L k (kvUpdate L (coinbaseTx now miner :: c.pool.List) c.set.store.kv).entries
        = ownedSum L k c.set.store.kv.entries
          + ((if miner.elems = k then 50 else 0) + ((if recv.elems = k then 30 else 0)
            + (if chg.elems = k then 65 else 0))) := by
    intro k hko
    rw [ownedSum_kvUpdate L k _ _ hnd hfresh]
    · rw [hw]
      simp [ownedSum, owned_marshal]
    · rw [hk]
      intro key hkey
      simp only [List.mem_singleton] at hkey
      subst hkey
      rw [hv]
      simp [ownedOpt, owned, hvu, Ne.symm hko]
    · rw [hk]
      intro key hkey w hwm hwk
      simp only [List.mem_singleton] at hkey
      subst hkey
      have := hfresh w hwm
      rw [hwk, hv] at this
      simp at this
  simp only [List.nodup_cons, List.mem_cons, List.mem_singleton, List.not_mem_nil, or_false,
    not_or, List.nodup_nil, and_true, not_false_eq_true] at hdist
  obtain ⟨⟨hrc, hrm, hro⟩, ⟨hcm, hco⟩, hmo⟩ := hdist
  refine ⟨_, _, MineBlockFromPool_nofault L now now2 c miner t htip hf1 hf2, ?_, ?_, ?_⟩
  · rw [Find_nofault, hpool, kvUpdate_cons, kvUpdate_cons]
    simp only [kvUpdate, hin, inputKeys, List.map_cons, List.map_nil, applyErases]
    rw [KV.get_erase_self]
  · intro bal hbal
    rw [hset] at hbal
    have := Balance_shift L _ _ recv 30 bal (allDecode_kvUpdate L _ _)
      (by rw [hsum _ hro]; simp [Ne.symm hrm, Ne.symm hrc]) hbal
    refine ⟨this.1, fun h => this.2 ?_ h⟩
    have hr := Balance_ok_decodes L _ recv bal hbal
    rw [Balance_eq L _ _ hr] at hbal
    simp only [Except.ok.injEq] at hbal
    have := (wrapInt64_range (ownedSum L recv.elems c.set.store.kv.entries)).1
    rw [hbal] at this
    omega
  · intro bal hbal
    rw [hset] at hbal
    have := Balance_shift L _ _ chg 65 bal (allDecode_kvUpdate L _ _)
      (by rw [hsum _ hco]; simp [Ne.symm hcm, hrc]) hbal
    refine ⟨this.1, fun h => this.2 ?_ h⟩
    have hr := Balance_ok_decodes L _ chg bal hbal
    rw [Balance_eq L _ _ hr] at hbal
    simp only [Except.ok.injEq] at hbal
    have := (wrapInt64_range (ownedSum L chg.elems c.set.store.kv.entries)).1
    rw [hbal] at this
    omega

set_option maxRecDepth 100000 in
/-- Instance of C9 as amended: `demoFundedChain` holds the spent entry and none of the
outputs to confirm; after the call the spent coordinate is absent. -/
theorem MineBlockFromPool_spend_demo :
    ∃ b c2, demoFundedChain.MineBlockFromPool demoLib 9 9 (.of [4]) = (.ok b, c2) ∧
      (c2.set.Find demoLib [80] 0).1 = .error .notFound ∧
      (∀ bal, (demoFundedChain.set.Balance demoLib (.of [2])).1 = .ok bal →
        (c2.set.Balance demoLib (.of [2])).1 = .ok (goAdd bal 30) ∧
        (bal + 30 ≤ MaxInt64 → goAdd bal 30 = bal + 30)) ∧
      (∀ bal, (demoFundedChain.set.Balance demoLib (.of [3])).1 = .ok bal →
        (c2.set.Balance demoLib (.of [3])).1 = .ok (goAdd bal 65) ∧
        (bal + 65 ≤ MaxInt64 → goAdd bal 65 = bal + 65)) :=
  MineBlockFromPool_spend demoLib 9 9 demoFundedChain (.of [4])
    (gobBlock (NewGenesisBlock demoLib 7)) demoSpendTx
    { PreviousKey := .of [80], OutputIndex := 0, Signature := .nil, PubKey := .of [1] }
    (.of [2]) (.of [3]) (.of [1]) (by decide) rfl rfl rfl rfl rfl rfl (by decide) (by decide)
    (by decide) (by decide)

set_option maxRecDepth 100000 in
/-- C9, counterexample to the claim as stated.  When the outputs of the pooled
transaction are already in the UTXO index, as they are after a submission through the
request layer, the scenario's premises hold, `MineBlockFromPool` succeeds, and the
balances of the receiver `[2]` and of the change key `[3]` are the same after as
before: 30 and 65. -/
theorem MineBlockFromPool_spend_speculative :
    demoSpeculativeChain.pool.List = [demoSpendTx] ∧
    (demoSpeculativeChain.set.Find demoLib [80] 0).1 = .ok { Value := 100, PubKey := .of [1] } ∧
    (demoSpeculativeChain.MineBlockFromPool demoLib 9 9 (.of [4])).1.toBool = true ∧
    (demoSpeculativeChain.set.Balance demoLib (.of [2])).1 = .ok 30 ∧
    ((demoSpeculativeChain.MineBlockFromPool demoLib 9 9 (.of [4])).2.set.Balance demoLib
      (.of [2])).1 = .ok 30 ∧
    (demoSpeculativeChain.set.Balance demoLib (.of [3])).1 = .ok 65 ∧
    ((demoSpeculativeChain.MineBlockFromPool demoLib 9 9 (.of [4])).2.set.Balance demoLib
      (.of [3])).1 = .ok 65 := by
  decide

theorem ownedSum_outputWrites_nonneg (L : Lib) (k : Bytes) (txID : Bytes) (outs : List Output)
    (h : ∀ o ∈ outs, o.PubKey.elems = k → 0 ≤ o.Value) :
    ∀ idx : Int, 0 ≤ ownedSum L k (outputWrites L txID outs idx) := by
  induction outs with
  | nil => intro idx; simp [outputWrites, ownedSum]
  | cons o rest ih =>
    intro idx
    have h1 := ih (fun o2 ho2 => h o2 (List.mem_cons_of_mem _ ho2)) (idx + 1)
    have h2 := h o (List.mem_cons_self _ _)
    simp only [outputWrites, ownedSum, List.map_cons, List.sum_cons, owned_marshal] at h1 ⊢
    split_ifs with hk
    · have := h2 hk
      omega
    · omega

theorem ownedSum_blockWrites_nonneg (L : Lib) (k : Bytes) (txs : List Transaction)
    (h : ∀ tx ∈ txs, ∀ o ∈ tx.Outputs.elems, o.PubKey.elems = k → 0 ≤ o.Value) :
    0 ≤ ownedSum L k (blockWrites L txs) := by
  induction txs with
  | nil => simp [ownedSum]
  | cons tx rest ih =>
    have h1 := ih (fun tx2 h2 => h tx2 (List.mem_cons_of_mem _ h2))
    have h2 := ownedSum_outputWrites_nonneg L k (tx.Key L) tx.Outputs.elems
      (h tx (List.mem_cons_self _ _)) 0
    have : blockWrites L (tx :: rest)
        = outputWrites L (tx.Key L) tx.Outputs.elems 0 ++ blockWrites L rest := by
      simp [blockWrites]
    rw [this, ownedSum_append]
    omega

/-- The values a key owns among the records written for the outputs of one transaction. -/
theorem ownedSum_outputWrites (L : Lib) (k : Bytes) (txID : Bytes) (outs : List Output) :
    ∀ idx : Int, ownedSum L k (outputWrites L txID outs idx)
      = ((outs.filter fun o => decide (o.PubKey.elems = k)).map fun o => o.Value).sum := by
  induction outs with
  | nil => intro idx; simp [outputWrites, ownedSum]
  | cons o rest ih =>
    intro idx
    have h1 := ih (idx + 1)
    simp only [outputWrites, ownedSum, List.map_cons, List.sum_cons, owned_marshal] at h1 ⊢
    rw [h1]
    by_cases hk : o.PubKey.elems = k
    · simp [List.filter_cons, hk]
    · simp [List.filter_cons, hk]

/-- The values a key owns among the records a block writes: the outputs that name it. -/
theorem ownedSum_blockWrites (L : Lib) (k : Bytes) (txs : List Transaction) :
    ownedSum L k (blockWrites L txs) = outputsTo k txs := by
  induction txs with
  | nil => simp [ownedSum, outputsTo]
  | cons tx rest ih =>
    have : blockWrites L (tx :: rest)
        = outputWrites L (tx.Key L) tx.Outputs.elems 0 ++ blockWrites L rest := by
      simp [blockWrites]
    rw [this, ownedSum_append, ih, ownedSum_outputWrites]
    simp [outputsTo]

theorem outputsTo_nonneg (k : Bytes) (txs : List Transaction)
    (h : ∀ tx ∈ txs, ∀ o ∈ tx.Outputs.elems, o.PubKey.elems = k → 0 ≤ o.Value) :
    0 ≤ outputsTo k txs := by
  unfold outputsTo
  apply List.sum_nonneg
  intro x hx
  simp only [List.mem_map, List.mem_filter, List.mem_flatMap, decide_eq_true_eq] at hx
  obtain ⟨o, ⟨⟨tx, htx, ho⟩, hk⟩, rfl⟩ := hx
  exact h tx htx o ho hk

/-- C8, as amended.  On stores whose calls do not fail and with a stored tip block that
decodes, let the store keys of the outputs the new block confirms (the coinbase output
and the outputs of the pooled transactions) be pairwise distinct and absent from the
UTXO index, let no input of a pooled transaction refer to an entry of the index or to
an output of the block that adds to the balance of the miner key `k`, and let the
pooled outputs owned by `k` have non-negative values.  Then `MineBlockFromPool(k)`
succeeds and `Balance(k)` afterwards is the balance before plus 50 plus the sum of the
pooled outputs that name `k`, in Go `int` addition; when that sum does not exceed
`MaxInt64` it is that integer, which is at least the balance before plus 50. -/
theorem MineBlockFromPool_reward (L : Lib) (now now2 : Int) (c : Chain) (miner : Slice Nat)
    (t : Block) (htip : (c.blocks.kv.get c.tip.elems).bind (Block.Deserialize L) = some t)
    (hf1 : c.blocks.faults = []) (hf2 : c.set.store.faults = [])
    (hnd : ((blockWrites L (coinbaseTx now miner :: c.pool.List)).map Prod.fst).Nodup)
    (hnew : ∀ w ∈ blockWrites L (coinbaseTx now miner :: c.pool.List),
      c.set.store.kv.get w.1 = none)
    (hkeep : ∀ key ∈ blockInputKeys c.pool.List,
      ownedOpt L miner.elems (c.set.store.kv.get key) = 0)
    (hkeep2 : ∀ key ∈ blockInputKeys c.pool.List,
      ∀ w ∈ blockWrites L (coinbaseTx now miner :: c.pool.List),
        w.1 = key → owned L miner.elems w.2 = 0)
    (hpos : ∀ tx ∈ c.pool.List, ∀ o ∈ tx.Outputs.elems,
      o.PubKey.elems = miner.elems → 0 ≤ o.Value) :
    ∃ b c2, c.MineBlockFromPool L now now2 miner = (.ok b, c2) ∧
      ∀ bal, (c.set.Balance L miner).1 = .ok bal →
        (c2.set.Balance L miner).1
          = .ok (goAdd bal (50 + outputsTo miner.elems c.pool.List)) ∧
        (bal + (50 + outputsTo miner.elems c.pool.List) ≤ MaxInt64 →
          (c2.set.Balance L miner).1
            = .ok (bal + 50 + outputsTo miner.elems c.pool.List) ∧
          bal + 50 ≤ bal + 50 + outputsTo miner.elems c.pool.List) := by
  have hset := Set.eq_of_nofault c.set hf2
  have hsum : ownedSum L miner.elems
      (kvUpdate L (coinbaseTx now miner :: c.pool.List) c.set.store.kv).entries
        = ownedSum L miner.elems c.set.store.kv.entries
          + (50 + outputsTo miner.elems c.pool.List) := by
    rw [ownedSum_kvUpdate L miner.elems _ _ hnd hnew
      (by rw [blockInputKeys_coinbase]; exact hkeep)
      (by rw [blockInputKeys_coinbase]; exact hkeep2)]
    rw [blockWrites_coinbase, ← ownedSum_blockWrites L]
    simp [ownedSum, owned_marshal]
  have hextra := outputsTo_nonneg miner.elems c.pool.List hpos
  refine ⟨_, _, MineBlockFromPool_nofault L now now2 c miner t htip hf1 hf2, ?_⟩
  intro bal hbal
  rw [hset] at hbal
  have hs := Balance_shift L _ _ miner _ bal (allDecode_kvUpdate L _ _) hsum hbal
  have hr := Balance_ok_decodes L _ miner bal hbal
  rw [Balance_eq L _ _ hr] at hbal
  simp only [Except.ok.injEq] at hbal
  have hlow := (wrapInt64_range (ownedSum L miner.elems c.set.store.kv.entries)).1
  rw [hbal] at hlow
  refine ⟨hs.1, ?_⟩
  intro h
  have h3 := hs.2 (by omega) h
  refine ⟨?_, by omega⟩
  rw [hs.1, h3]
  congr 1
  ring

set_option maxRecDepth 100000 in
/-- Instance of C8 as amended: the key `[2]` mines on `demoFundedChain`, whose pool
holds a transaction paying 30 to `[2]`; its balance goes from 0 to 80. -/
theorem MineBlockFromPool_reward_demo :
    ∃ b c2, demoFundedChain.MineBlockFromPool demoLib 9 9 (.of [2]) = (.ok b, c2) ∧
      (demoFundedChain.set.Balance demoLib (.of [2])).1 = .ok 0 ∧
      (c2.set.Balance demoLib (.of [2])).1 = .ok 80 := by
  obtain ⟨b, c2, h1, h2⟩ := MineBlockFromPool_reward demoLib 9 9 demoFundedChain (.of [2])
    (gobBlock (NewGenesisBlock demoLib 7)) (by decide) rfl rfl (by decide) (by decide)
    (by decide) (by decide) (by decide)
  have hb : (demoFundedChain.set.Balance demoLib (.of [2])).1 = .ok 0 := by decide
  refine ⟨b, c2, h1, hb, ?_⟩
  have h3 := (h2 0 hb).2 (by decide)
  rw [h3.1]
  decide

set_option maxRecDepth 100000 in
/-- C8, counterexample to the claim as stated.  The miner `[4]` mines on the demo chain
with an empty pool and holds 50; mining again with the same clock reading for the
coinbase succeeds and the miner still holds 50, not 100: the second coinbase is the
same transaction as the first and `Set.Add` overwrites its entry. -/
theorem MineBlockFromPool_same_clock :
    ((demoChain.MineBlockFromPool demoLib 9 9 (.of [4])).2.set.Balance demoLib (.of [4])).1
      = .ok 50 ∧
    ((demoChain.MineBlockFromPool demoLib 9 9 (.of [4])).2.MineBlockFromPool demoLib 9 10
      (.of [4])).1.toBool = true ∧
    (((demoChain.MineBlockFromPool demoLib 9 9 (.of [4])).2.MineBlockFromPool demoLib 9 10
      (.of [4])).2.set.Balance demoLib (.of [4])).1 = .ok 50 := by
  decide

/-! ## The store key of a coordinate determines the coordinate -/

theorem digitsValue_append (xs : Bytes) (b : Nat) :
    digitsValue (xs ++ [b]) = digitsValue xs * 10 + (b - 48) := by
  simp [digitsValue]

theorem decimalDigits_spec : ∀ fuel n : Nat, n < fuel →
    digitsValue (decimalDigits fuel n) = n ∧ decimalDigits fuel n ≠ [] ∧
    ∀ b ∈ decimalDigits fuel n, 48 ≤ b ∧ b ≤ 57 := by
  intro fuel
  induction fuel with
  | zero => intro n h; omega
  | succ f ih =>
    intro n h
    unfold decimalDigits
    split_ifs with h10
    · refine ⟨by simp [digitsValue], by simp, ?_⟩
      intro b hb
      simp only [List.mem_singleton] at hb
      omega
    · obtain ⟨h1, h2, h3⟩ := ih (n / 10) (by omega)
      refine ⟨?_, by simp, ?_⟩
      · rw [digitsValue_append, h1]
        omega
      · intro b hb
        rcases List.mem_append.1 hb with hb | hb
        · exact h3 b hb
        · simp only [List.mem_singleton] at hb
          omega

theorem decimal_no_colon (x : Int) : 58 ∉ decimal x := by
  have h := (decimalDigits_spec (x.natAbs + 1) x.natAbs (by omega)).2.2
  unfold decimal
  split_ifs
  · intro hm
    rcases List.mem_cons.1 hm with hm | hm
    · omega
    · have := h 58 hm
      omega
  · intro hm
    have := h 58 hm
    omega

theorem decimal_injective {x y : Int} (h : decimal x = decimal y) : x = y := by
  have hx := decimalDigits_spec (x.natAbs + 1) x.natAbs (by omega)
  have hy := decimalDigits_spec (y.natAbs + 1) y.natAbs (by omega)
  unfold decimal at h
  split_ifs at h with h1 h2 h2
  · simp only [List.cons.injEq, true_and] at h
    have := hx.1
    rw [h, hy.1] at this
    omega
  · exfalso
    cases hd : decimalDigits (y.natAbs + 1) y.natAbs with
    | nil => exact hy.2.1 hd
    | cons b bs =>
      rw [hd] at h
      simp only [List.cons.injEq] at h
      have := hy.2.2 b (by rw [hd]; exact List.mem_cons_self _ _)
      omega
  · exfalso
    cases hd : decimalDigits (x.natAbs + 1) x.natAbs with
    | nil => exact hx.2.1 hd
    | cons b bs =>
      rw [hd] at h
      simp only [List.cons.injEq] at h
      have := hx.2.2 b (by rw [hd]; exact List.mem_cons_self _ _)
      omega
  · have := hx.1
    rw [h, hy.1] at this
    omega

theorem append_colon_unique : ∀ (t t2 d d2 : Bytes), 58 ∉ d → 58 ∉ d2 →
    t ++ 58 :: d = t2 ++ 58 :: d2 → t = t2 ∧ d = d2 := by
  intro t
  induction t with
  | nil =>
    intro t2 d d2 hd _ h
    cases t2 with
    | nil => simpa using h
    | cons a s =>
      simp only [List.nil_append, List.cons_append, List.cons.injEq] at h
      exact absurd (h.2 ▸ (by simp)) hd
  | cons a s ih =>
    intro t2 d d2 hd hd2 h
    cases t2 with
    | nil =>
      simp only [List.nil_append, List.cons_append, List.cons.injEq] at h
      exact absurd (h.2 ▸ (by simp)) hd2
    | cons a2 s2 =>
      simp only [List.cons_append, List.cons.injEq] at h
      obtain ⟨h1, h2⟩ := ih s2 d d2 hd hd2 h.2
      exact ⟨by rw [h.1, h1], h2⟩

/-- The store key determines the coordinate. -/
theorem utxoKey_injective {t t2 : Bytes} {i i2 : Int} (h : utxoKey t i = utxoKey t2 i2) :
    t = t2 ∧ i = i2 := by
  obtain ⟨h1, h2⟩ := append_colon_unique t t2 _ _ (decimal_no_colon i) (decimal_no_colon i2) h
  exact ⟨h1, decimal_injective h2⟩

/-! ## Which keys the UTXO store holds after the update of a block -/

theorem isSome_get_applyWrites (ws : List (Bytes × Bytes)) :
    ∀ (kv : KV) (key : Bytes), ((applyWrites ws kv).get key).isSome = true ↔
      (kv.get key).isSome = true ∨ key ∈ ws.map Prod.fst := by
  induction ws with
  | nil => intro kv key; simp [applyWrites]
  | cons w rest ih =>
    intro kv key
    rw [applyWrites, ih, KV.get_put]
    by_cases h : key = w.1
    · simp [h]
    · simp only [h, if_false, List.map_cons, List.mem_cons, false_or]

theorem isSome_get_applyErases (ks : List Bytes) (kv : KV) (key : Bytes) :
    ((applyErases ks kv).get key).isSome = true ↔ (kv.get key).isSome = true ∧ key ∉ ks := by
  rw [get_applyErases]
  by_cases h : key ∈ ks <;> simp [h]

theorem outputWrites_keys (L : Lib) (txID : Bytes) (outs : List Output) :
    ∀ idx : Int, (outputWrites L txID outs idx).map Prod.fst
      = (List.range outs.length).map fun (j : Nat) => utxoKey txID (idx + (j : Int)) := by
  induction outs with
  | nil => intro idx; rfl
  | cons o rest ih =>
    intro idx
    rw [outputWrites, List.map_cons, ih, List.length_cons, List.range_succ_eq_map]
    simp only [List.map_cons, List.map_map, Nat.cast_zero, add_zero, List.cons.injEq, true_and]
    apply List.map_congr_left
    intro j _
    simp only [Function.comp_apply, Nat.cast_succ]
    congr 1
    ring

theorem blockWrites_keys (L : Lib) (txs : List Transaction) :
    (blockWrites L txs).map Prod.fst = (outCoords L txs).map fun c => utxoKey c.1 c.2 := by
  induction txs with
  | nil => rfl
  | cons tx rest ih =>
    have h1 : blockWrites L (tx :: rest)
        = outputWrites L (tx.Key L) tx.Outputs.elems 0 ++ blockWrites L rest := by
      simp [blockWrites]
    have h2 : outCoords L (tx :: rest)
        = ((List.range tx.Outputs.elems.length).map fun (j : Nat) => (tx.Key L, (j : Int)))
          ++ outCoords L rest := by
      simp [outCoords]
    rw [h1, h2, List.map_append, List.map_append, ih, outputWrites_keys]
    simp

theorem blockInputKeys_eq (txs : List Transaction) :
    blockInputKeys txs = (inCoords txs).map fun c => utxoKey c.1 c.2 := by
  induction txs with
  | nil => rfl
  | cons tx rest ih =>
    have h1 : blockInputKeys (tx :: rest) = inputKeys tx.Inputs.elems ++ blockInputKeys rest := by
      simp [blockInputKeys]
    have h2 : inCoords (tx :: rest)
        = (tx.Inputs.elems.map fun inp => (inp.PreviousKey.elems, inp.OutputIndex))
          ++ inCoords rest := by
      simp [inCoords]
    rw [h1, h2, List.map_append, ih]
    simp [inputKeys]

theorem utxoKey_mem_map (coord : Bytes × Int) (l : List (Bytes × Int)) :
    utxoKey coord.1 coord.2 ∈ l.map (fun c => utxoKey c.1 c.2) ↔ coord ∈ l := by
  constructor
  · intro h
    obtain ⟨c, hc, heq⟩ := List.mem_map.1 h
    obtain ⟨h1, h2⟩ := utxoKey_injective heq
    have : c = coord := Prod.ext h1 h2
    exact this ▸ hc
  · intro h
    exact List.mem_map_of_mem (fun c : Bytes × Int => utxoKey c.1 c.2) h

/-- The keys the store holds after the update of a block that spends no output of a
later transaction of the block: the keys held before and the keys written, less the
keys the inputs refer to. -/
theorem isSome_get_kvUpdate (L : Lib) (key : Bytes) (txs : List Transaction) :
    ∀ kv : KV, spendsNoLater L txs →
      (((kvUpdate L txs kv).get key).isSome = true ↔
        ((kv.get key).isSome = true ∨ key ∈ (blockWrites L txs).map Prod.fst)
          ∧ key ∉ blockInputKeys txs) := by
  induction txs with
  | nil => intro kv _; simp [kvUpdate]
  | cons tx rest ih =>
    intro kv hord
    have h1 : blockWrites L (tx :: rest)
        = outputWrites L (tx.Key L) tx.Outputs.elems 0 ++ blockWrites L rest := by
      simp [blockWrites]
    have h2 : blockInputKeys (tx :: rest) = inputKeys tx.Inputs.elems ++ blockInputKeys rest := by
      simp [blockInputKeys]
    have hno : key ∈ inputKeys tx.Inputs.elems → key ∉ (blockWrites L rest).map Prod.fst := by
      intro hin hout
      have hin2 : key ∈ blockInputKeys [tx] := by simpa [blockInputKeys] using hin
      rw [blockInputKeys_eq] at hin2
      rw [blockWrites_keys] at hout
      obtain ⟨coord, hc, rfl⟩ := List.mem_map.1 hin2
      exact hord.1 coord hc ((utxoKey_mem_map coord _).1 hout)
    rw [kvUpdate_cons, ih _ hord.2, isSome_get_applyErases, isSome_get_applyWrites, h1, h2]
    simp only [List.map_append, List.mem_append, not_or]
    constructor
    · rintro ⟨h | h, h3⟩
      · exact ⟨Or.imp_right Or.inl h.1, h.2, h3⟩
      · refine ⟨Or.inr (Or.inr h), fun hin => hno hin h, h3⟩
    · rintro ⟨h | h | h, h3, h4⟩
      · exact ⟨Or.inl ⟨Or.inl h, h3⟩, h4⟩
      · exact ⟨Or.inl ⟨Or.inr h, h3⟩, h4⟩
      · exact ⟨Or.inr h, h4⟩

theorem outCoords_append (L : Lib) (l1 l2 : List Transaction) :
    outCoords L (l1 ++ l2) = outCoords L l1 ++ outCoords L l2 := by
  simp [outCoords]

theorem inCoords_append (l1 l2 : List Transaction) :
    inCoords (l1 ++ l2) = inCoords l1 ++ inCoords l2 := by
  simp [inCoords]

/-- C4, as amended.  Relative to the transactions confirmed by `MineBlockFromPool`, with
their identifiers as computed at confirmation (the genesis transaction, which `NewChain`
never enters in the index, is not among them), the UTXO index holds exactly the
confirmed outputs that no confirmed input refers to: this holds for the chain `NewChain`
returns on empty stores, with nothing confirmed, and it is kept by every
`MineBlockFromPool` on stores whose calls do not fail in which no input of the block
refers to an output of a later transaction of the block and no output of the block is
referred to by an input confirmed earlier. -/
theorem utxoInvariant_kept (L : Lib) :
    (∀ now c, NewChain L now DB.empty DB.empty = .ok c → utxoInvariant L c.set []) ∧
    (∀ (now now2 : Int) (c : Chain) (miner : Slice Nat) (t : Block)
        (confirmed : List Transaction),
      (c.blocks.kv.get c.tip.elems).bind (Block.Deserialize L) = some t →
      c.blocks.faults = [] → c.set.store.faults = [] →
      utxoInvariant L c.set confirmed →
      spendsNoLater L (coinbaseTx now miner :: c.pool.List) →
      (∀ coord ∈ outCoords L (coinbaseTx now miner :: c.pool.List),
        coord ∉ inCoords confirmed) →
      ∃ b c2, c.MineBlockFromPool L now now2 miner = (.ok b, c2) ∧
        utxoInvariant L c2.set (confirmed ++ b.Transactions.elems)) := by
  constructor
  · intro now c h
    rw [NewChain_empty_eq] at h
    simp only [Except.ok.injEq] at h
    subst h
    intro coord
    simp [indexed, DB.empty, outCoords]
  · intro now now2 c miner t confirmed htip hf1 hf2 hinv hord hfresh
    refine ⟨_, _, MineBlockFromPool_nofault L now now2 c miner t htip hf1 hf2, ?_⟩
    intro coord
    have hstep := isSome_get_kvUpdate L (utxoKey coord.1 coord.2)
      (coinbaseTx now miner :: c.pool.List) c.set.store.kv hord
    rw [blockWrites_keys, blockInputKeys_eq, utxoKey_mem_map, utxoKey_mem_map] at hstep
    have hc := hinv coord
    simp only [indexed] at hc ⊢
    have htx : (sealedBlock L now2 t (.of (coinbaseTx now miner :: c.pool.List))).Transactions.elems
        = coinbaseTx now miner :: c.pool.List := rfl
    rw [htx, outCoords_append, inCoords_append, hstep, hc]
    simp only [List.mem_append, not_or]
    constructor
    · rintro ⟨h | h, h3⟩
      · exact ⟨Or.inl h.1, h.2, h3⟩
      · exact ⟨Or.inr h, hfresh coord h, h3⟩
    · rintro ⟨h | h, h3, h4⟩
      · exact ⟨Or.inl ⟨h, h3⟩, h4⟩
      · exact ⟨Or.inr h, h4⟩

set_option maxRecDepth 100000 in
/-- Instance of C4 as amended: mining on `demoPoolChain`, whose index is empty with
nothing confirmed yet. -/
theorem utxoInvariant_kept_demo :
    ∃ b c2, demoPoolChain.MineBlockFromPool demoLib 9 9 (.of [4]) = (.ok b, c2) ∧
      utxoInvariant demoLib c2.set ([] ++ b.Transactions.elems) :=
  (utxoInvariant_kept demoLib).2 9 9 demoPoolChain (.of [4])
    (gobBlock (NewGenesisBlock demoLib 7)) [] (by decide) rfl rfl
    (by intro coord; simp [indexed, demoPoolChain, demoChain, DB.empty, outCoords, inCoords])
    (by simp [spendsNoLater, inCoords, outCoords, coinbaseTx])
    (by simp [inCoords])

set_option maxRecDepth 100000 in
/-- C4, counterexample to the claim as stated.  After `NewChain` on empty stores the
tip pointer record leads to the genesis block, whose transaction has an output that no
confirmed input refers to, and the UTXO index is empty: the invariant over the confirmed
transactions, genesis transaction included, does not hold. -/
theorem utxoInvariant_fails_after_NewChain :
    NewChain demoLib 7 DB.empty DB.empty = .ok demoFirstStart ∧
    (demoFirstStart.blocks.kv.get chainstateKey).bind
      (chainFrom demoLib demoFirstStart.blocks.kv 1)
        = some [gobBlock (NewGenesisBlock demoLib 7)] ∧
    demoFirstStart.set.store.kv.entries = [] ∧
    ¬ utxoInvariant demoLib demoFirstStart.set
      (blockTxs [gobBlock (NewGenesisBlock demoLib 7)]) := by
  refine ⟨by decide, by decide, rfl, ?_⟩
  intro h
  have h1 := (h ((gobTx genesisTx).Key demoLib, 0)).2 ⟨by decide, by decide⟩
  revert h1
  simp [indexed, demoFirstStart, DB.empty]

/-! ## Confirmed history: the walk along the `PrevHash` links -/

@[simp] theorem gobSlice_elems {α : Type} (s : Slice α) : (gobSlice s).elems = s.elems := by
  cases s with
  | nil => rfl
  | of xs => cases xs <;> rfl

theorem gobBlock_txs (b : Block) :
    (gobBlock b).Transactions.elems = b.Transactions.elems.map gobTx := by
  cases h : b.Transactions with
  | nil => simp [gobBlock, h]
  | of xs => simp [gobBlock, h]

theorem gobTx_inputs (tx : Transaction) :
    (gobTx tx).Inputs.elems = tx.Inputs.elems.map gobInput := by
  cases h : tx.Inputs with
  | nil => simp [gobTx, h]
  | of xs => simp [gobTx, h]

theorem inCoords_map_gobTx (txs : List Transaction) : inCoords (txs.map gobTx) = inCoords txs := by
  induction txs with
  | nil => rfl
  | cons tx rest ih =>
    have h1 : inCoords (gobTx tx :: rest.map gobTx)
        = ((gobTx tx).Inputs.elems.map fun inp => (inp.PreviousKey.elems, inp.OutputIndex))
          ++ inCoords (rest.map gobTx) := by
      simp [inCoords]
    have h2 : inCoords (tx :: rest)
        = (tx.Inputs.elems.map fun inp => (inp.PreviousKey.elems, inp.OutputIndex))
          ++ inCoords rest := by
      simp [inCoords]
    rw [List.map_cons, h1, h2, ih, gobTx_inputs]
    simp [gobInput]

/-- The walk from a block hash is not changed by storing a block under a new key and
rewriting the tip pointer record, when that record is not itself a block. -/
theorem chainFrom_stable (L : Lib) (kv : KV) (h enc : Bytes)
    (hnew : kv.get h = none)
    (hptr : (kv.get chainstateKey).bind (Block.Deserialize L) = none) :
    ∀ (fuel : Nat) (key : Bytes) (bs : List Block), chainFrom L kv fuel key = some bs →
      chainFrom L ((kv.put h enc).put chainstateKey h) fuel key = some bs := by
  intro fuel
  induction fuel with
  | zero => intro key bs hw; simp [chainFrom] at hw
  | succ f ih =>
    intro key bs hw
    simp only [chainFrom] at hw ⊢
    cases hg : kv.get key with
    | none => simp [hg] at hw
    | some data =>
      cases hd : Block.Deserialize L data with
      | none => simp [hg, hd] at hw
      | some block =>
        have hk1 : key ≠ h := fun e => by rw [e, hnew] at hg; simp at hg
        have hk2 : key ≠ chainstateKey := fun e => by
          rw [e] at hg
          rw [hg] at hptr
          simp [hd] at hptr
        rw [KV.get_put_ne _ _ hk2, KV.get_put_ne _ _ hk1, hg]
        simp only [hg, hd] at hw ⊢
        split_ifs at hw ⊢ with hlen
        · exact hw
        · cases hr : chainFrom L kv f block.PrevHash.elems with
          | none => simp [hr] at hw
          | some bs2 =>
            rw [ih _ _ hr]
            simpa [hr] using hw

/-- C3, as amended.  Let the chain be valid: the tip is the non-empty hash of a stored
block `t` whose `Hash` field is that hash, the `PrevHash` links from it lead through
stored blocks to a block with empty `PrevHash`, and the tip pointer record is not itself
a block.  After a successful `MineBlockFromPool` whose block has a hash new to the store
and is read back by `gob` as written (empty slices as nil), the walk from the new tip
meets the new block and then the blocks met before, and the coordinates the confirmed
inputs refer to are those of the pooled transactions followed by those confirmed
before.  No check is made on them: no output is spent twice in the confirmed history
after the call exactly when none was before, the inputs of the pooled transactions
refer to pairwise distinct coordinates, and none of these was referred to before. -/
theorem confirmed_inputs_after_mining (L : Lib) (now now2 : Int) (c : Chain) (miner : Slice Nat)
    (fuel : Nat) (t : Block) (rest : List Block) (b : Block) (c2 : Chain)
    (hwalk : chainFrom L c.blocks.kv fuel c.tip.elems = some (t :: rest))
    (htip : c.tip.elems ≠ []) (hthash : t.Hash.elems = c.tip.elems)
    (hptr : (c.blocks.kv.get chainstateKey).bind (Block.Deserialize L) = none)
    (hmine : c.MineBlockFromPool L now now2 miner = (.ok b, c2))
    (hnew : c.blocks.kv.get b.Hash.elems = none)
    (hgob : Block.Deserialize L (b.Serialize L) = some (gobBlock b)) :
    chainFrom L c2.blocks.kv (fuel + 1) c2.tip.elems = some (gobBlock b :: t :: rest) ∧
    inCoords (blockTxs (gobBlock b :: t :: rest))
      = inCoords c.pool.List ++ inCoords (blockTxs (t :: rest)) ∧
    ((inCoords (blockTxs (gobBlock b :: t :: rest))).Nodup ↔
      (inCoords (blockTxs (t :: rest))).Nodup ∧ (inCoords c.pool.List).Nodup ∧
      ∀ coord ∈ inCoords c.pool.List, coord ∉ inCoords (blockTxs (t :: rest))) := by
  obtain ⟨c1, hm, -, hc2⟩ := MineBlockFromPool_ok_inv L now now2 c miner b c2 hmine
  obtain ⟨data, t2, hg, hd, hb, hc1⟩ := MineBlock_ok_inv L now2 c _ b c1 hm
  -- the tip block of the walk is the block `MineBlock` decoded
  have ht : t2 = t := by
    cases fuel with
    | zero => simp [chainFrom] at hwalk
    | succ f =>
      simp only [chainFrom, hg, hd] at hwalk
      split_ifs at hwalk
      · simp only [Option.some.injEq, List.cons.injEq] at hwalk
        exact hwalk.1
      · cases hr : chainFrom L c.blocks.kv f t2.PrevHash.elems with
        | none => simp [hr] at hwalk
        | some bs2 =>
          simp only [hr, Option.map_some', Option.some.injEq, List.cons.injEq] at hwalk
          exact hwalk.1
  subst ht
  have hne : b.Hash.elems ≠ chainstateKey := hb ▸ sealedBlock_hash_ne L now2 t2 _
  have hkv : c2.blocks.kv = (c.blocks.kv.put b.Hash.elems (b.Serialize L)).put chainstateKey
      b.Hash.elems := by rw [hc2, hc1]
  have htip2 : c2.tip = b.Hash := by rw [hc2, hc1]
  have hprev : (gobBlock b).PrevHash.elems = c.tip.elems := by
    rw [← hthash, hb]
    simp [gobBlock, sealedBlock]
  have htxs : b.Transactions.elems = coinbaseTx now miner :: c.pool.List := by rw [hb]; rfl
  have hwalk2 : chainFrom L c2.blocks.kv (fuel + 1) c2.tip.elems
      = some (gobBlock b :: t2 :: rest) := by
    rw [hkv, htip2]
    simp only [chainFrom]
    rw [KV.get_put_ne _ _ hne, KV.get_put_self]
    simp only [hgob]
    have hlen : ¬ (gobBlock b).PrevHash.len = 0 := by
      simp only [Slice.len, hprev]
      simpa using htip
    rw [if_neg hlen, hprev, chainFrom_stable L c.blocks.kv _ _ hnew hptr fuel _ _ hwalk]
    rfl
  have hco : inCoords (blockTxs (gobBlock b :: t2 :: rest))
      = inCoords c.pool.List ++ inCoords (blockTxs (t2 :: rest)) := by
    have h1 : blockTxs (gobBlock b :: t2 :: rest)
        = (gobBlock b).Transactions.elems ++ blockTxs (t2 :: rest) := by
      simp [blockTxs]
    rw [h1, inCoords_append, gobBlock_txs, inCoords_map_gobTx, htxs]
    congr 1
  refine ⟨hwalk2, hco, ?_⟩
  rw [hco, List.nodup_append]
  constructor
  · rintro ⟨h1, h2, h3⟩
    exact ⟨h2, h1, fun coord hc => fun hc2 => h3 hc hc2⟩
  · rintro ⟨h1, h2, h3⟩
    exact ⟨h2, h1, fun coord hc hc2 => h3 coord hc hc2⟩

set_option maxRecDepth 100000 in
/-- Instance of C3 as amended: mining `demoSpendTx` on the demo chain; the walk from the
new tip meets two blocks, and one confirmed input refers to `([80], 0)`. -/
theorem confirmed_inputs_after_mining_demo :
    inCoords (blockTxs
      [gobBlock (sealedBlock demoLib 9 (gobBlock (NewGenesisBlock demoLib 7))
          (.of (coinbaseTx 9 (.of [4]) :: demoPoolChain.pool.List))),
        gobBlock (NewGenesisBlock demoLib 7)])
      = inCoords demoPoolChain.pool.List
        ++ inCoords (blockTxs [gobBlock (NewGenesisBlock demoLib 7)]) :=
  (confirmed_inputs_after_mining demoLib 9 9 demoPoolChain (.of [4]) 1
    (gobBlock (NewGenesisBlock demoLib 7)) [] _ _ (by decide) (by decide) (by decide)
    (by decide) rfl (by decide) (by decide)).2.1

set_option maxRecDepth 100000 in
/-- C3, counterexample to the claim as stated.  On the valid demo chain `Pool.Add`
accepts `demoSpendTx` and `demoSpendTx2`, which both spend output 0 of the transaction
`[80]`; `MineBlockFromPool` succeeds, and in the blocks reachable from the new tip two
confirmed inputs refer to `([80], 0)`. -/
theorem double_spend_confirmed :
    chainFrom demoLib demoChain.blocks.kv 1 demoChain.tip.elems
      = some [gobBlock (NewGenesisBlock demoLib 7)] ∧
    (poolAddAll demoLib demoChain.pool [demoSpendTx, demoSpendTx2]).1 = [none, none] ∧
    (demoDoubleChain.MineBlockFromPool demoLib 9 9 (.of [4])).1.toBool = true ∧
    (chainFrom demoLib (demoDoubleChain.MineBlockFromPool demoLib 9 9 (.of [4])).2.blocks.kv 2
      (demoDoubleChain.MineBlockFromPool demoLib 9 9 (.of [4])).2.tip.elems).map
        (fun bs => inCoords (blockTxs bs)) = some [([80], 0), ([80], 0)] := by
  decide

/-! ## The result of `ProofOfWork.Run` -/

/-- `Run` when `m` is the first accepted nonce. -/
theorem Run_eq_of_first (L : Lib) (pow : ProofOfWork) (m : Nat) (hm : m < MaxInt32)
    (hacc : pow.accepts (L.sha256 (pow.prepareData L m)) = true)
    (hmin : ∀ k : Nat, k < m → pow.accepts (L.sha256 (pow.prepareData L k)) = false) :
    pow.Run L = (L.sha256 (pow.prepareData L m), (m : Int)) :=
  runLoop_found L pow m hm hacc MaxInt32 0 (List.replicate 32 0) (Nat.zero_le _) (by omega)
    (fun k _ hk => hmin k hk)

/-- `Run` when no nonce of the search space is accepted. -/
theorem Run_eq_of_none (L : Lib) (pow : ProofOfWork)
    (hno : ∀ k : Nat, k < MaxInt32 → pow.accepts (L.sha256 (pow.prepareData L k)) = false) :
    pow.Run L = (L.sha256 (pow.prepareData L ((MaxInt32 - 1 : Nat) : Int)), (MaxInt32 : Int)) :=
  runLoop_exhausted L pow hno MaxInt32 0 (List.replicate 32 0) (by simp) (by decide)

/-- Either some nonce of the search space is accepted and `Run` returns the first such
with its digest, or none is and `Run` returns `MaxInt32` with the last digest tried. -/
theorem Run_cases (L : Lib) (pow : ProofOfWork) :
    (∃ m : Nat, m < MaxInt32 ∧ pow.accepts (L.sha256 (pow.prepareData L m)) = true ∧
      (∀ k : Nat, k < m → pow.accepts (L.sha256 (pow.prepareData L k)) = false) ∧
      pow.Run L = (L.sha256 (pow.prepareData L m), (m : Int))) ∨
    ((∀ k : Nat, k < MaxInt32 → pow.accepts (L.sha256 (pow.prepareData L k)) = false) ∧
      pow.Run L
        = (L.sha256 (pow.prepareData L ((MaxInt32 - 1 : Nat) : Int)), (MaxInt32 : Int))) := by
  classical
  by_cases h : ∃ n : Nat, n < MaxInt32 ∧ pow.accepts (L.sha256 (pow.prepareData L n)) = true
  · left
    have hs := Nat.find_spec h
    have hmin : ∀ k : Nat, k < Nat.find h →
        pow.accepts (L.sha256 (pow.prepareData L k)) = false := by
      intro k hk
      have := Nat.find_min h hk
      have hk2 : k < MaxInt32 := lt_trans hk hs.1
      simpa [hk2] using this
    exact ⟨Nat.find h, hs.1, hs.2, hmin, Run_eq_of_first L pow _ hs.1 hs.2 hmin⟩
  · right
    have hno : ∀ k : Nat, k < MaxInt32 →
        pow.accepts (L.sha256 (pow.prepareData L k)) = false := by
      intro k hk
      by_contra hc
      exact h ⟨k, hk, by simpa using hc⟩
    exact ⟨hno, Run_eq_of_none L pow hno⟩

/-- The loop stops by its own condition: a larger bound on the iterations gives the
same result. -/
theorem runLoop_extra (L : Lib) (pow : ProofOfWork) (extra : Nat) :
    ∀ fuel nonce hash, nonce + fuel = MaxInt32 →
      pow.runLoop L (fuel + extra) nonce hash = pow.runLoop L fuel nonce hash := by
  intro fuel
  induction fuel with
  | zero =>
    intro nonce hash h
    have hn : ¬ nonce < MaxInt32 := by omega
    cases extra with
    | zero => rfl
    | succ e => simp [ProofOfWork.runLoop, hn]
  | succ f ih =>
    intro nonce hash h
    have : f + 1 + extra = (f + extra) + 1 := by omega
    rw [this]
    simp only [ProofOfWork.runLoop]
    rw [ih (nonce + 1) _ (by omega)]

/-- C20.  Whenever `Run` returns a nonce `n` below `MaxInt32`, `n` is the first accepted
nonce counting from zero: the digest of `prepareData(n)`, which is the hash returned,
has `Difficulty` leading `'0'` characters in hex, and for no `m < n` does the digest of
`prepareData(m)`.  The loop ends by its own condition within `MaxInt32` iterations:
allowing more iterations does not change the result, and the nonce returned lies
between 0 and `MaxInt32`. -/
theorem Run_first_accepted (L : Lib) (b : Block) :
    (((NewProofOfWork b).Run L).2 < MaxInt32 →
      ∃ n : Nat, ((NewProofOfWork b).Run L).2 = (n : Int) ∧
        ((NewProofOfWork b).Run L).1 = L.sha256 ((NewProofOfWork b).prepareData L n) ∧
        (List.replicate Difficulty 48).isPrefixOf
          (hexEncode (L.sha256 ((NewProofOfWork b).prepareData L n))) = true ∧
        ∀ m : Nat, m < n → (List.replicate Difficulty 48).isPrefixOf
          (hexEncode (L.sha256 ((NewProofOfWork b).prepareData L m))) = false) ∧
    (∀ extra : Nat, (NewProofOfWork b).runLoop L (MaxInt32 + extra) 0 (List.replicate 32 0)
      = (NewProofOfWork b).Run L) ∧
    0 ≤ ((NewProofOfWork b).Run L).2 ∧ ((NewProofOfWork b).Run L).2 ≤ MaxInt32 := by
  refine ⟨?_, fun extra => runLoop_extra L _ extra MaxInt32 0 _ (by simp), ?_⟩
  · intro h
    rcases Run_cases L (NewProofOfWork b) with ⟨m, _, hacc, hmin, hrun⟩ | ⟨_, hrun⟩
    · rw [hrun]
      exact ⟨m, rfl, rfl, hacc, hmin⟩
    · rw [hrun] at h
      simp at h
  · rcases Run_cases L (NewProofOfWork b) with ⟨m, hm, _, _, hrun⟩ | ⟨_, hrun⟩
    · rw [hrun]
      refine ⟨?_, ?_⟩
      · show (0 : Int) ≤ (m : Int)
        positivity
      · show (m : Int) ≤ (MaxInt32 : Int)
        exact_mod_cast hm.le
    · rw [hrun]
      exact ⟨by positivity, le_refl _⟩

set_option maxRecDepth 100000 in
/-- Instance of C20: with `lateLib` the search on `demoCandidate` returns the nonce 3,
the first whose data ends in the digit `3`. -/
theorem Run_first_accepted_late :
    ∃ n : Nat, ((NewProofOfWork demoCandidate).Run lateLib).2 = (n : Int) ∧
      ((NewProofOfWork demoCandidate).Run lateLib).1
        = lateLib.sha256 ((NewProofOfWork demoCandidate).prepareData lateLib n) ∧
      (List.replicate Difficulty 48).isPrefixOf
        (hexEncode (lateLib.sha256 ((NewProofOfWork demoCandidate).prepareData lateLib n)))
          = true ∧
      ∀ m : Nat, m < n → (List.replicate Difficulty 48).isPrefixOf
        (hexEncode (lateLib.sha256 ((NewProofOfWork demoCandidate).prepareData lateLib m)))
          = false :=
  (Run_first_accepted lateLib demoCandidate).1 (by decide)

/-! ## `MineBlock`: the search and the store failures -/

theorem sealedBlock_eq (L : Lib) (now : Int) (t : Block) (txs : Slice Transaction) :
    sealedBlock L now t txs =
      { candidateBlock now t txs with
        Hash := .of ((NewProofOfWork (candidateBlock now t txs)).Run L).1,
        Nonce := ((NewProofOfWork (candidateBlock now t txs)).Run L).2 } := rfl

theorem prepareData_sealedBlock (L : Lib) (now : Int) (t : Block) (txs : Slice Transaction)
    (n : Int) :
    (NewProofOfWork (sealedBlock L now t txs)).prepareData L n
      = (NewProofOfWork (candidateBlock now t txs)).prepareData L n := rfl

/-- The search on the block `MineBlock` returns is the search `MineBlock` ran. -/
theorem Run_sealedBlock (L : Lib) (now : Int) (t : Block) (txs : Slice Transaction) :
    (NewProofOfWork (sealedBlock L now t txs)).Run L
      = (NewProofOfWork (candidateBlock now t txs)).Run L := by
  have h : ∀ fuel nonce hash,
      (NewProofOfWork (sealedBlock L now t txs)).runLoop L fuel nonce hash
        = (NewProofOfWork (candidateBlock now t txs)).runLoop L fuel nonce hash := by
    intro fuel
    induction fuel with
    | zero => intro nonce hash; rfl
    | succ f ih =>
      intro nonce hash
      simp only [ProofOfWork.runLoop, ih]
      rfl
  exact h _ _ _

/-- The hash and the nonce of the block `MineBlock` builds are what `Run` returns on
the data of that block. -/
theorem sealedBlock_run (L : Lib) (now : Int) (t : Block) (txs : Slice Transaction) :
    (sealedBlock L now t txs).Hash
      = .of ((NewProofOfWork (sealedBlock L now t txs)).Run L).1 ∧
    (sealedBlock L now t txs).Nonce = ((NewProofOfWork (sealedBlock L now t txs)).Run L).2 := by
  rw [Run_sealedBlock]
  exact ⟨rfl, rfl⟩

/-- What a failed `MineBlock` left behind. -/
theorem MineBlock_error_inv (L : Lib) (now : Int) (c : Chain) (txs : Slice Transaction)
    (e : Err) (c2 : Chain) (h : c.MineBlock L now txs = (.error e, c2)) :
    c2.tip = c.tip ∧ c2.pool = c.pool ∧ c2.set = c.set ∧
    ((c2.blocks.kv = c.blocks.kv ∧
        (e = .store ∨ (c.blocks.kv.get c.tip.elems).bind (Block.Deserialize L) = none)) ∨
      ∃ t, (c.blocks.kv.get c.tip.elems).bind (Block.Deserialize L) = some t ∧ e = .store ∧
        (c.blocks.faults.drop 2).headD false = true ∧
        c2.blocks.kv = c.blocks.kv.put (sealedBlock L now t txs).Hash.elems
          ((sealedBlock L now t txs).Serialize L)) := by
  obtain ⟨tip, ⟨kv, faults⟩, pool, set⟩ := c
  unfold Chain.MineBlock at h
  simp only [DB.Get, DB.Put, DB.step, DB.fails] at h
  cases hg : kv.get tip.elems with
  | none =>
    rcases faults with _ | ⟨f1, fs⟩
    · simp [hg] at h
      obtain ⟨h1, h2⟩ := h
      subst h2
      simp [hg]
    · cases f1 <;> simp [hg] at h <;> obtain ⟨h1, h2⟩ := h <;> subst h2 <;> simp [hg, h1.symm]
  | some data =>
    cases hd : Block.Deserialize L data with
    | none =>
      rcases faults with _ | ⟨f1, fs⟩
      · simp [hg, hd] at h
        obtain ⟨h1, h2⟩ := h
        subst h2
        simp [hg, hd]
      · cases f1 <;> simp [hg, hd] at h <;> obtain ⟨h1, h2⟩ := h <;> subst h2 <;>
          simp [hg, hd, h1.symm]
    | some t =>
      rcases faults with _ | ⟨f1, _ | ⟨f2, _ | ⟨f3, fs⟩⟩⟩
      · simp [hg, hd] at h
      · cases f1 <;> simp [hg, hd] at h
        obtain ⟨h1, h2⟩ := h
        subst h2
        simp [h1.symm]
      · cases f1 <;> cases f2 <;> simp [hg, hd] at h <;> obtain ⟨h1, h2⟩ := h <;> subst h2 <;>
          simp [h1.symm]
      · cases f1 <;> cases f2 <;> cases f3 <;> simp [hg, hd] at h <;>
          obtain ⟨h1, h2⟩ := h <;> subst h2 <;> simp [hg, hd, h1.symm]

/-- When some nonce of the search space is accepted for the data of the block, the
block `MineBlock` builds carries the digest for its own nonce, and that digest passes
the difficulty test. -/
theorem sealedBlock_valid (L : Lib) (now : Int) (t : Block) (txs : Slice Transaction)
    (h : ∃ n : Nat, n < MaxInt32 ∧ (List.replicate Difficulty 48).isPrefixOf (hexEncode
      (L.sha256 ((NewProofOfWork (sealedBlock L now t txs)).prepareData L n))) = true) :
    (sealedBlock L now t txs).Hash = .of (L.sha256
      ((NewProofOfWork (sealedBlock L now t txs)).prepareData L (sealedBlock L now t txs).Nonce)) ∧
    (List.replicate Difficulty 48).isPrefixOf
      (hexEncode (sealedBlock L now t txs).Hash.elems) = true := by
  obtain ⟨h1, h2⟩ := sealedBlock_run L now t txs
  rcases Run_cases L (NewProofOfWork (sealedBlock L now t txs)) with
    ⟨m, _, hacc, _, hrun⟩ | ⟨hno, _⟩
  · rw [h1, h2, hrun]
    exact ⟨rfl, hacc⟩
  · obtain ⟨n, hn, hacc⟩ := h
    have := hno n hn
    rw [ProofOfWork.accepts] at this
    rw [show (NewProofOfWork (sealedBlock L now t txs)).target = List.replicate Difficulty 48
      from rfl, hacc] at this
    simp at this

/-- `ProofOfWork.Run` has no error result and `MineBlock` has no failure for the search.
With the tip a stored block that decodes, `MineBlock` returns an error only when a
store call fails, and succeeds when none does, whatever the digests are.  When some
nonce in `[0, MaxInt32)` gives a digest that satisfies the difficulty predicate, the
hash of the block a successful `MineBlock` returns and stores satisfies it. -/
theorem MineBlock_search_without_error (L : Lib) (now : Int) (c : Chain)
    (txs : Slice Transaction) (t : Block)
    (htip : (c.blocks.kv.get c.tip.elems).bind (Block.Deserialize L) = some t) :
    (c.blocks.faults = [] → ∃ b c2, c.MineBlock L now txs = (.ok b, c2)) ∧
    (∀ e c2, c.MineBlock L now txs = (.error e, c2) → e = .store) ∧
    (∀ b c2, c.MineBlock L now txs = (.ok b, c2) →
      (∃ n : Nat, n < MaxInt32 ∧ (List.replicate Difficulty 48).isPrefixOf (hexEncode
        (L.sha256 ((NewProofOfWork b).prepareData L n))) = true) →
      (List.replicate Difficulty 48).isPrefixOf (hexEncode b.Hash.elems) = true ∧
      c2.blocks.kv.get b.Hash.elems = some (b.Serialize L)) := by
  refine ⟨?_, ?_, ?_⟩
  · intro hf
    cases hg : c.blocks.kv.get c.tip.elems with
    | none => simp [hg] at htip
    | some data =>
      have hd : Block.Deserialize L data = some t := by simpa [hg] using htip
      exact ⟨_, _, MineBlock_ok L now c txs data t hg hd hf⟩
  · intro e c2 h
    obtain ⟨-, -, -, h4⟩ := MineBlock_error_inv L now c txs e c2 h
    rcases h4 with ⟨-, h5 | h5⟩ | ⟨t2, -, h5, -⟩
    · exact h5
    · rw [h5] at htip
      simp at htip
    · exact h5
  · intro b c2 h hex
    obtain ⟨data, t2, hg, hd, hb, hc⟩ := MineBlock_ok_inv L now c txs b c2 h
    have hne : b.Hash.elems ≠ chainstateKey := hb ▸ sealedBlock_hash_ne L now t2 txs
    refine ⟨?_, ?_⟩
    · rw [hb] at hex ⊢
      exact (sealedBlock_valid L now t2 txs hex).2
    · rw [hc]
      show ((c.blocks.kv.put b.Hash.elems (b.Serialize L)).put chainstateKey b.Hash.elems).get
        b.Hash.elems = _
      rw [KV.get_put_ne _ _ hne, KV.get_put_self]

set_option maxRecDepth 100000 in
/-- On the demo chain `MineBlock` succeeds. -/
theorem MineBlock_search_without_error_demo :
    ∃ b c2, demoChain.MineBlock demoLib 9 (.of []) = (.ok b, c2) :=
  (MineBlock_search_without_error demoLib 9 demoChain (.of [])
    (gobBlock (NewGenesisBlock demoLib 7)) (by decide)).1 rfl

/-- What `MineBlock` does when the search is exhausted, for any digest function: if no
nonce in `[0, MaxInt32)` is accepted for the block it builds, then on a store whose
calls do not fail `MineBlock` still succeeds; the block it returns and stores has the
nonce `MaxInt32` and a hash that fails the difficulty test. -/
theorem MineBlock_exhausted (L : Lib) (now : Int) (c : Chain) (txs : Slice Transaction)
    (t : Block) (htip : (c.blocks.kv.get c.tip.elems).bind (Block.Deserialize L) = some t)
    (hf : c.blocks.faults = [])
    (hno : ∀ n : Nat, n < MaxInt32 → (List.replicate Difficulty 48).isPrefixOf (hexEncode
      (L.sha256 ((NewProofOfWork (candidateBlock now t txs)).prepareData L n))) = false) :
    ∃ b c2, c.MineBlock L now txs = (.ok b, c2) ∧ b.Nonce = MaxInt32 ∧
      (List.replicate Difficulty 48).isPrefixOf (hexEncode b.Hash.elems) = false ∧
      c2.blocks.kv.get b.Hash.elems = some (b.Serialize L) ∧
      c2.blocks.kv.get chainstateKey = some b.Hash.elems := by
  cases hg : c.blocks.kv.get c.tip.elems with
  | none => simp [hg] at htip
  | some data =>
    have hd : Block.Deserialize L data = some t := by simpa [hg] using htip
    have hm := MineBlock_ok L now c txs data t hg hd hf
    have hrun := Run_eq_of_none L (NewProofOfWork (candidateBlock now t txs)) hno
    have hb := sealedBlock_eq L now t txs
    rw [hrun] at hb
    have hne := sealedBlock_hash_ne L now t txs
    refine ⟨_, _, hm, ?_, ?_, ?_, ?_⟩
    · rw [hb]
    · rw [hb]
      exact hno (MaxInt32 - 1) (by decide)
    · show ((c.blocks.kv.put _ _).put chainstateKey _).get _ = _
      rw [KV.get_put_ne _ _ hne, KV.get_put_self]
    · exact KV.get_put_self _ _ _

/-- C12, as amended.  If `MineBlock` returns an error, the in-memory tip, the pool and
the UTXO index are unchanged and the tip pointer record of the block store is what it
was.  The block store as a whole is identical to what it was when the failure was the
tip read, the decoding or the block write; when the block write succeeded and the
tip-pointer write failed, the store differs in that the new block stays stored under
its hash. -/
theorem MineBlock_error_leaves (L : Lib) (now : Int) (c : Chain) (txs : Slice Transaction)
    (e : Err) (c2 : Chain) (h : c.MineBlock L now txs = (.error e, c2)) :
    c2.tip = c.tip ∧ c2.pool = c.pool ∧ c2.set = c.set ∧
    c2.blocks.kv.get chainstateKey = c.blocks.kv.get chainstateKey ∧
    (c2.blocks.kv = c.blocks.kv ∨
      ∃ t, (c.blocks.kv.get c.tip.elems).bind (Block.Deserialize L) = some t ∧
        (c.blocks.faults.drop 2).headD false = true ∧
        c2.blocks.kv = c.blocks.kv.put (sealedBlock L now t txs).Hash.elems
          ((sealedBlock L now t txs).Serialize L)) := by
  obtain ⟨h1, h2, h3, h4⟩ := MineBlock_error_inv L now c txs e c2 h
  refine ⟨h1, h2, h3, ?_, ?_⟩
  · rcases h4 with ⟨h5, -⟩ | ⟨t, -, -, -, h5⟩
    · rw [h5]
    · rw [h5, KV.get_put_ne _ _ (Ne.symm (sealedBlock_hash_ne L now t txs))]
  · rcases h4 with ⟨h5, -⟩ | ⟨t, h5, -, h6, h7⟩
    · exact Or.inl h5
    · exact Or.inr ⟨t, h5, h6, h7⟩

set_option maxRecDepth 100000 in
/-- Instance of C12 as amended: on the demo chain with the third store call failing,
`MineBlock` returns a store error; the tip and the tip pointer record are unchanged. -/
theorem MineBlock_error_leaves_demo :
    (demoTipFaultChain.MineBlock demoLib 9 (.of [])).2.tip = demoTipFaultChain.tip ∧
    (demoTipFaultChain.MineBlock demoLib 9 (.of [])).2.blocks.kv.get chainstateKey
      = demoTipFaultChain.blocks.kv.get chainstateKey :=
  ⟨(MineBlock_error_leaves demoLib 9 demoTipFaultChain (.of []) .store _ rfl).1,
   (MineBlock_error_leaves demoLib 9 demoTipFaultChain (.of []) .store _ rfl).2.2.2.1⟩

set_option maxRecDepth 100000 in
/-- C12, counterexample to the claim as stated.  On the demo chain with the third store
call failing (the tip-pointer write), `MineBlock` returns a store error and the block
store is not what it was before: the new block is stored under its hash. -/
theorem MineBlock_error_keeps_block :
    (demoTipFaultChain.MineBlock demoLib 9 (.of [])).1 = .error .store ∧
    (demoTipFaultChain.MineBlock demoLib 9 (.of [])).2.blocks.kv ≠ demoTipFaultChain.blocks.kv ∧
    demoTipFaultChain.blocks.kv.get
      (sealedBlock demoLib 9 (gobBlock (NewGenesisBlock demoLib 7)) (.of [])).Hash.elems = none ∧
    (demoTipFaultChain.MineBlock demoLib 9 (.of [])).2.blocks.kv.get
      (sealedBlock demoLib 9 (gobBlock (NewGenesisBlock demoLib 7)) (.of [])).Hash.elems
      = some ((sealedBlock demoLib 9 (gobBlock (NewGenesisBlock demoLib 7)) (.of [])).Serialize
          demoLib) := by
  decide

/-! ## Store errors in `MineBlockFromPool` -/

set_option maxRecDepth 100000 in
/-- C13 (the code departs from it).  On `demoDeleteFaultChain` the three `Set.Add`
calls of `MineBlockFromPool` succeed and the `Set.Remove` for the input of the pooled
transaction fails with a store error; `MineBlockFromPool` drops that error and returns
the block, and the entry the input refers to is still in the UTXO index.  On the same
chain without the failure the entry is removed. -/
theorem MineBlockFromPool_drops_delete_error :
    (((addOutputs demoLib (demoSpendTx.Key demoLib) demoSpendTx.Outputs.elems 0
        (addOutputs demoLib ((coinbaseTx 9 (.of [4])).Key demoLib)
          (coinbaseTx 9 (.of [4])).Outputs.elems 0 demoDeleteFaultChain.set).2).2).Remove
      [80] 0).1 = some .store ∧
    (demoDeleteFaultChain.MineBlockFromPool demoLib 9 9 (.of [4])).1.toBool = true ∧
    ((demoDeleteFaultChain.MineBlockFromPool demoLib 9 9 (.of [4])).2.set.Find demoLib
      [80] 0).1 = .ok { Value := 100, PubKey := .of [1] } ∧
    ((demoFundedChain.MineBlockFromPool demoLib 9 9 (.of [4])).2.set.Find demoLib
      [80] 0).1 = .error .notFound := by
  decide

/-! ## `FindTransactionByID` -/

/-- The loop of `FindTransactionByID` on a store without failures, along a walk that
reaches a block with empty `PrevHash`: it returns the first transaction of the walk
with the identifier asked for, or the not-found error. -/
theorem findLoop_walk (L : Lib) (txid : Bytes) (kv : KV) :
    ∀ (fuel : Nat) (hash : Bytes) (bs : List Block), chainFrom L kv fuel hash = some bs →
      ∀ fuel2, fuel ≤ fuel2 →
        findLoop L txid fuel2 hash ⟨kv, []⟩ = some
          ((match (blockTxs bs).find? fun tx => decide (tx.Key L = txid) with
            | some tx => .ok tx
            | none => .error .notFound), ⟨kv, []⟩) := by
  intro fuel
  induction fuel with
  | zero => intro hash bs h; simp [chainFrom] at h
  | succ f ih =>
    intro hash bs h fuel2 hle
    obtain ⟨f2, rfl⟩ : ∃ f2, fuel2 = f2 + 1 := ⟨fuel2 - 1, by omega⟩
    simp only [chainFrom] at h
    cases hg : kv.get hash with
    | none => simp [hg] at h
    | some data =>
      cases hd : Block.Deserialize L data with
      | none => simp [hg, hd] at h
      | some block =>
        simp only [hg, hd] at h
        simp only [findLoop, DB.Get, DB.fails, DB.step, List.headD_nil, Bool.false_eq_true,
          if_false, hg, hd, List.tail_nil]
        by_cases hlen : block.PrevHash.len = 0
        · rw [if_pos hlen] at h
          simp only [Option.some.injEq] at h
          subst h
          have hb : blockTxs [block] = block.Transactions.elems := by simp [blockTxs]
          rw [hb]
          cases hfind : block.Transactions.elems.find? fun tx => decide (tx.Key L = txid) with
          | some tx => rfl
          | none => simp [hlen]
        · rw [if_neg hlen] at h
          cases hr : chainFrom L kv f block.PrevHash.elems with
          | none => simp [hr] at h
          | some bs2 =>
            simp only [hr, Option.map_some', Option.some.injEq] at h
            subst h
            have hb : blockTxs (block :: bs2) = block.Transactions.elems ++ blockTxs bs2 := by
              simp [blockTxs]
            rw [hb, List.find?_append]
            cases hfind : block.Transactions.elems.find? fun tx => decide (tx.Key L = txid) with
            | some tx => rfl
            | none =>
              simp only [if_neg hlen, Option.none_or]
              exact ih _ _ hr f2 (by omega)

/-- C14.  Let the `PrevHash` links from the tip lead through stored blocks that decode
to a block with empty `PrevHash`, and let no store call fail.  Then
`FindTransactionByID(txid)` returns, for every bound on the blocks visited that is at
least the length of that path: the first transaction on the path, nearest block first,
whose `Key()` is `txid` when there is one, and the not-found error when no block of the
path holds such a transaction.  The block store is left as it was. -/
theorem FindTransactionByID_on_path (L : Lib) (c : Chain) (txid : Bytes) (fuel : Nat)
    (bs : List Block) (hwalk : chainFrom L c.blocks.kv fuel c.tip.elems = some bs)
    (hf : c.blocks.faults = []) (fuel2 : Nat) (hle : fuel ≤ fuel2) :
    ∃ r c2, c.FindTransactionByID L fuel2 txid = some (r, c2) ∧ c2.blocks.kv = c.blocks.kv ∧
      (∀ tx, r = .ok tx → tx.Key L = txid ∧
        (blockTxs bs).find? (fun tx2 => decide (tx2.Key L = txid)) = some tx) ∧
      ((∃ tx ∈ blockTxs bs, tx.Key L = txid) → ∃ tx, r = .ok tx) ∧
      ((∀ tx ∈ blockTxs bs, tx.Key L ≠ txid) → r = .error .notFound) := by
  have hdb : c.blocks = ⟨c.blocks.kv, []⟩ := by
    obtain ⟨tip, ⟨kv, faults⟩, pool, set⟩ := c
    simp only at hf
    subst hf
    rfl
  have hloop := findLoop_walk L txid c.blocks.kv fuel c.tip.elems bs hwalk fuel2 hle
  rw [← hdb] at hloop
  refine ⟨_, _, by simp only [Chain.FindTransactionByID, hloop, Option.map_some']; rfl, ?_, ?_, ?_, ?_⟩
  · rw [hdb]
  · intro tx htx
    cases hfind : (blockTxs bs).find? fun tx2 => decide (tx2.Key L = txid) with
    | none => simp [hfind] at htx
    | some tx2 =>
      simp only [hfind, Except.ok.injEq] at htx
      subst htx
      exact ⟨by simpa using List.find?_some hfind, rfl⟩
  · rintro ⟨tx, hmem, hkey⟩
    cases hfind : (blockTxs bs).find? fun tx2 => decide (tx2.Key L = txid) with
    | none =>
      have := List.find?_eq_none.1 hfind tx hmem
      simp [hkey] at this
    | some tx2 => exact ⟨tx2, rfl⟩
  · intro hno
    cases hfind : (blockTxs bs).find? fun tx2 => decide (tx2.Key L = txid) with
    | none => rfl
    | some tx2 =>
      have h1 := List.find?_some hfind
      have h2 := List.mem_of_find?_eq_some hfind
      exact absurd (by simpa using h1) (hno tx2 h2)

set_option maxRecDepth 100000 in
/-- Instance of C14: on the chain left by mining `demoSpendTx`, the transaction is
found under its identifier in the block nearest the tip. -/
theorem FindTransactionByID_on_path_demo :
    ∃ r c2, demoMinedChain.FindTransactionByID demoLib 2 (demoSpendTx.Key demoLib)
        = some (r, c2) ∧ c2.blocks.kv = demoMinedChain.blocks.kv ∧
      (∀ tx, r = .ok tx → tx.Key demoLib = demoSpendTx.Key demoLib ∧
        (blockTxs demoMinedBlocks).find?
          (fun tx2 => decide (tx2.Key demoLib = demoSpendTx.Key demoLib)) = some tx) ∧
      ((∃ tx ∈ blockTxs demoMinedBlocks, tx.Key demoLib = demoSpendTx.Key demoLib) →
        ∃ tx, r = .ok tx) ∧
      ((∀ tx ∈ blockTxs demoMinedBlocks, tx.Key demoLib ≠ demoSpendTx.Key demoLib) →
        r = .error .notFound) :=
  FindTransactionByID_on_path demoLib demoMinedChain (demoSpendTx.Key demoLib) 2
    demoMinedBlocks (by decide) (by decide) 2 le_rfl

/-! ## `Set.Balance` as a sum -/

theorem ownedSum_eq_sumOwnedBy (L : Lib) (k : Bytes) (l : List (Bytes × Bytes)) :
    ownedSum L k l = sumOwnedBy L k l := by
  induction l with
  | nil => rfl
  | cons e rest ih =>
    have h1 : ownedSum L k (e :: rest) = owned L k e.2 + ownedSum L k rest := by
      simp [ownedSum]
    rw [h1, ih]
    unfold sumOwnedBy owned
    cases hu : L.jsonUnmarshalSpend e.2 with
    | none => simp [List.filterMap_cons, hu]
    | some u =>
      by_cases hk : u.PubKey.elems = k
      · simp [List.filterMap_cons, hu, hk, List.filter_cons]
      · simp [List.filterMap_cons, hu, hk, List.filter_cons]

/-- C18.  For a UTXO store whose values all decode, `Set.Balance(k)`, when the scan of
the store does not fail, returns without error the sum of `Value` over the entries whose
`PubKey` is byte-equal to `k`, as Go adds `int` values: the integer sum whenever that
sum lies in the 64-bit range, and 0 when no entry is owned by `k`. -/
theorem Balance_is_sum (L : Lib) (s : Set) (k : Slice Nat)
    (hdec : ∀ e ∈ s.store.kv.entries, (L.jsonUnmarshalSpend e.2).isSome = true)
    (hf : s.store.fails = false) :
    (s.Balance L k).1 = .ok (wrapInt64 (sumOwnedBy L k.elems s.store.kv.entries)) ∧
    (-2 ^ 63 ≤ sumOwnedBy L k.elems s.store.kv.entries →
      sumOwnedBy L k.elems s.store.kv.entries ≤ MaxInt64 →
      (s.Balance L k).1 = .ok (sumOwnedBy L k.elems s.store.kv.entries)) ∧
    ((∀ e ∈ s.store.kv.entries, ∀ u, L.jsonUnmarshalSpend e.2 = some u →
        u.PubKey.elems ≠ k.elems) → (s.Balance L k).1 = .ok 0) := by
  have hbal : (s.Balance L k).1
      = .ok (wrapInt64 (sumOwnedBy L k.elems s.store.kv.entries)) := by
    simp only [Set.Balance, hf, Bool.false_eq_true, if_false]
    rw [balanceLoop_eq L k.elems s.store.kv.entries 0 hdec (by decide), zero_add,
      ownedSum_eq_sumOwnedBy]
  refine ⟨hbal, ?_, ?_⟩
  · intro h1 h2
    rw [hbal, wrapInt64_of_range h1 (by unfold MaxInt64 at h2; omega)]
  · intro hnone
    have hz : sumOwnedBy L k.elems s.store.kv.entries = 0 := by
      unfold sumOwnedBy
      have : ((s.store.kv.entries.filterMap fun e => L.jsonUnmarshalSpend e.2).filter
          fun u => decide (u.PubKey.elems = k.elems)) = [] := by
        rw [List.filter_eq_nil_iff]
        intro u hu
        obtain ⟨e, he, heu⟩ := List.mem_filterMap.1 hu
        simpa using hnone e he u heu
      rw [this]
      rfl
    rw [hbal, hz]
    rfl

set_option maxRecDepth 100000 in
/-- Instance of C18: the balance of the key `[1]` on `demoFundedChain` is 100. -/
theorem Balance_is_sum_demo : (demoFundedChain.set.Balance demoLib (.of [1])).1 = .ok 100 :=
  (Balance_is_sum demoLib demoFundedChain.set (.of [1]) (by decide) (by decide)).2.1
    (by decide) (by decide)

/-! ## The inputs of a confirmed block and the UTXO index -/

/-- C19, as amended.  On stores whose calls do not fail, with the tip a stored block
that decodes, let no input of a transaction of the new block refer to an output of a
transaction placed later in the block.  Then `MineBlockFromPool` succeeds and
afterwards, for every transaction of the new block and every one of its inputs, the
UTXO index has no entry at the coordinate the input refers to. -/
theorem spent_inputs_absent (L : Lib) (now now2 : Int) (c : Chain) (miner : Slice Nat)
    (t : Block) (htip : (c.blocks.kv.get c.tip.elems).bind (Block.Deserialize L) = some t)
    (hf1 : c.blocks.faults = []) (hf2 : c.set.store.faults = [])
    (hord : spendsNoLater L (coinbaseTx now miner :: c.pool.List)) :
    ∃ b c2, c.MineBlockFromPool L now now2 miner = (.ok b, c2) ∧
      ∀ tx ∈ b.Transactions.elems, ∀ inp ∈ tx.Inputs.elems,
        (c2.set.Find L inp.PreviousKey.elems inp.OutputIndex).1 = .error .notFound := by
  refine ⟨_, _, MineBlockFromPool_nofault L now now2 c miner t htip hf1 hf2, ?_⟩
  intro tx htx inp hinp
  have htxs : (sealedBlock L now2 t (.of (coinbaseTx now miner :: c.pool.List))).Transactions.elems
      = coinbaseTx now miner :: c.pool.List := rfl
  rw [htxs] at htx
  have hkey : utxoKey inp.PreviousKey.elems inp.OutputIndex
      ∈ blockInputKeys (coinbaseTx now miner :: c.pool.List) := by
    simp only [blockInputKeys, List.mem_flatMap, inputKeys, List.mem_map]
    exact ⟨tx, htx, inp, hinp, rfl⟩
  have hnot := (isSome_get_kvUpdate L (utxoKey inp.PreviousKey.elems inp.OutputIndex)
    (coinbaseTx now miner :: c.pool.List) c.set.store.kv hord).not.2
      (fun h => h.2 hkey)
  rw [Find_nofault]
  cases hg : (kvUpdate L (coinbaseTx now miner :: c.pool.List) c.set.store.kv).get
      (utxoKey inp.PreviousKey.elems inp.OutputIndex) with
  | none => rfl
  | some v => simp [hg] at hnot

set_option maxRecDepth 100000 in
/-- Instance of C19 as amended: mining `demoSpendTx` on `demoFundedChain`. -/
theorem spent_inputs_absent_demo :
    ∃ b c2, demoFundedChain.MineBlockFromPool demoLib 9 9 (.of [4]) = (.ok b, c2) ∧
      ∀ tx ∈ b.Transactions.elems, ∀ inp ∈ tx.Inputs.elems,
        (c2.set.Find demoLib inp.PreviousKey.elems inp.OutputIndex).1 = .error .notFound :=
  spent_inputs_absent demoLib 9 9 demoFundedChain (.of [4])
    (gobBlock (NewGenesisBlock demoLib 7)) (by decide) rfl rfl
    (by simp [spendsNoLater, inCoords, outCoords, coinbaseTx, demoFundedChain, demoPoolChain,
      demoChain, NewPool, Pool.Add, Pool.List, demoSpendTx])

set_option maxRecDepth 100000 in
/-- C19, counterexample to the claim as stated.  The pool lists `demoEarlierTx`, whose
input refers to output 0 of `demoLaterTx`, before `demoLaterTx`.  `MineBlockFromPool`
succeeds with both in the block, in that order after the coinbase, and afterwards the
UTXO index holds an entry at the coordinate the input refers to: the removal came
before the output was added. -/
theorem later_output_stays_indexed :
    (poolAddAll demoLib demoChain.pool [demoEarlierTx, demoLaterTx]).1 = [none, none] ∧
    (demoOrderChain.MineBlockFromPool demoLib 9 9 (.of [4])).1.toOption.map
      (fun b => b.Transactions.elems)
        = some [coinbaseTx 9 (.of [4]), demoEarlierTx, demoLaterTx] ∧
    demoEarlierTx.Inputs.elems.map (fun inp => (inp.PreviousKey.elems, inp.OutputIndex))
      = [(demoLaterTx.Key demoLib, 0)] ∧
    ((demoOrderChain.MineBlockFromPool demoLib 9 9 (.of [4])).2.set.Find demoLib
      (demoLaterTx.Key demoLib) 0).1 = .ok { Value := 7, PubKey := .of [6] } := by
  decide

/-! ## The gob round trip of a transaction -/

theorem gobSlice_eq_self {α : Type} (s : Slice α) : gobSlice s = s ↔ s ≠ .of [] := by
  cases s with
  | nil => simp [gobSlice]
  | of xs => cases xs <;> simp [gobSlice]

theorem gobInput_eq_self (i : Input) :
    gobInput i = i ↔ i.PreviousKey ≠ .of [] ∧ i.Signature ≠ .of [] ∧ i.PubKey ≠ .of [] := by
  obtain ⟨pk, idx, sig, pub⟩ := i
  simp [gobInput, gobSlice_eq_self]

theorem gobOutput_eq_self (o : Output) : gobOutput o = o ↔ o.PubKey ≠ .of [] := by
  obtain ⟨v, pub⟩ := o
  simp [gobOutput, gobSlice_eq_self]

theorem map_eq_self_iff {α : Type} (f : α → α) (l : List α) :
    l.map f = l ↔ ∀ a ∈ l, f a = a := by
  induction l with
  | nil => simp
  | cons a rest ih => simp [ih]

theorem gobTx_inputs_eq_self (tx : Transaction) :
    (gobTx tx).Inputs = tx.Inputs ↔
      tx.Inputs ≠ .of [] ∧ ∀ i ∈ tx.Inputs.elems, gobInput i = i := by
  cases h : tx.Inputs with
  | nil => simp [gobTx, h, gobSlice]
  | of xs =>
    cases xs with
    | nil => simp [gobTx, h, gobSlice]
    | cons a rest => simp [gobTx, h, gobSlice, map_eq_self_iff]

theorem gobTx_outputs_eq_self (tx : Transaction) :
    (gobTx tx).Outputs = tx.Outputs ↔
      tx.Outputs ≠ .of [] ∧ ∀ o ∈ tx.Outputs.elems, gobOutput o = o := by
  cases h : tx.Outputs with
  | nil => simp [gobTx, h, gobSlice]
  | of xs =>
    cases xs with
    | nil => simp [gobTx, h, gobSlice]
    | cons a rest => simp [gobTx, h, gobSlice, map_eq_self_iff]

/-- The transactions `encoding/gob` reads back unchanged. -/
theorem gobTx_eq_self (tx : Transaction) : gobTx tx = tx ↔ noEmptySlice tx := by
  have h1 := gobTx_inputs_eq_self tx
  have h2 := gobTx_outputs_eq_self tx
  have h3 : gobTx tx = tx ↔ (gobTx tx).Inputs = tx.Inputs ∧ (gobTx tx).Outputs = tx.Outputs := by
    constructor
    · intro h
      rw [h]
      exact ⟨rfl, rfl⟩
    · rintro ⟨hi, ho⟩
      obtain ⟨ver, ins, outs, ts, fee⟩ := tx
      simp only [gobTx, Transaction.mk.injEq, true_and, and_true]
      exact ⟨hi, ho⟩
  rw [h3, h1, h2]
  simp only [gobInput_eq_self, gobOutput_eq_self, noEmptySlice]
  tauto

set_option maxRecDepth 100000 in
/-- C15 (the code departs from it).  The coinbase transaction of `MineBlockFromPool`
and the transaction of the genesis block are built with `Inputs: []Input{}`, an empty
non-nil slice.  `Deserialize` applied to `Serialize` of either succeeds and yields the
transaction with `Inputs` nil, which is not the transaction that was written; a
transaction without empty slices (`demoSpendTx`) is read back as written. -/
theorem coinbase_not_read_back :
    (coinbaseTx 9 (.of [4])).Inputs = .of [] ∧
    Transaction.Deserialize demoLib ((coinbaseTx 9 (.of [4])).Serialize demoLib)
      = some { coinbaseTx 9 (.of [4]) with Inputs := .nil } ∧
    Transaction.Deserialize demoLib ((coinbaseTx 9 (.of [4])).Serialize demoLib)
      ≠ some (coinbaseTx 9 (.of [4])) ∧
    genesisTx.Inputs = .of [] ∧
    Transaction.Deserialize demoLib (genesisTx.Serialize demoLib)
      = some { genesisTx with Inputs := .nil } ∧
    Transaction.Deserialize demoLib (genesisTx.Serialize demoLib) ≠ some genesisTx ∧
    Transaction.Deserialize demoLib (demoSpendTx.Serialize demoLib) = some demoSpendTx := by
  decide

/-! ## The identifier of a transaction before and after storage -/

set_option maxRecDepth 100000 in
/-- C16 (the code departs from it).  `MineBlockFromPool` on the demo chain enters the
coinbase output in the UTXO index under the identifier computed on the transaction in
memory.  The block read back from the store holds the coinbase with `Inputs` nil, whose
`Key()` is another identifier, and `FindTransactionByID` with the identifier of the
index finds no transaction. -/
theorem coinbase_identifier_changes :
    (demoChain.MineBlockFromPool demoLib 9 9 (.of [4])).1.toBool = true ∧
    ((demoChain.MineBlockFromPool demoLib 9 9 (.of [4])).2.set.Find demoLib
      ((coinbaseTx 9 (.of [4])).Key demoLib) 0).1 = .ok { Value := 50, PubKey := .of [4] } ∧
    (Transaction.Deserialize demoLib ((coinbaseTx 9 (.of [4])).Serialize demoLib)).map
      (fun tx => decide (tx.Key demoLib = (coinbaseTx 9 (.of [4])).Key demoLib)) = some false ∧
    (chainFrom demoLib (demoChain.MineBlockFromPool demoLib 9 9 (.of [4])).2.blocks.kv 2
      (demoChain.MineBlockFromPool demoLib 9 9 (.of [4])).2.tip.elems).map
        (fun bs => (blockTxs bs).map fun tx => tx.Inputs)
          = some [.nil, .nil] ∧
    ((demoChain.MineBlockFromPool demoLib 9 9 (.of [4])).2.FindTransactionByID demoLib 2
      ((coinbaseTx 9 (.of [4])).Key demoLib)).map Prod.fst = some (.error .notFound) := by
  decide

/-! ## The store key of the UTXO index and the frame of `Set.Add` and `Set.Remove` -/

/-- The value `Set.Find` returns depends on the store only through the entry under the
key asked for and through whether the coming store call fails. -/
theorem Find_fst_congr (L : Lib) (s s2 : Set) (t : Bytes) (i : Int)
    (hk : s.store.kv.get (utxoKey t i) = s2.store.kv.get (utxoKey t i))
    (hf : s.store.fails = s2.store.fails) :
    (s.Find L t i).1 = (s2.Find L t i).1 := by
  simp only [Set.Find, DB.Get, hk, hf]
  cases s2.store.fails with
  | true => rfl
  | false =>
    cases s2.store.kv.get (utxoKey t i) with
    | none => rfl
    | some v =>
      simp only [Bool.false_eq_true, if_false]
      cases L.jsonUnmarshalSpend v <;> rfl

/-- The entry under another key after `Set.Add`, whether or not the write failed. -/
theorem Add_get_other (L : Lib) (s : Set) (t : Bytes) (i : Int) (u : Spend) {k : Bytes}
    (h : k ≠ utxoKey t i) :
    (s.Add L t i u).2.store.kv.get k = s.store.kv.get k := by
  simp only [Set.Add, DB.Put]
  cases s.store.fails with
  | true => rfl
  | false => exact KV.get_put_ne _ _ h

/-- The entry under another key after `Set.Remove`, whether or not the deletion failed. -/
theorem Remove_get_other (s : Set) (t : Bytes) (i : Int) {k : Bytes}
    (h : k ≠ utxoKey t i) :
    (s.Remove t i).2.store.kv.get k = s.store.kv.get k := by
  simp only [Set.Remove, DB.Delete]
  cases s.store.fails with
  | true => rfl
  | false => exact KV.get_erase_ne _ h

/-- The fault flags left after `Set.Add`: one call was made. -/
theorem Add_faults (L : Lib) (s : Set) (t : Bytes) (i : Int) (u : Spend) :
    (s.Add L t i u).2.store.faults = s.store.faults.tail := by
  simp only [Set.Add, DB.Put]
  cases s.store.fails <;> rfl

/-- The fault flags left after `Set.Remove`: one call was made. -/
theorem Remove_faults (s : Set) (t : Bytes) (i : Int) :
    (s.Remove t i).2.store.faults = s.store.faults.tail := by
  simp only [Set.Remove, DB.Delete]
  cases s.store.fails <;> rfl

/-- C21.  The store key `"<txID>:<outputIndex>"` is injective in the pair
`(txID, outputIndex)`, for every byte string `txID` (with or without `':'`) and every
integer `outputIndex` (negative or not).  Hence, for every state of the UTXO store and
every pattern of store failures, `Set.Add` and `Set.Remove` at one coordinate leave the
entry at every other coordinate as it was, and `Set.Find` at another coordinate returns
after them what it returns on the store as it was, one store call later; with no store
failure that is what `Set.Find` returned before. -/
theorem Set_key_injective_frame (L : Lib) (s : Set) (t t2 : Bytes) (i i2 : Int) (u : Spend) :
    (utxoKey t i = utxoKey t2 i2 ↔ t = t2 ∧ i = i2) ∧
    ((t, i) ≠ (t2, i2) →
      (s.Add L t i u).2.store.kv.get (utxoKey t2 i2) = s.store.kv.get (utxoKey t2 i2) ∧
      (s.Remove t i).2.store.kv.get (utxoKey t2 i2) = s.store.kv.get (utxoKey t2 i2) ∧
      ((s.Add L t i u).2.Find L t2 i2).1 = ((⟨s.store.step⟩ : Set).Find L t2 i2).1 ∧
      ((s.Remove t i).2.Find L t2 i2).1 = ((⟨s.store.step⟩ : Set).Find L t2 i2).1 ∧
      (s.store.faults = [] →
        ((s.Add L t i u).2.Find L t2 i2).1 = (s.Find L t2 i2).1 ∧
        ((s.Remove t i).2.Find L t2 i2).1 = (s.Find L t2 i2).1)) := by
  refine ⟨⟨utxoKey_injective, fun h => by rw [h.1, h.2]⟩, fun hne => ?_⟩
  have hk : utxoKey t2 i2 ≠ utxoKey t i := by
    intro h
    obtain ⟨h1, h2⟩ := utxoKey_injective h
    exact hne (by rw [h1, h2])
  have ha := Add_get_other L s t i u hk
  have hr := Remove_get_other s t i hk
  have hfa : (s.Add L t i u).2.store.fails = s.store.step.fails := by
    simp only [DB.fails, DB.step, Add_faults]
  have hfr : (s.Remove t i).2.store.fails = s.store.step.fails := by
    simp only [DB.fails, DB.step, Remove_faults]
  refine ⟨ha, hr, Find_fst_congr L _ _ t2 i2 ha hfa, Find_fst_congr L _ _ t2 i2 hr hfr, ?_⟩
  intro hf
  have hs : s.store.step.fails = s.store.fails := by
    simp [DB.fails, DB.step, hf]
  exact ⟨Find_fst_congr L _ _ t2 i2 ha (hfa.trans hs),
    Find_fst_congr L _ _ t2 i2 hr (hfr.trans hs)⟩

set_option maxRecDepth 100000 in
/-- Instance of C21: on the funded demo index, which holds the output `P:0`, an entry is
added and one removed at the coordinate with `txID` `P:0` and `outputIndex` `-1` (key
`P:0:-1`); `Set.Find` at the coordinate (`P`, 0) returns the same as before, the output
of value 100. -/
theorem Set_key_injective_frame_demo :
    (([80, 58, 48], (-1 : Int)) : Bytes × Int) ≠ ([80], 0) ∧
    ((demoFundedChain.set.Add demoLib [80, 58, 48] (-1) { Value := 7, PubKey := .of [2] }).2.Find
      demoLib [80] 0).1 = (demoFundedChain.set.Find demoLib [80] 0).1 ∧
    ((demoFundedChain.set.Remove [80, 58, 48] (-1)).2.Find demoLib [80] 0).1
      = (demoFundedChain.set.Find demoLib [80] 0).1 ∧
    (demoFundedChain.set.Find demoLib [80] 0).1 = .ok { Value := 100, PubKey := .of [1] } :=
  ⟨by decide,
   (((Set_key_injective_frame demoLib demoFundedChain.set [80, 58, 48] [80] (-1) 0
      { Value := 7, PubKey := .of [2] }).2 (by decide)).2.2.2.2 rfl).1,
   (((Set_key_injective_frame demoLib demoFundedChain.set [80, 58, 48] [80] (-1) 0
      { Value := 7, PubKey := .of [2] }).2 (by decide)).2.2.2.2 rfl).2,
   by decide⟩

/-! ## The hash of the blocks the chain stores -/

/-- The digest over the header of a block as `encoding/gob` reads it back is the digest
over the header of the block written when no transaction of the block has an empty
slice. -/
theorem headerDigest_gobBlock (L : Lib) (b : Block)
    (h : ∀ tx ∈ b.Transactions.elems, noEmptySlice tx) :
    headerDigest L (gobBlock b) = headerDigest L b := by
  have htx : (gobBlock b).Transactions.elems = b.Transactions.elems := by
    rw [gobBlock_txs]
    exact (map_eq_self_iff gobTx _).2 fun tx htx => (gobTx_eq_self tx).2 (h tx htx)
  have h1 : (gobBlock b).PrevHash.elems = b.PrevHash.elems := gobSlice_elems _
  have h2 : (gobBlock b).Timestamp = b.Timestamp := rfl
  have h3 : (gobBlock b).Nonce = b.Nonce := rfl
  simp only [headerDigest, Block.HashTransactions, htx, h1, h2, h3]

/-- C17, as amended.  The block value `NewChain` builds for the genesis block has a
`Hash` equal to the SHA-256 digest over its `PrevHash`, `HashTransactions()`, decimal
`Timestamp` and decimal `Nonce`, which is 0: no proof of work is run for it, and its
hash need not satisfy the difficulty.  The block value `MineBlock` builds has, when some
nonce in `[0, MaxInt32)` is accepted for its data, a `Hash` equal to that digest for its
own `Nonce`, with `Difficulty` leading `'0'` characters in hex.  Each is written to the
store as its gob encoding under its hash.  The block read back from the store (when gob
decodes the bytes to the block with empty slices as nil) carries the `Hash` and `Nonce`
that were written, so a mined block read back has the leading zeros; the digest over
its header as read back is the stored `Hash` when no transaction of the block has an
empty non-nil slice. -/
theorem stored_block_hash (L : Lib) :
    (∀ now : Int,
      (NewGenesisBlock L now).Hash = .of (headerDigest L (NewGenesisBlock L now)) ∧
      (NewGenesisBlock L now).Nonce = 0 ∧
      ∃ c, NewChain L now DB.empty DB.empty = .ok c ∧
        c.blocks.kv.get (NewGenesisBlock L now).Hash.elems
          = some ((NewGenesisBlock L now).Serialize L) ∧
        (Block.Deserialize L ((NewGenesisBlock L now).Serialize L)
            = some (gobBlock (NewGenesisBlock L now)) →
          ∃ s, (c.blocks.kv.get (NewGenesisBlock L now).Hash.elems).bind (Block.Deserialize L)
              = some s ∧
            s.Hash.elems = headerDigest L (NewGenesisBlock L now) ∧ s.Nonce = 0)) ∧
    (∀ (now : Int) (c : Chain) (txs : Slice Transaction) (b : Block) (c2 : Chain),
      c.MineBlock L now txs = (.ok b, c2) →
      c2.blocks.kv.get b.Hash.elems = some (b.Serialize L) ∧
      ((∃ n : Nat, n < MaxInt32 ∧ (List.replicate Difficulty 48).isPrefixOf (hexEncode
          (L.sha256 (b.PrevHash.elems ++ b.HashTransactions L ++ decimal b.Timestamp
            ++ decimal n))) = true) →
        b.Hash = .of (headerDigest L b) ∧
        (List.replicate Difficulty 48).isPrefixOf (hexEncode b.Hash.elems) = true) ∧
      (Block.Deserialize L (b.Serialize L) = some (gobBlock b) →
        ∃ s, (c2.blocks.kv.get b.Hash.elems).bind (Block.Deserialize L) = some s ∧
          s.Hash.elems = b.Hash.elems ∧ s.Nonce = b.Nonce ∧
          ((∃ n : Nat, n < MaxInt32 ∧ (List.replicate Difficulty 48).isPrefixOf (hexEncode
              (L.sha256 (b.PrevHash.elems ++ b.HashTransactions L ++ decimal b.Timestamp
                ++ decimal n))) = true) →
            (List.replicate Difficulty 48).isPrefixOf (hexEncode s.Hash.elems) = true ∧
            ((∀ tx ∈ txs.elems, noEmptySlice tx) → s.Hash.elems = headerDigest L s)))) := by
  constructor
  · intro now
    have hst : ((KV.empty.put (NewGenesisBlock L now).Hash.elems
        ((NewGenesisBlock L now).Serialize L)).put chainstateKey
          (NewGenesisBlock L now).Hash.elems).get (NewGenesisBlock L now).Hash.elems
        = some ((NewGenesisBlock L now).Serialize L) := by
      rw [KV.get_put_ne _ _ (genesis_hash_ne_chainstateKey L now), KV.get_put_self]
    refine ⟨rfl, rfl, _, NewChain_empty_eq L now, hst, ?_⟩
    intro hgob
    refine ⟨gobBlock (NewGenesisBlock L now), ?_, gobSlice_elems _, rfl⟩
    show (((KV.empty.put _ _).put chainstateKey _).get _).bind _ = _
    rw [hst]
    exact hgob
  · intro now c txs b c2 h
    obtain ⟨data, t, hg, hd, hb, hc⟩ := MineBlock_ok_inv L now c txs b c2 h
    have hne : b.Hash.elems ≠ chainstateKey := hb ▸ sealedBlock_hash_ne L now t txs
    have hst : c2.blocks.kv.get b.Hash.elems = some (b.Serialize L) := by
      rw [hc]
      show ((c.blocks.kv.put b.Hash.elems (b.Serialize L)).put chainstateKey b.Hash.elems).get
        b.Hash.elems = _
      rw [KV.get_put_ne _ _ hne, KV.get_put_self]
    have hval : (∃ n : Nat, n < MaxInt32 ∧ (List.replicate Difficulty 48).isPrefixOf (hexEncode
          (L.sha256 (b.PrevHash.elems ++ b.HashTransactions L ++ decimal b.Timestamp
            ++ decimal n))) = true) →
        b.Hash = .of (headerDigest L b) ∧
        (List.replicate Difficulty 48).isPrefixOf (hexEncode b.Hash.elems) = true := by
      intro hex
      rw [hb] at hex ⊢
      exact sealedBlock_valid L now t txs hex
    refine ⟨hst, hval, ?_⟩
    intro hgob
    refine ⟨gobBlock b, ?_, gobSlice_elems _, rfl, ?_⟩
    · rw [hst]
      exact hgob
    · intro hex
      obtain ⟨h1, h2⟩ := hval hex
      have h3 : (gobBlock b).Hash.elems = b.Hash.elems := gobSlice_elems _
      refine ⟨by rw [h3]; exact h2, ?_⟩
      intro hall
      have htx : b.Transactions = txs := by rw [hb]; rfl
      rw [headerDigest_gobBlock L b (by rw [htx]; exact hall), h3, h1]
      rfl

set_option maxRecDepth 100000 in
/-- Instance of C17 as amended: the block mined on the demo chain with `demoSpendTx`,
which has no empty slice, is read back from the store with a `Hash` that is the digest
over its header and has the leading zeros. -/
theorem stored_block_hash_demo :
    ∃ b c2 s, demoChain.MineBlock demoLib 9 (.of [demoSpendTx]) = (.ok b, c2) ∧
      (c2.blocks.kv.get b.Hash.elems).bind (Block.Deserialize demoLib) = some s ∧
      s.Hash.elems = headerDigest demoLib s ∧
      (List.replicate Difficulty 48).isPrefixOf (hexEncode s.Hash.elems) = true := by
  obtain ⟨s, h1, -, -, h2⟩ := ((stored_block_hash demoLib).2 9 demoChain (.of [demoSpendTx])
    _ _ rfl).2.2 (by decide)
  have h3 := h2 ⟨0, by decide, by decide⟩
  exact ⟨_, _, s, rfl, h1, h3.2 (by simp [noEmptySlice, demoSpendTx]), h3.1⟩

set_option maxRecDepth 100000 in
/-- C17, counterexample to the claim as stated.  With `lateLib`, whose digests start
with zeros only on data ending in the digit `3`, `NewChain` on empty stores writes a
genesis block whose hash does not have `Difficulty` leading `'0'` characters.  With the
demo library, the genesis block `NewChain` wrote at clock reading 7 is read back from
the store with its transaction's `Inputs` nil, and the digest over its header is not
its `Hash`; the same holds of the block `MineBlockFromPool` writes, which holds a
coinbase. -/
theorem genesis_hash_fails_difficulty :
    (∃ c, NewChain lateLib 7 DB.empty DB.empty = .ok c ∧
      c.blocks.kv.get (NewGenesisBlock lateLib 7).Hash.elems
        = some ((NewGenesisBlock lateLib 7).Serialize lateLib)) ∧
    (List.replicate Difficulty 48).isPrefixOf
      (hexEncode (NewGenesisBlock lateLib 7).Hash.elems) = false ∧
    (∃ c, NewChain demoLib 7 DB.empty DB.empty = .ok c ∧
      ((c.blocks.kv.get (NewGenesisBlock demoLib 7).Hash.elems).bind
        (Block.Deserialize demoLib)).map
          (fun s => (s.Hash.elems, decide (s.Hash.elems = headerDigest demoLib s)))
        = some ((NewGenesisBlock demoLib 7).Hash.elems, false)) ∧
    ((demoChain.MineBlockFromPool demoLib 9 9 (.of [4])).1.toOption.bind fun b =>
      ((demoChain.MineBlockFromPool demoLib 9 9 (.of [4])).2.blocks.kv.get b.Hash.elems).bind
        fun data => (Block.Deserialize demoLib data).map
          fun s => (decide (s.Hash = b.Hash), decide (s.Hash.elems = headerDigest demoLib s)))
      = some (true, false) :=
  ⟨⟨_, NewChain_empty_eq lateLib 7, by decide⟩, by decide,
    ⟨_, NewChain_empty_eq demoLib 7, by decide⟩, by decide⟩

end Blockchain
